import Mathlib

/-!
# Page replacement simulator: FIFO, OPT, LRU, Clock

Shallow embedding of `src/page_replacement.cpp`.

* A `vector<int>` is a `List Int`; an empty frame holds the sentinel `INT_MIN`.
* Every C++ `int` that can be negative (page identifiers, `nextpos`, `farthest`,
  LRU timestamps, use-bits) is an `Int`.  Counters that only grow from `0`
  (`faults`, the loop index `i`, `pointer`, slot indices) are `Nat`; they are
  bounded by `seq.size()` or by `frames_count`, both of which fit an `int`, so
  no wrap-around can occur.
* The text printed by `print_step` is modelled by the list of `StepRecord`s, one
  per call.
* Behaviour that C++ leaves undefined (reading or writing a vector out of range,
  `front()` of an empty queue) and the exception thrown by the `vector`
  constructor for a negative size are explicit `SimError` results.
-/

namespace PageReplacement

/-- Value of `INT_MIN` from `<climits>`; the source stores it in an empty frame. -/
def INT_MIN : Int := -2147483648

/-- Value of `INT_MAX` from `<climits>`. -/
def INT_MAX : Int := 2147483647

/-- Abnormal outcomes of a run. -/
inductive SimError where
  /-- `std::length_error` thrown by `vector<int>(n, v)` when the `int` `n` is negative
  (converted to `size_t` it exceeds `max_size()`). -/
  | length_error
  /-- An operation whose behaviour C++ leaves undefined was reached. -/
  | undefined_behaviour
  deriving DecidableEq, Repr

/-- One call of `print_step(frames, cur_page, step, hit)`. -/
structure StepRecord where
  frames : List Int
  cur_page : Int
  step : Nat
  hit : Bool
  deriving DecidableEq, Repr

/-- The record produced by `print_step`. -/
def print_step (frames : List Int) (cur_page : Int) (step : Nat) (hit : Bool) : StepRecord :=
  { frames := frames, cur_page := cur_page, step := step, hit := hit }

/-- The statement `if (verbose) print_step(frames, pg, i + 1, hit);`. -/
def emit (verbose : Bool) (out : List StepRecord) (frames : List Int) (pg : Int) (i : Nat)
    (hit : Bool) : List StepRecord :=
  if verbose then out ++ [print_step frames pg (i + 1) hit] else out

/-- The constructor call `vector<int> v(count, value)` with an `int` count. -/
def new_vector (count : Int) (value : Int) : Except SimError (List Int) :=
  if count < 0 then .error .length_error else .ok (List.replicate count.toNat value)

/-- The hit loop `for (int f : frames) if (f == pg) { hit = true; break; }`. -/
def hit_test (frames : List Int) (pg : Int) : Bool :=
  frames.any (fun f => f == pg)

/-- The loop `for (j = 0; j < frames_count; ++j) if (frames[j] == target) { frames[j] = pg; break; }`:
the new frame vector and whether a slot was written. -/
def replace_first (target pg : Int) : List Int → List Int × Bool
  | [] => ([], false)
  | f :: fs =>
    if f = target then (pg :: fs, true)
    else ((f :: (replace_first target pg fs).1), (replace_first target pg fs).2)

/-- The outer loop `for (int i = 0; i < (int)seq.size(); ++i) { int pg = seq[i]; body }` shared by
the four engines: the state after the first `n` iterations, starting from `init`. -/
def iterate_refs {σ : Type} (seq : List Int) (init : Except SimError σ)
    (body : σ → Nat → Int → Except SimError σ) : Nat → Except SimError σ
  | 0 => init
  | i + 1 =>
    match iterate_refs seq init body i with
    | .error e => .error e
    | .ok st =>
      match seq[i]? with
      | none => .error .undefined_behaviour
      | some pg => body st i pg

/-! ## FIFO -/

/-- Local variables of `simulate_fifo`; `q` is the `queue<int>`, front first. -/
structure FifoState where
  frames : List Int
  q : List Int
  faults : Nat
  out : List StepRecord

/-- Body of the loop of `simulate_fifo` for reference `pg = seq[i]`. -/
def fifo_body (frames_count : Int) (verbose : Bool) (st : FifoState) (i : Nat) (pg : Int) :
    Except SimError FifoState :=
  if hit_test st.frames pg then
    .ok { st with out := emit verbose st.out st.frames pg i true }
  else if (st.q.length : Int) < frames_count then
    let frames := (replace_first INT_MIN pg st.frames).1
    .ok { frames := frames, q := st.q ++ [pg], faults := st.faults + 1,
          out := emit verbose st.out frames pg i false }
  else
    match st.q with
    | [] => .error .undefined_behaviour
    | victim :: rest =>
      let frames := (replace_first victim pg st.frames).1
      .ok { frames := frames, q := rest ++ [pg], faults := st.faults + 1,
            out := emit verbose st.out frames pg i false }

/-- State of `simulate_fifo` before the loop. -/
def fifo_init (frames_count : Int) : Except SimError FifoState :=
  match new_vector frames_count INT_MIN with
  | .error e => .error e
  | .ok frames => .ok { frames := frames, q := [], faults := 0, out := [] }

/-- State of `simulate_fifo` after `n` iterations of its loop. -/
def fifo_iter (seq : List Int) (frames_count : Int) (verbose : Bool) (n : Nat) :
    Except SimError FifoState :=
  iterate_refs seq (fifo_init frames_count) (fifo_body frames_count verbose) n

/-- The function `simulate_fifo`: the returned fault count and the printed step records. -/
def simulate_fifo (seq : List Int) (frames_count : Int) (verbose : Bool) :
    Except SimError (Nat × List StepRecord) :=
  match fifo_iter seq frames_count verbose seq.length with
  | .error e => .error e
  | .ok st => .ok (st.faults, st.out)

/-! ## OPT -/

/-- Local variables of `simulate_opt`. -/
structure OptState where
  frames : List Int
  faults : Nat
  out : List StepRecord

/-- The scan `for (k = ...; k < seq.size(); ++k) if (seq[k] == page) { nextpos = k; break; }`
over the references `xs = seq[k..]`; `-1` when the page does not occur. -/
def find_next (page : Int) : List Int → Nat → Int
  | [], _ => -1
  | x :: xs, k => if x = page then (k : Int) else find_next page xs (k + 1)

/-- The victim loop of `simulate_opt` at step `i` over the slots `frames[j..]`, with the current
`victim_idx` and `farthest`; returns the final `victim_idx` (`farthest` is dead after a `break`). -/
def opt_scan (seq : List Int) (i : Nat) : List Int → Nat → Nat → Int → Nat
  | [], _, victim_idx, _ => victim_idx
  | f :: fs, j, victim_idx, farthest =>
    if find_next f (seq.drop (i + 1)) (i + 1) = -1 then j
    else if find_next f (seq.drop (i + 1)) (i + 1) > farthest then
      opt_scan seq i fs (j + 1) j (find_next f (seq.drop (i + 1)) (i + 1))
    else opt_scan seq i fs (j + 1) victim_idx farthest

/-- Body of the loop of `simulate_opt` for reference `pg = seq[i]`. -/
def opt_body (seq : List Int) (verbose : Bool) (st : OptState) (i : Nat) (pg : Int) :
    Except SimError OptState :=
  if hit_test st.frames pg then
    .ok { st with out := emit verbose st.out st.frames pg i true }
  else if (replace_first INT_MIN pg st.frames).2 then
    let frames := (replace_first INT_MIN pg st.frames).1
    .ok { frames := frames, faults := st.faults + 1,
          out := emit verbose st.out frames pg i false }
  else
    let victim_idx := opt_scan seq i st.frames 0 0 (-1)
    if victim_idx < st.frames.length then
      let frames := st.frames.set victim_idx pg
      .ok { frames := frames, faults := st.faults + 1,
            out := emit verbose st.out frames pg i false }
    else .error .undefined_behaviour

/-- State of `simulate_opt` before the loop. -/
def opt_init (frames_count : Int) : Except SimError OptState :=
  match new_vector frames_count INT_MIN with
  | .error e => .error e
  | .ok frames => .ok { frames := frames, faults := 0, out := [] }

/-- State of `simulate_opt` after `n` iterations of its loop. -/
def opt_iter (seq : List Int) (frames_count : Int) (verbose : Bool) (n : Nat) :
    Except SimError OptState :=
  iterate_refs seq (opt_init frames_count) (opt_body seq verbose) n

/-- The function `simulate_opt`: the returned fault count and the printed step records. -/
def simulate_opt (seq : List Int) (frames_count : Int) (verbose : Bool) :
    Except SimError (Nat × List StepRecord) :=
  match opt_iter seq frames_count verbose seq.length with
  | .error e => .error e
  | .ok st => .ok (st.faults, st.out)

/-! ## LRU -/

/-- Local variables of `simulate_lru`; `last_used` is the `unordered_map<int, int>`. -/
structure LruState where
  frames : List Int
  last_used : Int → Option Int
  time : Int
  faults : Nat
  out : List StepRecord

/-- The assignment `m[k] = v` on an `unordered_map`. -/
def map_insert (m : Int → Option Int) (k v : Int) : Int → Option Int :=
  fun x => if x = k then some v else m x

/-- The call `m.erase(k)` on an `unordered_map`. -/
def map_erase (m : Int → Option Int) (k : Int) : Int → Option Int :=
  fun x => if x = k then none else m x

/-- The expression `last_used.count(p) ? last_used[p] : 0`. -/
def stamp_of (last_used : Int → Option Int) (p : Int) : Int :=
  match last_used p with
  | some t => t
  | none => 0

/-- The victim loop of `simulate_lru` over the slots `frames[j..]`, with the current `lru_idx`
and `lru_time`; returns the final `lru_idx`. -/
def lru_scan (last_used : Int → Option Int) : List Int → Nat → Nat → Int → Nat
  | [], _, lru_idx, _ => lru_idx
  | p :: fs, j, lru_idx, lru_time =>
    if stamp_of last_used p < lru_time then
      lru_scan last_used fs (j + 1) j (stamp_of last_used p)
    else lru_scan last_used fs (j + 1) lru_idx lru_time

/-- Body of the loop of `simulate_lru` for reference `pg = seq[i]`. -/
def lru_body (verbose : Bool) (st : LruState) (i : Nat) (pg : Int) : Except SimError LruState :=
  let time := st.time + 1
  if hit_test st.frames pg then
    .ok { st with last_used := map_insert st.last_used pg time, time := time,
                  out := emit verbose st.out st.frames pg i true }
  else if (replace_first INT_MIN pg st.frames).2 then
    let frames := (replace_first INT_MIN pg st.frames).1
    .ok { frames := frames, last_used := map_insert st.last_used pg time, time := time,
          faults := st.faults + 1, out := emit verbose st.out frames pg i false }
  else
    let lru_idx := lru_scan st.last_used st.frames 0 0 INT_MAX
    match st.frames[lru_idx]? with
    | none => .error .undefined_behaviour
    | some victim =>
      let frames := st.frames.set lru_idx pg
      .ok { frames := frames, last_used := map_insert (map_erase st.last_used victim) pg time,
            time := time, faults := st.faults + 1,
            out := emit verbose st.out frames pg i false }

/-- State of `simulate_lru` before the loop. -/
def lru_init (frames_count : Int) : Except SimError LruState :=
  match new_vector frames_count INT_MIN with
  | .error e => .error e
  | .ok frames =>
    .ok { frames := frames, last_used := fun _ => none, time := 0, faults := 0, out := [] }

/-- State of `simulate_lru` after `n` iterations of its loop. -/
def lru_iter (seq : List Int) (frames_count : Int) (verbose : Bool) (n : Nat) :
    Except SimError LruState :=
  iterate_refs seq (lru_init frames_count) (lru_body verbose) n

/-- The function `simulate_lru`: the returned fault count and the printed step records. -/
def simulate_lru (seq : List Int) (frames_count : Int) (verbose : Bool) :
    Except SimError (Nat × List StepRecord) :=
  match lru_iter seq frames_count verbose seq.length with
  | .error e => .error e
  | .ok st => .ok (st.faults, st.out)

/-! ## Clock -/

/-- Local variables of `simulate_clock`. -/
structure ClockState where
  frames : List Int
  use : List Int
  pointer : Nat
  faults : Nat
  out : List StepRecord

/-- Result of the `while (true)` loop of `simulate_clock`; `visits` counts its iterations
(a ghost counter, not a variable of the source). -/
structure SweepResult where
  frames : List Int
  use : List Int
  pointer : Nat
  visits : Nat

/-- The hit loop of `simulate_clock` over the slots `frames[j..]`: the first `j` with
`frames[j] == pg`, if any. -/
def find_slot (pg : Int) : List Int → Nat → Option Nat
  | [], _ => none
  | f :: fs, j => if f = pg then some j else find_slot pg fs (j + 1)

/-- Number of use-bits that are set. -/
def set_bits (use : List Int) : Nat :=
  match use with
  | [] => 0
  | u :: us => (if u = 0 then 0 else 1) + set_bits us

/-- Clearing a set use-bit lowers the number of set bits. -/
theorem set_bits_clear (use : List Int) (pointer : Nat) (u : Int)
    (h : use[pointer]? = some u) (hu : ¬ u = 0) :
    set_bits (use.set pointer 0) < set_bits use := by
  induction use generalizing pointer with
  | nil => simp at h
  | cons a as ih =>
    cases pointer with
    | zero =>
      simp at h
      subst h
      simp [set_bits, hu]
    | succ n =>
      simp at h
      have := ih n h
      simp only [List.set_cons_succ, set_bits]
      omega

/-- The victim loop `while (true) { ... }` of `simulate_clock`.  `(pointer + 1) % frames_count` is
computed on naturals: the line is only reached when `frames[pointer]` exists, hence with
`frames_count >= 1`. -/
def clock_sweep (frames_count : Int) (pg : Int) (frames use : List Int) (pointer visits : Nat) :
    Except SimError SweepResult :=
  match frames[pointer]?, h : use[pointer]? with
  | some f, some u =>
    if f = INT_MIN then
      .ok { frames := frames.set pointer pg, use := use.set pointer 1,
            pointer := (pointer + 1) % frames_count.toNat, visits := visits + 1 }
    else if hu : u = 0 then
      .ok { frames := frames.set pointer pg, use := use.set pointer 1,
            pointer := (pointer + 1) % frames_count.toNat, visits := visits + 1 }
    else
      clock_sweep frames_count pg frames (use.set pointer 0)
        ((pointer + 1) % frames_count.toNat) (visits + 1)
  | _, _ => .error .undefined_behaviour
termination_by set_bits use
decreasing_by exact set_bits_clear use pointer u h hu

/-- Body of the loop of `simulate_clock` for reference `pg = seq[i]`. -/
def clock_body (frames_count : Int) (verbose : Bool) (st : ClockState) (i : Nat) (pg : Int) :
    Except SimError ClockState :=
  match find_slot pg st.frames 0 with
  | some j =>
    .ok { st with use := st.use.set j 1, out := emit verbose st.out st.frames pg i true }
  | none =>
    match clock_sweep frames_count pg st.frames st.use st.pointer 0 with
    | .error e => .error e
    | .ok r =>
      .ok { frames := r.frames, use := r.use, pointer := r.pointer, faults := st.faults + 1,
            out := emit verbose st.out r.frames pg i false }

/-- State of `simulate_clock` before the loop. -/
def clock_init (frames_count : Int) : Except SimError ClockState :=
  match new_vector frames_count INT_MIN, new_vector frames_count 0 with
  | .ok frames, .ok use =>
    .ok { frames := frames, use := use, pointer := 0, faults := 0, out := [] }
  | .error e, _ => .error e
  | _, .error e => .error e

/-- State of `simulate_clock` after `n` iterations of its loop. -/
def clock_iter (seq : List Int) (frames_count : Int) (verbose : Bool) (n : Nat) :
    Except SimError ClockState :=
  iterate_refs seq (clock_init frames_count) (clock_body frames_count verbose) n

/-- The function `simulate_clock`: the returned fault count and the printed step records. -/
def simulate_clock (seq : List Int) (frames_count : Int) (verbose : Bool) :
    Except SimError (Nat × List StepRecord) :=
  match clock_iter seq frames_count verbose seq.length with
  | .error e => .error e
  | .ok st => .ok (st.faults, st.out)

/-! ## main -/

/-- The four totals written to `results.txt`. -/
structure Summary where
  f_fifo : Nat
  f_opt : Nat
  f_lru : Nat
  f_clock : Nat
  deriving DecidableEq, Repr

/-- The part of `main` after `input.txt` has been read into `frames_count` and `seq`: the four
engines are called in the order FIFO, OPT, LRU, CLOCK with `verbose = true`, and the totals are
written out.  `main` performs no check on `frames_count`. -/
def main (frames_count : Int) (seq : List Int) : Except SimError Summary :=
  match simulate_fifo seq frames_count true with
  | .error e => .error e
  | .ok f_fifo =>
    match simulate_opt seq frames_count true with
    | .error e => .error e
    | .ok f_opt =>
      match simulate_lru seq frames_count true with
      | .error e => .error e
      | .ok f_lru =>
        match simulate_clock seq frames_count true with
        | .error e => .error e
        | .ok f_clock =>
          .ok { f_fifo := f_fifo.1, f_opt := f_opt.1, f_lru := f_lru.1, f_clock := f_clock.1 }

theorem INT_MIN_neg : INT_MIN < 0 := by decide

theorem ne_INT_MIN_of_nonneg {p : Int} (h : 0 ≤ p) : p ≠ INT_MIN := by
  intro e
  have := INT_MIN_neg
  omega

theorem hit_test_iff (frames : List Int) (pg : Int) : hit_test frames pg = true ↔ pg ∈ frames := by
  unfold hit_test
  rw [List.any_eq_true]
  constructor
  · rintro ⟨x, hx, hb⟩
    have : x = pg := by simpa using hb
    exact this ▸ hx
  · intro h
    exact ⟨pg, h, by simp⟩

theorem hit_test_false_iff (frames : List Int) (pg : Int) :
    hit_test frames pg = false ↔ pg ∉ frames := by
  rw [← hit_test_iff]; simp

theorem new_vector_ok (F : Nat) (v : Int) :
    new_vector (F : Int) v = .ok (List.replicate F v) := by
  simp [new_vector]

theorem new_vector_neg {c : Int} (h : c < 0) (v : Int) : new_vector c v = .error .length_error := by
  simp [new_vector, h]

theorem replace_first_length (target pg : Int) (l : List Int) :
    (replace_first target pg l).1.length = l.length := by
  induction l with
  | nil => rfl
  | cons f fs ih =>
    by_cases h : f = target <;> simp [replace_first, h, ih]

theorem replace_first_snd (target pg : Int) (l : List Int) :
    (replace_first target pg l).2 = true ↔ target ∈ l := by
  induction l with
  | nil => simp [replace_first]
  | cons f fs ih =>
    by_cases h : f = target
    · simp [replace_first, h]
    · have h2 : ¬ target = f := fun e => h e.symm
      simp [replace_first, h, ih, h2]

theorem replace_first_not_mem (target pg : Int) (l : List Int) (h : target ∉ l) :
    (replace_first target pg l).1 = l := by
  induction l with
  | nil => rfl
  | cons f fs ih =>
    simp at h
    have h1 : ¬ f = target := fun e => h.1 e.symm
    simp [replace_first, h1, ih h.2]

theorem replace_first_perm (target pg : Int) (l : List Int) (h : target ∈ l) :
    ((replace_first target pg l).1).Perm (pg :: l.erase target) := by
  induction l with
  | nil => simp at h
  | cons f fs ih =>
    by_cases h1 : f = target
    · subst h1
      simp [replace_first]
    · have h2 : target ∈ fs := by
        rcases List.mem_cons.1 h with e | e
        · exact absurd e.symm h1
        · exact e
      have h3 : (f :: fs).erase target = f :: fs.erase target := by
        rw [List.erase_cons_tail]
        simpa using h1
      simp only [replace_first, h1, if_false, h3]
      exact ((ih h2).cons f).trans (List.Perm.swap pg f _)

theorem replace_first_mem (target pg : Int) (l : List Int) (h : target ∈ l) :
    pg ∈ (replace_first target pg l).1 :=
  (replace_first_perm target pg l h).mem_iff.2 (List.mem_cons_self _ _)

theorem replace_first_sub (target pg : Int) (l : List Int) :
    ∀ x ∈ (replace_first target pg l).1, x = pg ∨ x ∈ l := by
  intro x hx
  by_cases h : target ∈ l
  · rcases List.mem_cons.1 ((replace_first_perm target pg l h).mem_iff.1 hx) with e | e
    · exact Or.inl e
    · exact Or.inr (List.mem_of_mem_erase e)
  · rw [replace_first_not_mem target pg l h] at hx
    exact Or.inr hx

/-! ### The shared loop -/

theorem iterate_refs_succ {σ : Type} (seq : List Int) (init : Except SimError σ)
    (body : σ → Nat → Int → Except SimError σ) (i : Nat) (st : σ) (pg : Int)
    (h : iterate_refs seq init body i = .ok st) (hp : seq[i]? = some pg) :
    iterate_refs seq init body (i + 1) = body st i pg := by
  simp [iterate_refs, h, hp]

theorem iterate_refs_inv {σ : Type} (seq : List Int) (init : Except SimError σ)
    (body : σ → Nat → Int → Except SimError σ) (P : Nat → σ → Prop) (s0 : σ)
    (h0 : init = .ok s0) (hP0 : P 0 s0)
    (hstep : ∀ i st pg, seq[i]? = some pg → P i st → ∃ st', body st i pg = .ok st' ∧ P (i + 1) st') :
    ∀ n, n ≤ seq.length → ∃ st, iterate_refs seq init body n = .ok st ∧ P n st := by
  intro n
  induction n with
  | zero => intro _; exact ⟨s0, by simp [iterate_refs, h0], hP0⟩
  | succ k ih =>
    intro hk
    obtain ⟨st, hst, hP⟩ := ih (by omega)
    have hlt : k < seq.length := by omega
    have hp : seq[k]? = some seq[k] := List.getElem?_eq_getElem hlt
    obtain ⟨st', hb, hP'⟩ := hstep k st _ hp hP
    exact ⟨st', by rw [iterate_refs_succ seq init body k st _ hst hp, hb], hP'⟩

/-! ## Residency and demand-paging steps -/

/-- The occupied slots of a frame vector, in slot order. -/
def occupied (frames : List Int) : List Int :=
  frames.filter (fun x => decide (x ≠ INT_MIN))

/-- The set of resident pages of a frame vector. -/
def resident (frames : List Int) : Finset Int :=
  (occupied frames).toFinset

/-- What one reference does to the frame vector `fr` and the fault counter `a` of a
demand-paging engine: a hit changes neither, a fault adds one to the counter and
installs the page, evicting at most one page. -/
def LazyStep (fr fr' : List Int) (a a' : Nat) (p : Int) : Prop :=
  fr'.length = fr.length ∧ (p ∈ fr → fr' = fr ∧ a' = a) ∧
    (p ∉ fr → a' = a + 1 ∧ p ∈ fr' ∧ ∀ x ∈ fr', x = p ∨ x ∈ fr)

theorem mem_occupied {frames : List Int} {x : Int} :
    x ∈ occupied frames ↔ x ∈ frames ∧ x ≠ INT_MIN := by
  simp [occupied]

theorem mem_resident {frames : List Int} {x : Int} :
    x ∈ resident frames ↔ x ∈ frames ∧ x ≠ INT_MIN := by
  simp [resident, mem_occupied]

theorem occupied_length_le (frames : List Int) : (occupied frames).length ≤ frames.length :=
  List.length_filter_le _ _

theorem occupied_eq_self {frames : List Int} (h : INT_MIN ∉ frames) : occupied frames = frames := by
  unfold occupied
  rw [List.filter_eq_self]
  intro a ha
  simp only [decide_eq_true_eq]
  intro e
  exact h (e ▸ ha)

theorem mem_of_occupied_length_lt {frames : List Int}
    (h : (occupied frames).length < frames.length) : INT_MIN ∈ frames := by
  by_contra hc
  rw [occupied_eq_self hc] at h
  omega

theorem occupied_replicate (n : Nat) : occupied (List.replicate n INT_MIN) = [] := by
  unfold occupied
  rw [List.filter_eq_nil_iff]
  intro a ha
  simp [List.eq_of_mem_replicate ha]

theorem resident_card_le (frames : List Int) : (resident frames).card ≤ frames.length :=
  (List.toFinset_card_le _).trans (occupied_length_le frames)

/-- Filling the first empty slot adds the page to the occupied slots. -/
theorem occupied_fill (frames : List Int) (pg : Int) (hp : pg ≠ INT_MIN) (h : INT_MIN ∈ frames) :
    (occupied (replace_first INT_MIN pg frames).1).Perm (pg :: occupied frames) := by
  have h1 := (replace_first_perm INT_MIN pg frames h).filter (fun x => decide (x ≠ INT_MIN))
  have h2 : List.filter (fun x => decide (x ≠ INT_MIN)) (pg :: frames.erase INT_MIN) =
      pg :: List.filter (fun x => decide (x ≠ INT_MIN)) (frames.erase INT_MIN) := by
    simp [List.filter_cons, hp]
  have h3 : (List.filter (fun x => decide (x ≠ INT_MIN)) frames).erase INT_MIN =
      List.filter (fun x => decide (x ≠ INT_MIN)) (frames.erase INT_MIN) :=
    List.erase_filter _ _
  have h4 : INT_MIN ∉ List.filter (fun x => decide (x ≠ INT_MIN)) frames := by simp
  rw [List.erase_of_not_mem h4] at h3
  unfold occupied
  rw [h2, ← h3] at h1
  exact h1

/-- Overwriting the slot of a resident page swaps it for the new page in the occupied slots. -/
theorem occupied_swap (frames : List Int) (victim pg : Int) (hp : pg ≠ INT_MIN)
    (h : victim ∈ frames) :
    (occupied (replace_first victim pg frames).1).Perm (pg :: (occupied frames).erase victim) := by
  have h1 := (replace_first_perm victim pg frames h).filter (fun x => decide (x ≠ INT_MIN))
  have h2 : List.filter (fun x => decide (x ≠ INT_MIN)) (pg :: frames.erase victim) =
      pg :: List.filter (fun x => decide (x ≠ INT_MIN)) (frames.erase victim) := by
    simp [List.filter_cons, hp]
  have h3 : (List.filter (fun x => decide (x ≠ INT_MIN)) frames).erase victim =
      List.filter (fun x => decide (x ≠ INT_MIN)) (frames.erase victim) :=
    List.erase_filter _ _
  unfold occupied
  rw [h2, ← h3] at h1
  exact h1

/-! ## FIFO: invariant and step -/

/-- Loop invariant of `simulate_fifo` with `F` frames: the queue is a duplicate-free
rearrangement of the occupied slots. -/
def FifoInv (F : Nat) (st : FifoState) : Prop :=
  st.frames.length = F ∧ (occupied st.frames).Perm st.q ∧ st.q.Nodup

theorem fifo_init_ok (F : Nat) :
    ∃ st, fifo_init (F : Int) = .ok st ∧ FifoInv F st ∧ st.frames = List.replicate F INT_MIN ∧
      st.faults = 0 ∧ st.out = [] ∧ st.q = [] := by
  refine ⟨_, by simp [fifo_init, new_vector_ok]; rfl, ?_, rfl, rfl, rfl, rfl⟩
  refine ⟨by simp, ?_, List.nodup_nil⟩
  simp [occupied_replicate]

theorem fifo_body_spec (F : Nat) (hF : 1 ≤ F) (verbose : Bool) (st : FifoState) (i : Nat)
    (p : Int) (hp : p ≠ INT_MIN) (hI : FifoInv F st) :
    ∃ st', fifo_body (F : Int) verbose st i p = .ok st' ∧ FifoInv F st' ∧
      LazyStep st.frames st'.frames st.faults st'.faults p ∧
      st'.out = emit verbose st.out st'.frames p i (hit_test st.frames p) ∧
      (p ∈ st.frames → st'.q = st.q) := by
  obtain ⟨hlen, hperm, hnd⟩ := hI
  by_cases hhit : p ∈ st.frames
  · have hh : hit_test st.frames p = true := (hit_test_iff _ _).2 hhit
    have hb : fifo_body (F : Int) verbose st i p =
        .ok { st with out := emit verbose st.out st.frames p i true } := by
      simp [fifo_body, hh]
    refine ⟨_, hb, ⟨hlen, hperm, hnd⟩, ?_, by simp [hh], fun _ => rfl⟩
    exact ⟨rfl, fun _ => ⟨rfl, rfl⟩, fun h => absurd hhit h⟩
  · have hh : hit_test st.frames p = false := (hit_test_false_iff _ _).2 hhit
    have hpq : p ∉ st.q := fun hq => hhit (mem_occupied.1 (hperm.mem_iff.2 hq)).1
    by_cases hq : (st.q.length : Int) < (F : Int)
    · have hq' : st.q.length < F := by exact_mod_cast hq
      have hmin : INT_MIN ∈ st.frames := by
        apply mem_of_occupied_length_lt
        rw [hperm.length_eq, hlen]
        exact hq'
      have hb : fifo_body (F : Int) verbose st i p =
          .ok { frames := (replace_first INT_MIN p st.frames).1, q := st.q ++ [p],
                faults := st.faults + 1,
                out := emit verbose st.out (replace_first INT_MIN p st.frames).1 p i false } := by
        simp [fifo_body, hh, hq]
      refine ⟨_, hb, ⟨?_, ?_, ?_⟩, ⟨?_, ?_, ?_⟩, by simp [hh], fun h => absurd h hhit⟩
      · simp [replace_first_length, hlen]
      · exact (occupied_fill _ _ hp hmin).trans
          ((hperm.cons p).trans (List.perm_append_singleton p st.q).symm)
      · exact (List.perm_append_singleton p st.q).nodup_iff.2 (List.nodup_cons.2 ⟨hpq, hnd⟩)
      · simp [replace_first_length]
      · exact fun h => absurd h hhit
      · exact fun _ => ⟨rfl, replace_first_mem _ _ _ hmin, replace_first_sub _ _ _⟩
    · cases hqe : st.q with
      | nil =>
        exfalso
        rw [hqe] at hq
        apply hq
        simp only [List.length_nil, Nat.cast_zero]
        exact_mod_cast hF
      | cons victim rest =>
        have hb : fifo_body (F : Int) verbose st i p =
            .ok { frames := (replace_first victim p st.frames).1, q := rest ++ [p],
                  faults := st.faults + 1,
                  out := emit verbose st.out (replace_first victim p st.frames).1 p i false } := by
          unfold fifo_body
          rw [if_neg (by simp [hh]), if_neg hq]
          simp only [hqe]
        rw [hqe] at hperm hnd hpq
        have hv : victim ∈ st.frames :=
          (mem_occupied.1 (hperm.mem_iff.2 (List.mem_cons_self _ _))).1
        have hrest : ((occupied st.frames).erase victim).Perm rest := by
          have := hperm.erase victim
          simpa using this
        refine ⟨_, hb, ⟨?_, ?_, ?_⟩, ⟨?_, ?_, ?_⟩, by simp [hh], fun h => absurd h hhit⟩
        · simp [replace_first_length, hlen]
        · exact (occupied_swap _ _ _ hp hv).trans
            ((hrest.cons p).trans (List.perm_append_singleton p rest).symm)
        · refine (List.perm_append_singleton p rest).nodup_iff.2 (List.nodup_cons.2 ⟨?_, ?_⟩)
          · exact fun h => hpq (List.mem_cons_of_mem _ h)
          · exact (List.nodup_cons.1 hnd).2
        · simp [replace_first_length]
        · exact fun h => absurd h hhit
        · exact fun _ => ⟨rfl, replace_first_mem _ _ _ hv, replace_first_sub _ _ _⟩

theorem lazyStep_set (fr : List Int) (a : Nat) (p : Int) (k : Nat) (hk : k < fr.length)
    (hp : p ∉ fr) : LazyStep fr (fr.set k p) a (a + 1) p := by
  refine ⟨by simp, fun h => absurd h hp, fun _ => ⟨rfl, ?_, ?_⟩⟩
  · exact List.mem_iff_getElem.2 ⟨k, by simpa using hk, by simp⟩
  · intro x hx
    rcases List.mem_or_eq_of_mem_set hx with h | h
    · exact Or.inr h
    · exact Or.inl h

/-! ## LRU: invariant and step -/

/-- Loop invariant of `simulate_lru` with `F` frames. -/
def LruInv (F : Nat) (st : LruState) : Prop :=
  st.frames.length = F

theorem lru_scan_lt (last_used : Int → Option Int) (fs : List Int) (j lru_idx : Nat)
    (lru_time : Int) (h : lru_idx < j + fs.length) :
    lru_scan last_used fs j lru_idx lru_time < j + fs.length := by
  induction fs generalizing j lru_idx lru_time with
  | nil => simpa [lru_scan] using h
  | cons f fs ih =>
    simp only [List.length_cons] at h
    simp only [lru_scan, List.length_cons]
    by_cases hc : stamp_of last_used f < lru_time
    · rw [if_pos hc]
      have := ih (j + 1) j (stamp_of last_used f) (by omega)
      omega
    · rw [if_neg hc]
      have := ih (j + 1) lru_idx lru_time (by omega)
      omega

theorem lru_init_ok (F : Nat) :
    ∃ st, lru_init (F : Int) = .ok st ∧ LruInv F st ∧ st.frames = List.replicate F INT_MIN ∧
      st.faults = 0 ∧ st.out = [] := by
  refine ⟨_, by simp [lru_init, new_vector_ok]; rfl, ?_, rfl, rfl, rfl⟩
  simp [LruInv]

theorem lru_body_spec (F : Nat) (hF : 1 ≤ F) (verbose : Bool) (st : LruState) (i : Nat)
    (p : Int) (hI : LruInv F st) :
    ∃ st', lru_body verbose st i p = .ok st' ∧ LruInv F st' ∧
      LazyStep st.frames st'.frames st.faults st'.faults p ∧
      st'.out = emit verbose st.out st'.frames p i (hit_test st.frames p) := by
  unfold LruInv at hI
  by_cases hhit : p ∈ st.frames
  · have hh : hit_test st.frames p = true := (hit_test_iff _ _).2 hhit
    have hb : lru_body verbose st i p =
        .ok { st with last_used := map_insert st.last_used p (st.time + 1), time := st.time + 1,
                      out := emit verbose st.out st.frames p i true } := by
      simp [lru_body, hh]
    refine ⟨_, hb, hI, ?_, by simp [hh]⟩
    exact ⟨rfl, fun _ => ⟨rfl, rfl⟩, fun h => absurd hhit h⟩
  · have hh : hit_test st.frames p = false := (hit_test_false_iff _ _).2 hhit
    by_cases hmin : INT_MIN ∈ st.frames
    · have h2 : (replace_first INT_MIN p st.frames).2 = true := (replace_first_snd _ _ _).2 hmin
      have hb : lru_body verbose st i p =
          .ok { frames := (replace_first INT_MIN p st.frames).1,
                last_used := map_insert st.last_used p (st.time + 1), time := st.time + 1,
                faults := st.faults + 1,
                out := emit verbose st.out (replace_first INT_MIN p st.frames).1 p i false } := by
        simp [lru_body, hh, h2]
      refine ⟨_, hb, by simp [LruInv, replace_first_length, hI], ⟨?_, ?_, ?_⟩, by simp [hh]⟩
      · simp [replace_first_length]
      · exact fun h => absurd h hhit
      · exact fun _ => ⟨rfl, replace_first_mem _ _ _ hmin, replace_first_sub _ _ _⟩
    · have h2 : (replace_first INT_MIN p st.frames).2 = false := by
        rw [← Bool.not_eq_true, replace_first_snd]
        exact hmin
      have hlt : lru_scan st.last_used st.frames 0 0 INT_MAX < st.frames.length := by
        have := lru_scan_lt st.last_used st.frames 0 0 INT_MAX (by omega)
        omega
      have hget : st.frames[lru_scan st.last_used st.frames 0 0 INT_MAX]? =
          some (st.frames[lru_scan st.last_used st.frames 0 0 INT_MAX]) :=
        List.getElem?_eq_getElem hlt
      have hb : lru_body verbose st i p =
          .ok { frames := st.frames.set (lru_scan st.last_used st.frames 0 0 INT_MAX) p,
                last_used := map_insert (map_erase st.last_used
                  (st.frames[lru_scan st.last_used st.frames 0 0 INT_MAX])) p (st.time + 1),
                time := st.time + 1, faults := st.faults + 1,
                out := emit verbose st.out
                  (st.frames.set (lru_scan st.last_used st.frames 0 0 INT_MAX) p) p i false } := by
        unfold lru_body
        simp only [hh, h2, hget]
        simp
      refine ⟨_, hb, by simp [LruInv, hI], lazyStep_set _ _ _ _ hlt hhit, by simp [hh]⟩

/-! ## Clock: invariant and step -/

/-- Loop invariant of `simulate_clock` with `F` frames. -/
def ClockInv (F : Nat) (st : ClockState) : Prop :=
  st.frames.length = F ∧ st.use.length = F ∧ st.pointer < F

theorem find_slot_none (pg : Int) (fs : List Int) (j : Nat) :
    find_slot pg fs j = none ↔ pg ∉ fs := by
  induction fs generalizing j with
  | nil => simp [find_slot]
  | cons f fs ih =>
    by_cases h : f = pg
    · simp [find_slot, h]
    · have h2 : ¬ pg = f := fun e => h e.symm
      simp [find_slot, h, h2, ih]

theorem find_slot_some (pg : Int) (fs : List Int) (j k : Nat) (h : find_slot pg fs j = some k) :
    j ≤ k ∧ fs[k - j]? = some pg ∧ ∀ m, m < k - j → fs[m]? ≠ some pg := by
  induction fs generalizing j with
  | nil => simp [find_slot] at h
  | cons f fs ih =>
    by_cases hf : f = pg
    · simp [find_slot, hf] at h
      subst h
      simp [hf]
    · simp only [find_slot, hf, if_false] at h
      obtain ⟨h1, h2, h3⟩ := ih (j + 1) h
      have e : k - j = (k - (j + 1)) + 1 := by omega
      refine ⟨by omega, by rw [e]; simpa using h2, ?_⟩
      intro m hm
      cases m with
      | zero => simpa using hf
      | succ m => simpa using h3 m (by omega)

theorem clock_sweep_spec (F : Nat) (pg : Int) (frames : List Int) (hfr : frames.length = F) :
    ∀ (n : Nat) (use : List Int) (pointer visits : Nat), set_bits use = n → use.length = F →
      pointer < F →
      ∃ r, clock_sweep (F : Int) pg frames use pointer visits = .ok r ∧
        r.use.length = F ∧ r.pointer < F ∧
        ∃ k, k < F ∧ r.frames = frames.set k pg := by
  intro n
  induction n using Nat.strong_induction_on with
  | _ n ih =>
    intro use pointer visits hn hu hpt
    have hF : 0 < F := by omega
    have hmod : (pointer + 1) % F < F := Nat.mod_lt _ hF
    have hf : frames[pointer]? = some frames[pointer] := List.getElem?_eq_getElem (by omega)
    have hus : use[pointer]? = some use[pointer] := List.getElem?_eq_getElem (by omega)
    rw [clock_sweep]
    split
    · rename_i f u h1 h2
      rw [hf] at h1
      by_cases hfm : f = INT_MIN
      · simp only [hfm, if_true]
        exact ⟨_, rfl, by simp [hu], by simpa using hmod, pointer, hpt, rfl⟩
      · simp only [hfm, if_false]
        by_cases hu0 : u = 0
        · simp only [hu0, dite_true]
          exact ⟨_, rfl, by simp [hu], by simpa using hmod, pointer, hpt, rfl⟩
        · simp only [hu0, dite_false]
          have hdec := set_bits_clear use pointer u h2 hu0
          exact ih (set_bits (use.set pointer 0)) (by omega) (use.set pointer 0) _ _ rfl
            (by simp [hu]) (by simpa using hmod)
    · rename_i h
      exact absurd hus (by
        intro h2
        exact h _ _ hf h2)

theorem clock_init_ok (F : Nat) :
    ∃ st, clock_init (F : Int) = .ok st ∧ st.frames = List.replicate F INT_MIN ∧
      st.use = List.replicate F 0 ∧ st.pointer = 0 ∧ st.faults = 0 ∧ st.out = [] := by
  refine ⟨_, by simp [clock_init, new_vector_ok]; rfl, rfl, rfl, rfl, rfl, rfl⟩

theorem clock_body_spec (F : Nat) (verbose : Bool) (st : ClockState) (i : Nat)
    (p : Int) (hI : ClockInv F st) :
    ∃ st', clock_body (F : Int) verbose st i p = .ok st' ∧ ClockInv F st' ∧
      LazyStep st.frames st'.frames st.faults st'.faults p ∧
      st'.out = emit verbose st.out st'.frames p i (hit_test st.frames p) ∧
      (p ∈ st.frames → st'.pointer = st.pointer) := by
  obtain ⟨hlen, hu, hpt⟩ := hI
  by_cases hhit : p ∈ st.frames
  · have hh : hit_test st.frames p = true := (hit_test_iff _ _).2 hhit
    cases hfs : find_slot p st.frames 0 with
    | none => exact absurd hhit ((find_slot_none _ _ _).1 hfs)
    | some j =>
      have hb : clock_body (F : Int) verbose st i p =
          .ok { st with use := st.use.set j 1,
                        out := emit verbose st.out st.frames p i true } := by
        simp [clock_body, hfs]
      refine ⟨_, hb, ⟨hlen, by simp [hu], hpt⟩, ?_, by simp [hh], fun _ => rfl⟩
      exact ⟨rfl, fun _ => ⟨rfl, rfl⟩, fun h => absurd hhit h⟩
  · have hh : hit_test st.frames p = false := (hit_test_false_iff _ _).2 hhit
    have hfs : find_slot p st.frames 0 = none := (find_slot_none _ _ _).2 hhit
    obtain ⟨r, hr, hru, hrp, k, hk, hrf⟩ :=
      clock_sweep_spec F p st.frames hlen _ st.use st.pointer 0 rfl hu hpt
    have hb : clock_body (F : Int) verbose st i p =
        .ok { frames := r.frames, use := r.use, pointer := r.pointer, faults := st.faults + 1,
              out := emit verbose st.out r.frames p i false } := by
      simp [clock_body, hfs, hr]
    refine ⟨_, hb, ⟨by simp [hrf, hlen], hru, hrp⟩, ?_, by simp [hh], fun h => absurd h hhit⟩
    simp only [hrf]
    exact lazyStep_set _ _ _ _ (by omega) hhit

/-! ## OPT: lookahead, victim scan, invariant and step -/

/-- Loop invariant of `simulate_opt` with `F` frames: no page occupies two slots. -/
def OptInv (F : Nat) (st : OptState) : Prop :=
  st.frames.length = F ∧ (occupied st.frames).Nodup

theorem find_next_ge (page : Int) (xs : List Int) (k : Nat) :
    find_next page xs k = -1 ∨ (k : Int) ≤ find_next page xs k := by
  induction xs generalizing k with
  | nil => exact Or.inl rfl
  | cons x xs ih =>
    by_cases h : x = page
    · right; simp [find_next, h]
    · simp only [find_next, h, if_false]
      rcases ih (k + 1) with e | e
      · exact Or.inl e
      · right; push_cast at e; omega

/-- A page occurs among the next `m` references exactly when its next position is found and lies
less than `m` places ahead. -/
theorem mem_take_iff_find_next (page : Int) (xs : List Int) (k m : Nat) :
    page ∈ xs.take m ↔ find_next page xs k ≠ -1 ∧ find_next page xs k < (k : Int) + m := by
  induction xs generalizing k m with
  | nil => simp [find_next]
  | cons x xs ih =>
    cases m with
    | zero =>
      simp only [List.take_zero, List.not_mem_nil, false_iff, not_and]
      intro h1
      rcases find_next_ge page (x :: xs) k with e | e
      · exact absurd e h1
      · simp only [Nat.cast_zero]; omega
    | succ m =>
      by_cases h : x = page
      · subst h
        simp only [List.take_succ_cons, List.mem_cons, true_or, find_next, if_true, true_iff]
        constructor <;> push_cast <;> omega
      · have h2 : ¬ page = x := fun e => h e.symm
        simp only [List.take_succ_cons, List.mem_cons, h2, false_or, find_next, h, if_false]
        rw [ih (k + 1) m]
        push_cast
        constructor <;> rintro ⟨a, b⟩ <;> exact ⟨a, by omega⟩

theorem opt_scan_spec (seq : List Int) (i : Nat) (fs : List Int) :
    ∀ (j victim_idx : Nat) (farthest : Int),
      (opt_scan seq i fs j victim_idx farthest = victim_idx ∧
        ∀ x ∈ fs, find_next x (seq.drop (i + 1)) (i + 1) ≠ -1 ∧
          find_next x (seq.drop (i + 1)) (i + 1) ≤ farthest) ∨
      (∃ k y, opt_scan seq i fs j victim_idx farthest = j + k ∧ fs[k]? = some y ∧
        (find_next y (seq.drop (i + 1)) (i + 1) = -1 ∨
          (farthest < find_next y (seq.drop (i + 1)) (i + 1) ∧
            ∀ x ∈ fs, find_next x (seq.drop (i + 1)) (i + 1) ≠ -1 ∧
              find_next x (seq.drop (i + 1)) (i + 1) ≤
                find_next y (seq.drop (i + 1)) (i + 1)))) := by
  induction fs with
  | nil =>
    intro j v far
    left
    simp [opt_scan]
  | cons f fs ih =>
    intro j v far
    by_cases h1 : find_next f (seq.drop (i + 1)) (i + 1) = -1
    · right
      exact ⟨0, f, by simp [opt_scan, h1], by simp, Or.inl h1⟩
    · by_cases h2 : find_next f (seq.drop (i + 1)) (i + 1) > far
      · have e : opt_scan seq i (f :: fs) j v far =
            opt_scan seq i fs (j + 1) j (find_next f (seq.drop (i + 1)) (i + 1)) := by
          simp [opt_scan, h1, h2]
        rw [e]
        rcases ih (j + 1) j (find_next f (seq.drop (i + 1)) (i + 1)) with ⟨a, b⟩ | ⟨k, y, a, b, c⟩
        · right
          refine ⟨0, f, by simpa using a, by simp, Or.inr ⟨h2, ?_⟩⟩
          intro x hx
          rcases List.mem_cons.1 hx with e1 | e1
          · subst e1; exact ⟨h1, le_refl _⟩
          · exact b x e1
        · right
          refine ⟨k + 1, y, by omega, by simpa using b, ?_⟩
          rcases c with c | ⟨c1, c2⟩
          · exact Or.inl c
          · refine Or.inr ⟨by omega, ?_⟩
            intro x hx
            rcases List.mem_cons.1 hx with e1 | e1
            · subst e1; exact ⟨h1, by omega⟩
            · exact c2 x e1
      · have e : opt_scan seq i (f :: fs) j v far = opt_scan seq i fs (j + 1) v far := by
          simp [opt_scan, h1, h2]
        rw [e]
        rcases ih (j + 1) v far with ⟨a, b⟩ | ⟨k, y, a, b, c⟩
        · left
          refine ⟨a, ?_⟩
          intro x hx
          rcases List.mem_cons.1 hx with e1 | e1
          · subst e1; exact ⟨h1, by omega⟩
          · exact b x e1
        · right
          refine ⟨k + 1, y, by omega, by simpa using b, ?_⟩
          rcases c with c | ⟨c1, c2⟩
          · exact Or.inl c
          · refine Or.inr ⟨c1, ?_⟩
            intro x hx
            rcases List.mem_cons.1 hx with e1 | e1
            · subst e1; exact ⟨h1, by omega⟩
            · exact c2 x e1

/-- The slot chosen by the victim loop of `simulate_opt` exists, and its page is needed no
sooner than any other page in the frames (Belady's rule): whenever the victim occurs among the
next `m` references, so does every page in the frames. -/
theorem opt_scan_victim (seq : List Int) (i : Nat) (frames : List Int) (hne : frames ≠ []) :
    ∃ v, frames[opt_scan seq i frames 0 0 (-1)]? = some v ∧
      ∀ m, v ∈ (seq.drop (i + 1)).take m → ∀ x ∈ frames, x ∈ (seq.drop (i + 1)).take m := by
  rcases opt_scan_spec seq i frames 0 0 (-1) with ⟨_, b⟩ | ⟨k, y, a, b, c⟩
  · exfalso
    cases frames with
    | nil => exact hne rfl
    | cons f fs =>
      obtain ⟨b1, b2⟩ := b f (List.mem_cons_self _ _)
      rcases find_next_ge f (seq.drop (i + 1)) (i + 1) with e | e
      · exact b1 e
      · omega
  · refine ⟨y, by rw [a]; simpa using b, ?_⟩
    intro m hm x hx
    rw [mem_take_iff_find_next _ _ (i + 1)] at hm ⊢
    rcases c with c | ⟨_, c2⟩
    · exact absurd c hm.1
    · exact ⟨(c2 x hx).1, lt_of_le_of_lt (c2 x hx).2 hm.2⟩

theorem opt_init_ok (F : Nat) :
    ∃ st, opt_init (F : Int) = .ok st ∧ OptInv F st ∧ st.frames = List.replicate F INT_MIN ∧
      st.faults = 0 ∧ st.out = [] := by
  refine ⟨_, by simp [opt_init, new_vector_ok]; rfl, ⟨by simp, ?_⟩, rfl, rfl, rfl⟩
  simp [occupied_replicate]

theorem opt_body_spec (F : Nat) (hF : 1 ≤ F) (seq : List Int) (verbose : Bool) (st : OptState)
    (i : Nat) (p : Int) (hp : p ≠ INT_MIN) (hI : OptInv F st) :
    ∃ st', opt_body seq verbose st i p = .ok st' ∧ OptInv F st' ∧
      LazyStep st.frames st'.frames st.faults st'.faults p ∧
      st'.out = emit verbose st.out st'.frames p i (hit_test st.frames p) ∧
      (p ∉ st.frames →
        (INT_MIN ∈ st.frames ∧ (occupied st'.frames).Perm (p :: occupied st.frames)) ∨
        (INT_MIN ∉ st.frames ∧ ∃ k v, st.frames[k]? = some v ∧ st'.frames = st.frames.set k p ∧
          ∀ m, v ∈ (seq.drop (i + 1)).take m →
            ∀ x ∈ st.frames, x ∈ (seq.drop (i + 1)).take m)) := by
  obtain ⟨hlen, hnd⟩ := hI
  by_cases hhit : p ∈ st.frames
  · have hh : hit_test st.frames p = true := (hit_test_iff _ _).2 hhit
    have hb : opt_body seq verbose st i p =
        .ok { st with out := emit verbose st.out st.frames p i true } := by
      simp [opt_body, hh]
    refine ⟨_, hb, ⟨hlen, hnd⟩, ?_, by simp [hh], fun h => absurd hhit h⟩
    exact ⟨rfl, fun _ => ⟨rfl, rfl⟩, fun h => absurd hhit h⟩
  · have hh : hit_test st.frames p = false := (hit_test_false_iff _ _).2 hhit
    have hpo : p ∉ occupied st.frames := fun h => hhit (mem_occupied.1 h).1
    by_cases hmin : INT_MIN ∈ st.frames
    · have h2 : (replace_first INT_MIN p st.frames).2 = true := (replace_first_snd _ _ _).2 hmin
      have hb : opt_body seq verbose st i p =
          .ok { frames := (replace_first INT_MIN p st.frames).1, faults := st.faults + 1,
                out := emit verbose st.out (replace_first INT_MIN p st.frames).1 p i false } := by
        simp [opt_body, hh, h2]
      have hperm := occupied_fill st.frames p hp hmin
      refine ⟨_, hb, ⟨by simp [replace_first_length, hlen], ?_⟩, ⟨?_, ?_, ?_⟩, by simp [hh],
        fun _ => Or.inl ⟨hmin, hperm⟩⟩
      · exact hperm.nodup_iff.2 (List.nodup_cons.2 ⟨hpo, hnd⟩)
      · simp [replace_first_length]
      · exact fun h => absurd h hhit
      · exact fun _ => ⟨rfl, replace_first_mem _ _ _ hmin, replace_first_sub _ _ _⟩
    · have h2 : (replace_first INT_MIN p st.frames).2 = false := by
        rw [← Bool.not_eq_true, replace_first_snd]
        exact hmin
      have hne : st.frames ≠ [] := by
        intro e
        rw [e] at hlen
        simp at hlen
        omega
      obtain ⟨v, hv, hfar⟩ := opt_scan_victim seq i st.frames hne
      have hlt : opt_scan seq i st.frames 0 0 (-1) < st.frames.length := by
        by_contra hc
        rw [List.getElem?_eq_none (by omega)] at hv
        exact absurd hv (by simp)
      have hb : opt_body seq verbose st i p =
          .ok { frames := st.frames.set (opt_scan seq i st.frames 0 0 (-1)) p,
                faults := st.faults + 1,
                out := emit verbose st.out
                  (st.frames.set (opt_scan seq i st.frames 0 0 (-1)) p) p i false } := by
        simp [opt_body, hh, h2, hlt]
      rw [occupied_eq_self hmin] at hnd
      have hmin' : INT_MIN ∉ st.frames.set (opt_scan seq i st.frames 0 0 (-1)) p := by
        intro h
        rcases List.mem_or_eq_of_mem_set h with h | h
        · exact hmin h
        · exact hp h.symm
      refine ⟨_, hb, ⟨by simp [hlen], ?_⟩, lazyStep_set _ _ _ _ hlt hhit, by simp [hh],
        fun _ => Or.inr ⟨hmin, _, v, hv, rfl, hfar⟩⟩
      rw [occupied_eq_self hmin']
      exact hnd.set hhit

/-! ## Counting the pages that are needed soon -/

/-- Number of pages of the set `T` that occur in the list `A` of upcoming references. -/
def soon (T : Finset Int) (A : List Int) : Nat :=
  (T.filter (fun x => x ∈ A)).card

theorem soon_nil (T : Finset Int) : soon T [] = 0 := by
  simp [soon]

theorem soon_le_card (T : Finset Int) (A : List Int) : soon T A ≤ T.card :=
  Finset.card_filter_le _ _

theorem soon_mono {S T : Finset Int} (h : S ⊆ T) (A : List Int) : soon S A ≤ soon T A :=
  Finset.card_le_card (Finset.filter_subset_filter _ h)

theorem soon_eq_card {S : Finset Int} {A : List Int} (h : ∀ x ∈ S, x ∈ A) : soon S A = S.card := by
  unfold soon
  rw [Finset.filter_true_of_mem h]

theorem soon_insert {S : Finset Int} {p : Int} (h : p ∉ S) (A : List Int) :
    soon (insert p S) A = soon S A + (if p ∈ A then 1 else 0) := by
  unfold soon
  rw [Finset.filter_insert]
  by_cases hA : p ∈ A
  · simp only [hA, if_true]
    rw [Finset.card_insert_of_not_mem]
    intro hc
    exact h (Finset.mem_filter.1 hc).1
  · simp [hA]

theorem soon_erase {S : Finset Int} {v : Int} (h : v ∈ S) (A : List Int) :
    soon (S.erase v) A + (if v ∈ A then 1 else 0) = soon S A := by
  have h1 := soon_insert (Finset.not_mem_erase v S) A
  rw [Finset.insert_erase h] at h1
  exact h1.symm

theorem soon_cons (T : Finset Int) (p : Int) (A : List Int) :
    soon T (p :: A) = soon T A + (if p ∈ T ∧ p ∉ A then 1 else 0) := by
  by_cases hT : p ∈ T
  · have e1 := soon_erase hT (p :: A)
    have e2 := soon_erase hT A
    have e3 : soon (T.erase p) (p :: A) = soon (T.erase p) A := by
      unfold soon
      congr 1
      apply Finset.filter_congr
      intro x hx
      have : x ≠ p := Finset.ne_of_mem_erase hx
      simp [this]
    by_cases hA : p ∈ A
    · simp only [List.mem_cons, true_or, if_true, hA] at e1 e2
      simp only [hT, hA, not_true, and_false, if_false]
      omega
    · simp only [List.mem_cons, true_or, if_true, hA, if_false] at e1 e2
      simp only [hT, hA, not_false_eq_true, and_self, if_true]
      omega
  · have e3 : soon T (p :: A) = soon T A := by
      unfold soon
      congr 1
      apply Finset.filter_congr
      intro x hx
      have : x ≠ p := fun e => hT (e ▸ hx)
      simp [this]
    simp [hT, e3]

theorem soon_add_le_card {T : Finset Int} {p : Int} (h : p ∈ T) (A : List Int) :
    soon T A + (if p ∈ A then 0 else 1) ≤ T.card := by
  have h1 := soon_cons T p A
  have h2 := soon_le_card T (p :: A)
  by_cases hA : p ∈ A
  · simp only [hA, if_true]
    exact soon_le_card T A
  · simp only [h, hA, not_false_eq_true, and_self, if_true] at h1
    simp only [hA, if_false]
    omega

/-! ## Residency after a step -/

theorem resident_eq_of_mem {frames : List Int} {p : Int} (hp : p ≠ INT_MIN) :
    p ∈ resident frames ↔ p ∈ frames := by
  rw [mem_resident]
  exact ⟨fun h => h.1, fun h => ⟨h, hp⟩⟩

theorem resident_of_perm {fr fr' : List Int} {p : Int}
    (h : (occupied fr').Perm (p :: occupied fr)) : resident fr' = insert p (resident fr) := by
  unfold resident
  rw [List.toFinset_eq_of_perm _ _ h, List.toFinset_cons]

theorem toFinset_set (l : List Int) (k : Nat) (v p : Int) (hnd : l.Nodup) (hk : l[k]? = some v) :
    (l.set k p).toFinset = insert p (l.toFinset.erase v) := by
  induction l generalizing k with
  | nil => simp at hk
  | cons a l ih =>
    have ha : a ∉ l := (List.nodup_cons.1 hnd).1
    cases k with
    | zero =>
      simp at hk
      subst hk
      simp only [List.set_cons_zero, List.toFinset_cons]
      rw [Finset.erase_insert (by simpa using ha)]
    | succ k =>
      simp at hk
      have hv : v ∈ l := List.mem_iff_getElem?.2 ⟨k, hk⟩
      have hne : a ≠ v := fun e => ha (e ▸ hv)
      simp only [List.set_cons_succ, List.toFinset_cons]
      rw [ih k (List.nodup_cons.1 hnd).2 hk, Finset.erase_insert_of_ne hne, Finset.Insert.comm]

theorem resident_set {fr : List Int} {k : Nat} {v p : Int} (hmin : INT_MIN ∉ fr)
    (hnd : (occupied fr).Nodup) (hk : fr[k]? = some v) (hp : p ≠ INT_MIN) :
    resident (fr.set k p) = insert p ((resident fr).erase v) := by
  have hmin' : INT_MIN ∉ fr.set k p := by
    intro h
    rcases List.mem_or_eq_of_mem_set h with h | h
    · exact hmin h
    · exact hp h.symm
  unfold resident
  rw [occupied_eq_self hmin', occupied_eq_self hmin]
  rw [occupied_eq_self hmin] at hnd
  exact toFinset_set fr k v p hnd hk

theorem resident_card_full {fr : List Int} (hmin : INT_MIN ∉ fr) (hnd : (occupied fr).Nodup) :
    (resident fr).card = fr.length := by
  unfold resident
  rw [List.toFinset_card_of_nodup hnd, occupied_eq_self hmin]

/-! ## Belady's rule against any demand-paging run -/

/-- One reference `p` followed by the references `R`.  `S`, `f` are the resident set and fault
count of a run that follows Belady's rule with `F` frames, `T`, `a` those of any demand-paging
run with at most `F` resident pages.  If for every look-ahead window the rule's faults plus the
soon-needed pages of `T` are at most `a` plus the soon-needed pages of `S`, the same holds after
the reference. -/
theorem dominate_step (F : Nat) (S S' T T' : Finset Int) (f f' a a' : Nat) (p : Int)
    (R : List Int) (hT : T.card ≤ F) (hT' : T'.card ≤ F)
    (hdom : ∀ m, f + soon T ((p :: R).take m) ≤ a + soon S ((p :: R).take m))
    (hopt : (p ∈ S → S' = S ∧ f' = f) ∧
      (p ∉ S → f' = f + 1 ∧ (S' = insert p S ∨
        (S.card = F ∧ ∃ v ∈ S, S' = insert p (S.erase v) ∧
          ∀ m, v ∈ R.take m → ∀ x ∈ S, x ∈ R.take m))))
    (halg : (p ∈ T → T' = T ∧ a' = a) ∧
      (p ∉ T → p ∈ T' ∧ T' ⊆ insert p T ∧ a' = a + 1)) :
    ∀ m, f' + soon T' (R.take m) ≤ a' + soon S' (R.take m) := by
  intro m
  have H := hdom (m + 1)
  have H0 := hdom 0
  have H1 := hdom 1
  simp only [List.take_succ_cons, List.take_zero, soon_nil] at H H0 H1
  rw [soon_cons, soon_cons] at H
  rw [soon_cons, soon_cons] at H1
  simp only [soon_nil, List.not_mem_nil, not_false_eq_true, and_true, zero_add] at H1
  have hfar' : ∀ v, (∀ m, v ∈ R.take m → ∀ x ∈ S, x ∈ R.take m) →
      v ∈ R.take m → ∀ x ∈ S, x ∈ R.take m := fun v h => h m
  generalize R.take m = A at H hfar' ⊢
  by_cases hS : p ∈ S
  · obtain ⟨e1, e2⟩ := hopt.1 hS
    subst e1 e2
    by_cases hTp : p ∈ T
    · obtain ⟨e3, e4⟩ := halg.1 hTp
      subst e3 e4
      simp only [hS, hTp, true_and] at H
      omega
    · obtain ⟨h1, h2, e4⟩ := halg.2 hTp
      subst e4
      have h3 := soon_mono h2 A
      rw [soon_insert hTp] at h3
      simp only [hS, hTp, true_and, false_and, if_false] at H
      by_cases hA : p ∈ A
      · simp only [hA, if_true, not_true, if_false] at H h3
        omega
      · simp only [hA, if_false, not_false_eq_true, if_true] at H h3
        omega
  · obtain ⟨e2, hS'⟩ := hopt.2 hS
    subst e2
    simp only [hS, false_and, if_false] at H H1
    -- the algorithm's side: soon-needed pages of `T'`, and whether it faulted
    have halg' : soon T' A ≤ soon T A + (if p ∈ T then 0 else (if p ∈ A then 1 else 0)) ∧
        soon T' A + (if p ∈ A then 0 else 1) ≤ F ∧
        a' = a + (if p ∈ T then 0 else 1) := by
      by_cases hTp : p ∈ T
      · obtain ⟨e3, e4⟩ := halg.1 hTp
        subst e3 e4
        simp only [hTp, if_true]
        exact ⟨by omega, (soon_add_le_card hTp A).trans hT, rfl⟩
      · obtain ⟨h1, h2, e4⟩ := halg.2 hTp
        have h3 := soon_mono h2 A
        rw [soon_insert hTp] at h3
        simp only [hTp, if_false]
        exact ⟨h3, (soon_add_le_card h1 A).trans hT', e4⟩
    obtain ⟨g1, g2, g3⟩ := halg'
    have hroom : soon (insert p S) A = soon S A + (if p ∈ A then 1 else 0) := soon_insert hS A
    rcases hS' with e1 | ⟨hcard, v, hv, e1, hfar⟩
    · subst e1
      rw [hroom]
      by_cases hTp : p ∈ T <;> by_cases hA : p ∈ A <;>
        simp only [hTp, hA, if_true, if_false, not_true, not_false_eq_true, true_and] at * <;>
        omega
    · subst e1
      have hpe : p ∉ S.erase v := fun h => hS (Finset.mem_of_mem_erase h)
      rw [soon_insert hpe]
      have he := soon_erase hv A
      by_cases hvA : v ∈ A
      · have hall : soon S A = S.card := soon_eq_card (hfar' v hfar hvA)
        simp only [hvA, if_true] at he
        by_cases hTp : p ∈ T <;> by_cases hA : p ∈ A <;>
          simp only [hTp, hA, if_true, if_false, not_true, not_false_eq_true, true_and] at * <;>
          omega
      · simp only [hvA, if_false, add_zero] at he
        rw [he]
        by_cases hTp : p ∈ T <;> by_cases hA : p ∈ A <;>
          simp only [hTp, hA, if_true, if_false, not_true, not_false_eq_true, true_and] at * <;>
          omega

/-- A demand-paging run over `seq` with at most `F` resident pages: `T i` is the resident set and
`a i` the fault count after `i` references.  It starts empty, a reference to a resident page
changes nothing, and a reference to a non-resident page costs one fault, makes the page
resident and brings in no other page. -/
def LazyRun (F : Nat) (seq : List Int) (T : Nat → Finset Int) (a : Nat → Nat) : Prop :=
  T 0 = ∅ ∧ a 0 = 0 ∧ (∀ i, i ≤ seq.length → (T i).card ≤ F) ∧
    ∀ i p, seq[i]? = some p →
      (p ∈ T i → T (i + 1) = T i ∧ a (i + 1) = a i) ∧
      (p ∉ T i → p ∈ T (i + 1) ∧ T (i + 1) ⊆ insert p (T i) ∧ a (i + 1) = a i + 1)

/-- Resident set of an intermediate result of a loop (empty if the loop failed). -/
def resident_of {σ : Type} (fr : σ → List Int) : Except SimError σ → Finset Int
  | .ok st => resident (fr st)
  | .error _ => ∅

/-- Fault count of an intermediate result of a loop (zero if the loop failed). -/
def faults_of {σ : Type} (fl : σ → Nat) : Except SimError σ → Nat
  | .ok st => fl st
  | .error _ => 0

theorem drop_eq_cons {seq : List Int} {i : Nat} {p : Int} (h : seq[i]? = some p) :
    seq.drop i = p :: seq.drop (i + 1) := by
  obtain ⟨hlt, e⟩ := List.getElem?_eq_some_iff.1 h
  rw [← e]
  exact List.drop_eq_getElem_cons hlt

/-- The fault count of `simulate_opt` after `n` references never exceeds that of a
demand-paging run with the same number of frames; the slack is at least the number of
soon-needed pages by which the other run is ahead. -/
theorem opt_le_lazyRun (F : Nat) (hF : 1 ≤ F) (seq : List Int) (hseq : ∀ p ∈ seq, p ≠ INT_MIN)
    (verbose : Bool) (T : Nat → Finset Int) (a : Nat → Nat) (hrun : LazyRun F seq T a) :
    ∀ n, n ≤ seq.length → ∃ st, opt_iter seq (F : Int) verbose n = .ok st ∧
      (OptInv F st ∧ ∀ m, st.faults + soon (T n) ((seq.drop n).take m) ≤
        a n + soon (resident st.frames) ((seq.drop n).take m)) := by
  obtain ⟨hT0, ha0, hcard, hstep⟩ := hrun
  obtain ⟨s0, hs0, hI0, hfr0, hfl0, _⟩ := opt_init_ok F
  refine iterate_refs_inv seq (opt_init (F : Int)) (opt_body seq verbose)
    (fun n st => OptInv F st ∧ ∀ m, st.faults + soon (T n) ((seq.drop n).take m) ≤
        a n + soon (resident st.frames) ((seq.drop n).take m)) s0 hs0 ⟨hI0, ?_⟩ ?_
  · intro m
    rw [hT0, ha0, hfl0]
    simp [soon]
  · intro i st p hp ⟨hI, hdom⟩
    have hpm : p ≠ INT_MIN := hseq p (List.mem_iff_getElem?.2 ⟨_, hp⟩)
    have hi : i < seq.length := (List.getElem?_eq_some_iff.1 hp).1
    obtain ⟨st', hb, hI', hlazy, _, hbel⟩ := opt_body_spec F hF seq verbose st i p hpm hI
    refine ⟨st', hb, hI', ?_⟩
    rw [drop_eq_cons hp] at hdom
    obtain ⟨_, hhit, hmiss⟩ := hlazy
    refine dominate_step F (resident st.frames) (resident st'.frames) (T i) (T (i + 1))
      st.faults st'.faults (a i) (a (i + 1)) p (seq.drop (i + 1)) (hcard i (by omega)) (hcard (i + 1) (by omega))
      hdom ⟨?_, ?_⟩ (hstep i p hp)
    · intro h
      obtain ⟨e1, e2⟩ := hhit ((resident_eq_of_mem hpm).1 h)
      rw [e1]
      exact ⟨rfl, e2⟩
    · intro h
      have hnot : p ∉ st.frames := fun hc => h ((resident_eq_of_mem hpm).2 hc)
      refine ⟨(hmiss hnot).1, ?_⟩
      rcases hbel hnot with ⟨_, hperm⟩ | ⟨hmin, k, v, hk, hset, hfar⟩
      · exact Or.inl (resident_of_perm hperm)
      · right
        have hvmem : v ∈ st.frames := List.mem_iff_getElem?.2 ⟨_, hk⟩
        refine ⟨by rw [resident_card_full hmin hI.2, hI.1], v, ?_, ?_, ?_⟩
        · exact mem_resident.2 ⟨hvmem, fun e => hmin (e ▸ hvmem)⟩
        · rw [hset]
          exact resident_set hmin hI.2 hk hpm
        · intro m hm x hx
          exact hfar m hm x (mem_resident.1 hx).1

/-- Any loop whose body is a demand-paging step on its frame vector gives a demand-paging
run. -/
theorem lazyRun_of_loop {σ : Type} (F : Nat) (seq : List Int) (hseq : ∀ p ∈ seq, p ≠ INT_MIN)
    (init : Except SimError σ) (body : σ → Nat → Int → Except SimError σ)
    (Inv : σ → Prop) (fr : σ → List Int) (fl : σ → Nat) (s0 : σ)
    (h0 : init = .ok s0) (hI0 : Inv s0) (hfr0 : resident (fr s0) = ∅) (hfl0 : fl s0 = 0)
    (hlen : ∀ st, Inv st → (fr st).length ≤ F)
    (hbody : ∀ st i p, p ≠ INT_MIN → Inv st →
      ∃ st', body st i p = .ok st' ∧ Inv st' ∧ LazyStep (fr st) (fr st') (fl st) (fl st') p) :
    ∃ T a, LazyRun F seq T a ∧
      ∃ st, iterate_refs seq init body seq.length = .ok st ∧ a seq.length = fl st := by
  have hinv := iterate_refs_inv seq init body (fun _ st => Inv st) s0 h0 hI0
    (fun i st p hp hI => by
      obtain ⟨st', hb, hI', _⟩ := hbody st i p (hseq p (List.mem_iff_getElem?.2 ⟨_, hp⟩)) hI
      exact ⟨st', hb, hI'⟩)
  refine ⟨fun i => resident_of fr (iterate_refs seq init body i),
    fun i => faults_of fl (iterate_refs seq init body i), ⟨?_, ?_, ?_, ?_⟩, ?_⟩
  · simp [iterate_refs, h0, resident_of, hfr0]
  · simp [iterate_refs, h0, faults_of, hfl0]
  · intro i hi
    obtain ⟨st, hst, hI⟩ := hinv i hi
    simp only [hst, resident_of]
    exact (resident_card_le _).trans (hlen st hI)
  · intro i p hp
    have hi : i < seq.length := (List.getElem?_eq_some_iff.1 hp).1
    obtain ⟨st, hst, hI⟩ := hinv i (by omega)
    have hpm : p ≠ INT_MIN := hseq p (List.mem_iff_getElem?.2 ⟨_, hp⟩)
    obtain ⟨st', hb, _, _, hhit, hmiss⟩ := hbody st i p hpm hI
    have hnext : iterate_refs seq init body (i + 1) = .ok st' := by
      rw [iterate_refs_succ seq init body i st p hst hp, hb]
    simp only [hst, hnext, resident_of, faults_of]
    constructor
    · intro h
      obtain ⟨e1, e2⟩ := hhit ((resident_eq_of_mem hpm).1 h)
      rw [e1]
      exact ⟨rfl, e2⟩
    · intro h
      have hnot : p ∉ fr st := fun hc => h ((resident_eq_of_mem hpm).2 hc)
      obtain ⟨e, hin, hsub⟩ := hmiss hnot
      refine ⟨(resident_eq_of_mem hpm).2 hin, ?_, e⟩
      intro x hx
      obtain ⟨hx1, hx2⟩ := mem_resident.1 hx
      rcases hsub x hx1 with e1 | e1
      · exact Finset.mem_insert.2 (Or.inl e1)
      · exact Finset.mem_insert.2 (Or.inr (mem_resident.2 ⟨e1, hx2⟩))
  · obtain ⟨st, hst, _⟩ := hinv seq.length le_rfl
    exact ⟨st, hst, by simp [hst, faults_of]⟩

/-! ## The four loops as demand-paging loops -/

/-- A loop over the references whose state carries a frame vector `fr`, a fault counter `fl`
and the printed records `out`, starts with `F` empty frames and no faults, and whose body is a
demand-paging step that prints one record when `verbose` is set. -/
def DemandLoop {σ : Type} (F : Nat) (verbose : Bool) (init : Except SimError σ)
    (body : σ → Nat → Int → Except SimError σ) (Inv : σ → Prop)
    (fr : σ → List Int) (fl : σ → Nat) (out : σ → List StepRecord) : Prop :=
  (∃ s0, init = .ok s0 ∧ Inv s0 ∧ fr s0 = List.replicate F INT_MIN ∧ fl s0 = 0 ∧ out s0 = []) ∧
    (∀ st, Inv st → (fr st).length = F) ∧
    ∀ st i p, p ≠ INT_MIN → Inv st →
      ∃ st', body st i p = .ok st' ∧ Inv st' ∧ LazyStep (fr st) (fr st') (fl st) (fl st') p ∧
        out st' = emit verbose (out st) (fr st') p i (hit_test (fr st) p)

theorem fifo_demandLoop (F : Nat) (hF : 1 ≤ F) (verbose : Bool) :
    DemandLoop F verbose (fifo_init (F : Int)) (fifo_body (F : Int) verbose) (FifoInv F)
      FifoState.frames FifoState.faults FifoState.out := by
  obtain ⟨s0, h0, hI, h1, h2, h3, _⟩ := fifo_init_ok F
  refine ⟨⟨s0, h0, hI, h1, h2, h3⟩, fun st h => h.1, ?_⟩
  intro st i p hp hI
  obtain ⟨st', a, b, c, d, _⟩ := fifo_body_spec F hF verbose st i p hp hI
  exact ⟨st', a, b, c, d⟩

theorem opt_demandLoop (F : Nat) (hF : 1 ≤ F) (seq : List Int) (verbose : Bool) :
    DemandLoop F verbose (opt_init (F : Int)) (opt_body seq verbose) (OptInv F)
      OptState.frames OptState.faults OptState.out := by
  obtain ⟨s0, h0, hI, h1, h2, h3⟩ := opt_init_ok F
  refine ⟨⟨s0, h0, hI, h1, h2, h3⟩, fun st h => h.1, ?_⟩
  intro st i p hp hI
  obtain ⟨st', a, b, c, d, _⟩ := opt_body_spec F hF seq verbose st i p hp hI
  exact ⟨st', a, b, c, d⟩

theorem lru_demandLoop (F : Nat) (hF : 1 ≤ F) (verbose : Bool) :
    DemandLoop F verbose (lru_init (F : Int)) (lru_body verbose) (LruInv F)
      LruState.frames LruState.faults LruState.out := by
  obtain ⟨s0, h0, hI, h1, h2, h3⟩ := lru_init_ok F
  refine ⟨⟨s0, h0, hI, h1, h2, h3⟩, fun st h => h, ?_⟩
  intro st i p _ hI
  exact lru_body_spec F hF verbose st i p hI

theorem clock_demandLoop (F : Nat) (hF : 1 ≤ F) (verbose : Bool) :
    DemandLoop F verbose (clock_init (F : Int)) (clock_body (F : Int) verbose) (ClockInv F)
      ClockState.frames ClockState.faults ClockState.out := by
  obtain ⟨s0, h0, h1, hu, hpt, h2, h3⟩ := clock_init_ok F
  refine ⟨⟨s0, h0, ⟨by simp [h1], by simp [hu], by omega⟩, h1, h2, h3⟩, fun st h => h.1, ?_⟩
  intro st i p _ hI
  obtain ⟨st', a, b, c, d, _⟩ := clock_body_spec F verbose st i p hI
  exact ⟨st', a, b, c, d⟩

/-- A demand-paging loop runs to the end of the sequence without error, keeping its
invariant. -/
theorem demandLoop_runs {σ : Type} {F : Nat} {verbose : Bool} {init : Except SimError σ}
    {body : σ → Nat → Int → Except SimError σ} {Inv : σ → Prop} {fr : σ → List Int}
    {fl : σ → Nat} {out : σ → List StepRecord}
    (h : DemandLoop F verbose init body Inv fr fl out)
    (seq : List Int) (hseq : ∀ p ∈ seq, p ≠ INT_MIN) :
    ∀ n, n ≤ seq.length → ∃ st, iterate_refs seq init body n = .ok st ∧ Inv st := by
  obtain ⟨⟨s0, h0, hI0, _⟩, _, hbody⟩ := h
  exact iterate_refs_inv seq init body (fun _ st => Inv st) s0 h0 hI0
    (fun i st p hp hI => by
      obtain ⟨st', hb, hI', _⟩ := hbody st i p (hseq p (List.mem_iff_getElem?.2 ⟨_, hp⟩)) hI
      exact ⟨st', hb, hI'⟩)

/-- The step from `i` to `i + 1` references of a demand-paging loop. -/
theorem demandLoop_step {σ : Type} {F : Nat} {verbose : Bool} {init : Except SimError σ}
    {body : σ → Nat → Int → Except SimError σ} {Inv : σ → Prop} {fr : σ → List Int}
    {fl : σ → Nat} {out : σ → List StepRecord}
    (h : DemandLoop F verbose init body Inv fr fl out)
    (seq : List Int) (hseq : ∀ p ∈ seq, p ≠ INT_MIN) (i : Nat) (p : Int)
    (hp : seq[i]? = some p) :
    ∃ st st', iterate_refs seq init body i = .ok st ∧ Inv st ∧ body st i p = .ok st' ∧
      iterate_refs seq init body (i + 1) = .ok st' := by
  have hi : i < seq.length := (List.getElem?_eq_some_iff.1 hp).1
  obtain ⟨st, hst, hI⟩ := demandLoop_runs h seq hseq i (by omega)
  obtain ⟨st', hb, _⟩ := h.2.2 st i p (hseq p (List.mem_iff_getElem?.2 ⟨_, hp⟩)) hI
  exact ⟨st, st', hst, hI, hb, by rw [iterate_refs_succ seq init body i st p hst hp, hb]⟩

/-- The fault count of `simulate_opt` with `F` frames is at most that of any demand-paging loop
with at most `F` frames. -/
theorem opt_le_demandLoop {σ : Type} (F G : Nat) (hG : 1 ≤ G) (hGF : G ≤ F) (verbose v : Bool)
    (init : Except SimError σ) (body : σ → Nat → Int → Except SimError σ) (Inv : σ → Prop)
    (fr : σ → List Int) (fl : σ → Nat) (out : σ → List StepRecord)
    (h : DemandLoop G v init body Inv fr fl out)
    (seq : List Int) (hseq : ∀ p ∈ seq, p ≠ INT_MIN) :
    ∃ sto st, opt_iter seq (F : Int) verbose seq.length = .ok sto ∧
      iterate_refs seq init body seq.length = .ok st ∧ sto.faults ≤ fl st := by
  obtain ⟨⟨s0, h0, hI0, hfr0, hfl0, _⟩, hlen, hbody⟩ := h
  obtain ⟨T, a, hrun, st, hst, ha⟩ := lazyRun_of_loop F seq hseq init body Inv fr fl s0 h0 hI0
    (by rw [hfr0]; simp [resident, occupied_replicate]) hfl0
    (fun st hI => by rw [hlen st hI]; exact hGF)
    (fun st i p hp hI => by
      obtain ⟨st', hb, hI', hl, _⟩ := hbody st i p hp hI
      exact ⟨st', hb, hI', hl⟩)
  obtain ⟨sto, hsto, _, hdom⟩ :=
    opt_le_lazyRun F (by omega) seq hseq verbose T a hrun seq.length le_rfl
  refine ⟨sto, st, hsto, hst, ?_⟩
  have := hdom 0
  simp only [List.take_zero, soon_nil, add_zero] at this
  omega

theorem nonneg_ne_INT_MIN {seq : List Int} (h : ∀ p ∈ seq, 0 ≤ p) : ∀ p ∈ seq, p ≠ INT_MIN :=
  fun p hp => ne_INT_MIN_of_nonneg (h p hp)

theorem iterate_refs_error {σ : Type} (seq : List Int) (e : SimError)
    (body : σ → Nat → Int → Except SimError σ) (n : Nat) :
    iterate_refs seq (.error e) body n = .error e := by
  induction n with
  | zero => rfl
  | succ k ih => simp [iterate_refs, ih]

/-! ## A single frame -/

/-- Content of the only frame after `n` references when `frames_count = 1`: the page referenced
last, or the empty marker before the first reference. -/
def last_ref (seq : List Int) : Nat → Int
  | 0 => INT_MIN
  | k + 1 => seq.getD k INT_MIN

theorem lazyStep_single {x p : Int} {fr' : List Int} {a a' : Nat}
    (h : LazyStep [x] fr' a a' p) : fr' = [p] ∧ a' = a + (if p = x then 0 else 1) := by
  obtain ⟨hlen, hhit, hmiss⟩ := h
  by_cases e : p = x
  · obtain ⟨e1, e2⟩ := hhit (by simp [e])
    simp [e1, e2, e]
  · obtain ⟨e1, e2, _⟩ := hmiss (by simpa using e)
    refine ⟨?_, by simp [e1, e]⟩
    match fr', hlen, e2 with
    | [y], _, e2 =>
      have : p = y := by simpa using e2
      rw [this]

theorem changes_iff (seq : List Int) (hseq : ∀ p ∈ seq, p ≠ INT_MIN) (i : Nat) (p : Int)
    (hp : seq[i]? = some p) :
    (i = 0 ∨ seq[i]? ≠ seq[i - 1]?) ↔ ¬ p = last_ref seq i := by
  cases i with
  | zero =>
    simp only [true_or, true_iff, last_ref]
    exact hseq p (List.mem_iff_getElem?.2 ⟨_, hp⟩)
  | succ k =>
    have hk : k < seq.length := by
      have := (List.getElem?_eq_some_iff.1 hp).1
      omega
    have e : seq[k]? = some seq[k] := List.getElem?_eq_getElem hk
    have e2 : seq.getD k INT_MIN = seq[k] := by
      rw [List.getD_eq_getElem?_getD, e]
      rfl
    simp only [Nat.add_one_ne_zero, false_or, Nat.add_sub_cancel, last_ref, hp, e, e2, ne_eq,
      Option.some.injEq]

theorem single_frame_loop {σ : Type} {verbose : Bool} {init : Except SimError σ}
    {body : σ → Nat → Int → Except SimError σ} {Inv : σ → Prop} {fr : σ → List Int}
    {fl : σ → Nat} {out : σ → List StepRecord}
    (h : DemandLoop 1 verbose init body Inv fr fl out)
    (seq : List Int) (hseq : ∀ p ∈ seq, p ≠ INT_MIN) :
    ∀ n, n ≤ seq.length → ∃ st, iterate_refs seq init body n = .ok st ∧
      (Inv st ∧ fr st = [last_ref seq n] ∧
        fl st = ((List.range n).filter
          (fun i => decide (i = 0 ∨ seq[i]? ≠ seq[i - 1]?))).length ∧
        (verbose = true → (out st).length = n ∧
          ∀ i r, (out st)[i]? = some r →
            (r.hit = false ↔ (i = 0 ∨ seq[i]? ≠ seq[i - 1]?)))) := by
  obtain ⟨⟨s0, h0, hI0, hfr0, hfl0, hout0⟩, _, hbody⟩ := h
  refine iterate_refs_inv seq init body
    (fun n st => Inv st ∧ fr st = [last_ref seq n] ∧
        fl st = ((List.range n).filter
          (fun i => decide (i = 0 ∨ seq[i]? ≠ seq[i - 1]?))).length ∧
        (verbose = true → (out st).length = n ∧
          ∀ i r, (out st)[i]? = some r →
            (r.hit = false ↔ (i = 0 ∨ seq[i]? ≠ seq[i - 1]?))))
    s0 h0 ⟨hI0, by simpa [last_ref] using hfr0, by simpa using hfl0,
      fun _ => ⟨by simp [hout0], by simp [hout0]⟩⟩ ?_
  intro i st p hp ⟨hI, hfr, hfl, hrecs⟩
  have hpm : p ≠ INT_MIN := hseq p (List.mem_iff_getElem?.2 ⟨_, hp⟩)
  obtain ⟨st', hb, hI', hlazy, hout⟩ := hbody st i p hpm hI
  rw [hfr] at hlazy hout
  obtain ⟨e1, e2⟩ := lazyStep_single hlazy
  have hch := changes_iff seq hseq i p hp
  have hi : i < seq.length := (List.getElem?_eq_some_iff.1 hp).1
  have hht : hit_test [last_ref seq i] p = decide (p = last_ref seq i) := by
    by_cases e : p = last_ref seq i
    · simp [e, hit_test]
    · have e' : ¬ last_ref seq i = p := fun h => e h.symm
      simp [e, e', hit_test]
  refine ⟨st', hb, hI', ?_, ?_, ?_⟩
  · rw [e1]
    simp only [last_ref]
    rw [List.getD_eq_getElem?_getD, hp]
    rfl
  · rw [e2, hfl, List.range_succ, List.filter_append, List.length_append]
    congr 1
    by_cases e : p = last_ref seq i
    · have : ¬ (i = 0 ∨ seq[i]? ≠ seq[i - 1]?) := fun hc => hch.1 hc e
      simp [e, List.filter_cons, this]
    · have : (i = 0 ∨ seq[i]? ≠ seq[i - 1]?) := hch.2 e
      simp [e, List.filter_cons, this]
  · intro hv
    subst hv
    obtain ⟨hlen, hrec⟩ := hrecs rfl
    refine ⟨by rw [hout]; simp [emit, hlen], ?_⟩
    intro j r hj
    rw [hout] at hj
    simp only [emit, if_true] at hj
    by_cases hjl : j < (out st).length
    · rw [List.getElem?_append_left hjl] at hj
      exact hrec j r hj
    · have hj2 := (List.getElem?_eq_some_iff.1 hj).1
      simp only [List.length_append, List.length_singleton] at hj2
      have hje : j = i := by omega
      subst hje
      rw [List.getElem?_append_right (by omega)] at hj
      have hz : j - (out st).length = 0 := by omega
      rw [hz] at hj
      simp only [List.getElem?_cons_zero, Option.some.injEq] at hj
      rw [← hj, hch]
      simp [print_step, hht]

/-- Among the first `n >= 1` positions, the positions that are `0` or carry a change are one more
than the positive positions that carry a change. -/
theorem count_changes (Q : Nat → Prop) [DecidablePred Q] (n : Nat) (hn : 1 ≤ n) :
    ((List.range n).filter (fun i => decide (i = 0 ∨ Q i))).length =
      1 + ((List.range n).filter (fun i => decide (0 < i ∧ Q i))).length := by
  induction n with
  | zero => omega
  | succ k ih =>
    rw [List.range_succ, List.filter_append, List.filter_append, List.length_append,
      List.length_append]
    by_cases hk : k = 0
    · subst hk
      simp
    · rw [ih (by omega)]
      have h1 : (k = 0 ∨ Q k) ↔ (0 < k ∧ Q k) := by
        constructor
        · rintro (h | h)
          · exact absurd h hk
          · exact ⟨by omega, h⟩
        · exact fun h => Or.inr h.2
      simp only [List.filter_cons, h1, List.filter_nil]
      omega

/-! ## The engines on whole sequences -/

theorem simulate_fifo_of_iter {seq : List Int} {F : Int} {verbose : Bool} {st : FifoState}
    (h : iterate_refs seq (fifo_init F) (fifo_body F verbose) seq.length = .ok st) :
    simulate_fifo seq F verbose = .ok (st.faults, st.out) := by
  simp [simulate_fifo, fifo_iter, h]

theorem simulate_opt_of_iter {seq : List Int} {F : Int} {verbose : Bool} {st : OptState}
    (h : opt_iter seq F verbose seq.length = .ok st) :
    simulate_opt seq F verbose = .ok (st.faults, st.out) := by
  simp [simulate_opt, h]

theorem simulate_lru_of_iter {seq : List Int} {F : Int} {verbose : Bool} {st : LruState}
    (h : iterate_refs seq (lru_init F) (lru_body verbose) seq.length = .ok st) :
    simulate_lru seq F verbose = .ok (st.faults, st.out) := by
  simp [simulate_lru, lru_iter, h]

theorem simulate_clock_of_iter {seq : List Int} {F : Int} {verbose : Bool} {st : ClockState}
    (h : iterate_refs seq (clock_init F) (clock_body F verbose) seq.length = .ok st) :
    simulate_clock seq F verbose = .ok (st.faults, st.out) := by
  simp [simulate_clock, clock_iter, h]

theorem exists_nat_of_one_le {F : Int} (hF : 1 ≤ F) : ∃ n : Nat, F = (n : Int) ∧ 1 ≤ n := by
  obtain ⟨n, rfl⟩ := Int.eq_ofNat_of_zero_le (by omega : 0 ≤ F)
  exact ⟨n, rfl, by exact_mod_cast hF⟩

/-! ## The claims -/

/-- Claim C1, as amended: with 3 frames and the references 7 0 1 2 0 3 0 4 2 3 0 3 2,
`simulate_fifo` returns 10 faults. -/
theorem fifo_textbook_faults (verbose : Bool) :
    ∃ out, simulate_fifo [7, 0, 1, 2, 0, 3, 0, 4, 2, 3, 0, 3, 2] 3 verbose = .ok (10, out) := by
  cases verbose <;> exact ⟨_, rfl⟩

/-- Claim C1, as stated, fails: with 3 frames and the references 7 0 1 2 0 3 0 4 2 3 0 3 2,
`simulate_fifo` does not return 9 faults. -/
theorem fifo_textbook_not_nine :
    ¬ ∃ out, simulate_fifo [7, 0, 1, 2, 0, 3, 0, 4, 2, 3, 0, 3, 2] 3 true = .ok (9, out) := by
  rintro ⟨out, h⟩
  have h2 : ∃ o, simulate_fifo [7, 0, 1, 2, 0, 3, 0, 4, 2, 3, 0, 3, 2] 3 true = .ok (10, o) :=
    ⟨_, rfl⟩
  obtain ⟨o, h2⟩ := h2
  rw [h] at h2
  injection h2 with h3
  injection h3 with h4 _
  exact absurd h4 (by decide)

/-- Claim C2, as amended: with 3 frames and the references 7 0 1 2 0 3 0 4 2 3 0 3 2,
`simulate_lru` returns 9 faults. -/
theorem lru_textbook_faults (verbose : Bool) :
    ∃ out, simulate_lru [7, 0, 1, 2, 0, 3, 0, 4, 2, 3, 0, 3, 2] 3 verbose = .ok (9, out) := by
  cases verbose <;> exact ⟨_, rfl⟩

/-- Claim C2, as stated, fails: with 3 frames and the references 7 0 1 2 0 3 0 4 2 3 0 3 2,
`simulate_lru` does not return 10 faults. -/
theorem lru_textbook_not_ten :
    ¬ ∃ out, simulate_lru [7, 0, 1, 2, 0, 3, 0, 4, 2, 3, 0, 3, 2] 3 true = .ok (10, out) := by
  rintro ⟨out, h⟩
  have h2 : ∃ o, simulate_lru [7, 0, 1, 2, 0, 3, 0, 4, 2, 3, 0, 3, 2] 3 true = .ok (9, o) :=
    ⟨_, rfl⟩
  obtain ⟨o, h2⟩ := h2
  rw [h] at h2
  injection h2 with h3
  injection h3 with h4 _
  exact absurd h4 (by decide)

/-- Claim C3: with 3 frames and the references 7 0 1 2 0 3 0 4 2 3 0 3 2, `simulate_opt`
returns 7 faults. -/
theorem opt_textbook_faults (verbose : Bool) :
    ∃ out, simulate_opt [7, 0, 1, 2, 0, 3, 0, 4, 2, 3, 0, 3, 2] 3 verbose = .ok (7, out) := by
  cases verbose <;> exact ⟨_, rfl⟩

/-- Claim C4: for every frame count `F >= 1` and every sequence of non-negative pages,
`simulate_opt` returns a fault count, so do `simulate_fifo`, `simulate_lru` and
`simulate_clock`, and the count of `simulate_opt` is at most each of the other three. -/
theorem opt_faults_le_others (F : Int) (hF : 1 ≤ F) (seq : List Int) (hseq : ∀ p ∈ seq, 0 ≤ p)
    (verbose : Bool) :
    ∃ o oo, simulate_opt seq F verbose = .ok (o, oo) ∧
      ∀ sim ∈ [simulate_fifo, simulate_lru, simulate_clock],
        ∃ n no, sim seq F verbose = .ok (n, no) ∧ o ≤ n := by
  obtain ⟨G, rfl, hG⟩ := exists_nat_of_one_le hF
  have hne := nonneg_ne_INT_MIN hseq
  obtain ⟨s1, t1, ho1, hf, le1⟩ := opt_le_demandLoop G G hG le_rfl verbose verbose _ _ _ _ _ _
    (fifo_demandLoop G hG verbose) seq hne
  obtain ⟨s2, t2, ho2, hl, le2⟩ := opt_le_demandLoop G G hG le_rfl verbose verbose _ _ _ _ _ _
    (lru_demandLoop G hG verbose) seq hne
  obtain ⟨s3, t3, ho3, hc, le3⟩ := opt_le_demandLoop G G hG le_rfl verbose verbose _ _ _ _ _ _
    (clock_demandLoop G hG verbose) seq hne
  rw [ho1] at ho2 ho3
  injection ho2 with e2
  injection ho3 with e3
  subst e2 e3
  refine ⟨s1.faults, s1.out, simulate_opt_of_iter ho1, ?_⟩
  intro sim hsim
  simp only [List.mem_cons, List.mem_singleton, List.not_mem_nil, or_false] at hsim
  rcases hsim with rfl | rfl | rfl
  · exact ⟨_, _, simulate_fifo_of_iter hf, le1⟩
  · exact ⟨_, _, simulate_lru_of_iter hl, le2⟩
  · exact ⟨_, _, simulate_clock_of_iter hc, le3⟩

/-- Claim C4 at a concrete input: 3 frames and the references 7 0 1 2 0 3 0 4 2 3 0 3 2. -/
theorem opt_faults_le_others_witness :
    ∃ o oo, simulate_opt [7, 0, 1, 2, 0, 3, 0, 4, 2, 3, 0, 3, 2] 3 true = .ok (o, oo) ∧
      ∀ sim ∈ [simulate_fifo, simulate_lru, simulate_clock],
        ∃ n no, sim [7, 0, 1, 2, 0, 3, 0, 4, 2, 3, 0, 3, 2] 3 true = .ok (n, no) ∧ o ≤ n :=
  opt_faults_le_others 3 (by decide) [7, 0, 1, 2, 0, 3, 0, 4, 2, 3, 0, 3, 2] (by decide) true

/-- Claim C5: in each of the four engines, for every `F >= 1` and every sequence of
non-negative pages, a step whose page `seq[i]` is already in the frames leaves the frame vector
identical and the fault counter unchanged (FIFO also keeps its queue, Clock its pointer; only
LRU's `last_used`/`time` and Clock's use-bits may differ). -/
theorem hit_is_idempotent (F : Int) (hF : 1 ≤ F) (seq : List Int) (hseq : ∀ p ∈ seq, 0 ≤ p)
    (verbose : Bool) (i : Nat) (p : Int) (hp : seq[i]? = some p) :
    (∃ st st', fifo_iter seq F verbose i = .ok st ∧ fifo_iter seq F verbose (i + 1) = .ok st' ∧
      (p ∈ st.frames → st'.frames = st.frames ∧ st'.faults = st.faults ∧ st'.q = st.q)) ∧
    (∃ st st', opt_iter seq F verbose i = .ok st ∧ opt_iter seq F verbose (i + 1) = .ok st' ∧
      (p ∈ st.frames → st'.frames = st.frames ∧ st'.faults = st.faults)) ∧
    (∃ st st', lru_iter seq F verbose i = .ok st ∧ lru_iter seq F verbose (i + 1) = .ok st' ∧
      (p ∈ st.frames → st'.frames = st.frames ∧ st'.faults = st.faults)) ∧
    (∃ st st', clock_iter seq F verbose i = .ok st ∧
      clock_iter seq F verbose (i + 1) = .ok st' ∧
      (p ∈ st.frames → st'.frames = st.frames ∧ st'.faults = st.faults ∧
        st'.pointer = st.pointer)) := by
  obtain ⟨G, rfl, hG⟩ := exists_nat_of_one_le hF
  have hne := nonneg_ne_INT_MIN hseq
  have hpm : p ≠ INT_MIN := hne p (List.mem_iff_getElem?.2 ⟨_, hp⟩)
  refine ⟨?_, ?_, ?_, ?_⟩
  · obtain ⟨st, st', h1, hI, hb, h2⟩ := demandLoop_step (fifo_demandLoop G hG verbose) seq hne i p hp
    refine ⟨st, st', h1, h2, fun hin => ?_⟩
    obtain ⟨st2, hb2, _, hl, _, hq⟩ := fifo_body_spec G hG verbose st i p hpm hI
    rw [hb] at hb2
    injection hb2 with e
    subst e
    exact ⟨(hl.2.1 hin).1, (hl.2.1 hin).2, hq hin⟩
  · obtain ⟨st, st', h1, hI, hb, h2⟩ :=
      demandLoop_step (opt_demandLoop G hG seq verbose) seq hne i p hp
    refine ⟨st, st', h1, h2, fun hin => ?_⟩
    obtain ⟨st2, hb2, _, hl, _⟩ := opt_body_spec G hG seq verbose st i p hpm hI
    rw [hb] at hb2
    injection hb2 with e
    subst e
    exact hl.2.1 hin
  · obtain ⟨st, st', h1, hI, hb, h2⟩ := demandLoop_step (lru_demandLoop G hG verbose) seq hne i p hp
    refine ⟨st, st', h1, h2, fun hin => ?_⟩
    obtain ⟨st2, hb2, _, hl, _⟩ := lru_body_spec G hG verbose st i p hI
    rw [hb] at hb2
    injection hb2 with e
    subst e
    exact hl.2.1 hin
  · obtain ⟨st, st', h1, hI, hb, h2⟩ :=
      demandLoop_step (clock_demandLoop G hG verbose) seq hne i p hp
    refine ⟨st, st', h1, h2, fun hin => ?_⟩
    obtain ⟨st2, hb2, _, hl, _, hq⟩ := clock_body_spec G verbose st i p hI
    rw [hb] at hb2
    injection hb2 with e
    subst e
    exact ⟨(hl.2.1 hin).1, (hl.2.1 hin).2, hq hin⟩

/-- Claim C5 at a concrete input: 2 frames, references 4 5 4, the third step (a hit on 4). -/
theorem hit_is_idempotent_witness :
    (∃ st st', fifo_iter [4, 5, 4] 2 true 2 = .ok st ∧ fifo_iter [4, 5, 4] 2 true (2 + 1) = .ok st' ∧
      (4 ∈ st.frames → st'.frames = st.frames ∧ st'.faults = st.faults ∧ st'.q = st.q)) ∧
    (∃ st st', opt_iter [4, 5, 4] 2 true 2 = .ok st ∧ opt_iter [4, 5, 4] 2 true (2 + 1) = .ok st' ∧
      (4 ∈ st.frames → st'.frames = st.frames ∧ st'.faults = st.faults)) ∧
    (∃ st st', lru_iter [4, 5, 4] 2 true 2 = .ok st ∧ lru_iter [4, 5, 4] 2 true (2 + 1) = .ok st' ∧
      (4 ∈ st.frames → st'.frames = st.frames ∧ st'.faults = st.faults)) ∧
    (∃ st st', clock_iter [4, 5, 4] 2 true 2 = .ok st ∧
      clock_iter [4, 5, 4] 2 true (2 + 1) = .ok st' ∧
      (4 ∈ st.frames → st'.frames = st.frames ∧ st'.faults = st.faults ∧
        st'.pointer = st.pointer)) :=
  hit_is_idempotent 2 (by decide) [4, 5, 4] (by decide) true 2 4 rfl

/-- Claim C6: for every frame count `F >= 1`, each of the four engines run on the empty
sequence returns normally with fault count 0 and no step record. -/
theorem empty_sequence_no_faults (F : Int) (hF : 1 ≤ F) (verbose : Bool) :
    ∀ sim ∈ [simulate_fifo, simulate_opt, simulate_lru, simulate_clock],
      sim [] F verbose = .ok (0, []) := by
  have h : ¬ F < 0 := by omega
  intro sim hsim
  simp only [List.mem_cons, List.mem_singleton, List.not_mem_nil, or_false] at hsim
  rcases hsim with rfl | rfl | rfl | rfl
  · simp [simulate_fifo, fifo_iter, iterate_refs, fifo_init, new_vector, h]
  · simp [simulate_opt, opt_iter, iterate_refs, opt_init, new_vector, h]
  · simp [simulate_lru, lru_iter, iterate_refs, lru_init, new_vector, h]
  · simp [simulate_clock, clock_iter, iterate_refs, clock_init, new_vector, h]

/-- Claim C6 at a concrete input: 3 frames. -/
theorem empty_sequence_no_faults_witness :
    simulate_fifo [] 3 true = .ok (0, []) ∧ simulate_opt [] 3 true = .ok (0, []) ∧
      simulate_lru [] 3 true = .ok (0, []) ∧ simulate_clock [] 3 true = .ok (0, []) :=
  ⟨empty_sequence_no_faults 3 (by decide) true _ (by simp),
    empty_sequence_no_faults 3 (by decide) true _ (by simp),
    empty_sequence_no_faults 3 (by decide) true _ (by simp),
    empty_sequence_no_faults 3 (by decide) true _ (by simp)⟩

/-- Claim C7, as stated, fails: with `frames_count = 0` and the empty sequence nothing is
rejected; every engine returns fault count 0 and `main` writes its four totals. -/
theorem zero_frames_not_rejected :
    main 0 [] = .ok { f_fifo := 0, f_opt := 0, f_lru := 0, f_clock := 0 } ∧
      simulate_fifo [] 0 true = .ok (0, []) ∧ simulate_opt [] 0 true = .ok (0, []) ∧
      simulate_lru [] 0 true = .ok (0, []) ∧ simulate_clock [] 0 true = .ok (0, []) :=
  ⟨rfl, rfl, rfl, rfl, rfl⟩

/-- Claim C7, as amended: a frame count `F < 0` makes every engine, and therefore `main`, fail
with the length error of the frame-vector constructor before any step runs; no step record and
no fault count is produced. -/
theorem negative_frames_rejected (F : Int) (hF : F < 0) (seq : List Int) :
    main F seq = .error .length_error ∧
      ∀ sim ∈ [simulate_fifo, simulate_opt, simulate_lru, simulate_clock],
        ∀ verbose, sim seq F verbose = .error .length_error := by
  have h1 : ∀ verbose, simulate_fifo seq F verbose = .error .length_error := by
    intro verbose
    simp [simulate_fifo, fifo_iter, fifo_init, new_vector, hF, iterate_refs_error]
  have h2 : ∀ verbose, simulate_opt seq F verbose = .error .length_error := by
    intro verbose
    simp [simulate_opt, opt_iter, opt_init, new_vector, hF, iterate_refs_error]
  have h3 : ∀ verbose, simulate_lru seq F verbose = .error .length_error := by
    intro verbose
    simp [simulate_lru, lru_iter, lru_init, new_vector, hF, iterate_refs_error]
  have h4 : ∀ verbose, simulate_clock seq F verbose = .error .length_error := by
    intro verbose
    simp [simulate_clock, clock_iter, clock_init, new_vector, hF, iterate_refs_error]
  refine ⟨by simp [main, h1], ?_⟩
  intro sim hsim
  simp only [List.mem_cons, List.mem_singleton, List.not_mem_nil, or_false] at hsim
  rcases hsim with rfl | rfl | rfl | rfl
  · exact h1
  · exact h2
  · exact h3
  · exact h4

/-- Claim C7, as amended, at a concrete input: `frames_count = -1`, references 1 2. -/
theorem negative_frames_rejected_witness :
    main (-1) [1, 2] = .error .length_error ∧
      simulate_fifo [1, 2] (-1) true = .error .length_error ∧
      simulate_opt [1, 2] (-1) true = .error .length_error ∧
      simulate_lru [1, 2] (-1) true = .error .length_error ∧
      simulate_clock [1, 2] (-1) true = .error .length_error :=
  ⟨(negative_frames_rejected (-1) (by decide) [1, 2]).1,
    (negative_frames_rejected (-1) (by decide) [1, 2]).2 _ (by simp) true,
    (negative_frames_rejected (-1) (by decide) [1, 2]).2 _ (by simp) true,
    (negative_frames_rejected (-1) (by decide) [1, 2]).2 _ (by simp) true,
    (negative_frames_rejected (-1) (by decide) [1, 2]).2 _ (by simp) true⟩

/-- Claim C8: with one frame and a sequence of non-negative pages, each of the four engines
returns a fault count which, for a non-empty sequence, is 1 plus the number of positions whose
page differs from the previous one; and when the steps are printed there is one record per
reference and the record of step `i` (0-based) is a fault exactly when `i = 0` or `seq[i]`
differs from `seq[i-1]`. -/
theorem single_frame_faults (seq : List Int) (hseq : ∀ p ∈ seq, 0 ≤ p) (verbose : Bool) :
    ∀ sim ∈ [simulate_fifo, simulate_opt, simulate_lru, simulate_clock],
      ∃ faults out, sim seq 1 verbose = .ok (faults, out) ∧
        (seq ≠ [] → faults = 1 + ((List.range seq.length).filter
          (fun i => decide (0 < i ∧ seq[i]? ≠ seq[i - 1]?))).length) ∧
        (verbose = true → out.length = seq.length ∧
          ∀ i r, out[i]? = some r → (r.hit = false ↔ (i = 0 ∨ seq[i]? ≠ seq[i - 1]?))) := by
  have hne := nonneg_ne_INT_MIN hseq
  have key : ∀ {σ : Type} {init : Except SimError σ} {body : σ → Nat → Int → Except SimError σ}
      {Inv : σ → Prop} {fr : σ → List Int} {fl : σ → Nat} {out : σ → List StepRecord},
      DemandLoop 1 verbose init body Inv fr fl out →
      ∃ st, iterate_refs seq init body seq.length = .ok st ∧
        (seq ≠ [] → fl st = 1 + ((List.range seq.length).filter
          (fun i => decide (0 < i ∧ seq[i]? ≠ seq[i - 1]?))).length) ∧
        (verbose = true → (out st).length = seq.length ∧
          ∀ i r, (out st)[i]? = some r →
            (r.hit = false ↔ (i = 0 ∨ seq[i]? ≠ seq[i - 1]?))) := by
    intro σ init body Inv fr fl out h
    obtain ⟨st, hst, _, _, hfl, hrec⟩ := single_frame_loop h seq hne seq.length le_rfl
    refine ⟨st, hst, fun hs => ?_, hrec⟩
    rw [hfl]
    exact count_changes (fun i => seq[i]? ≠ seq[i - 1]?) seq.length
      (Nat.succ_le_of_lt (List.length_pos.2 hs))
  intro sim hsim
  simp only [List.mem_cons, List.mem_singleton, List.not_mem_nil, or_false] at hsim
  rcases hsim with rfl | rfl | rfl | rfl
  · obtain ⟨st, hst, h1, h2⟩ := key (fifo_demandLoop 1 le_rfl verbose)
    exact ⟨_, _, simulate_fifo_of_iter hst, h1, h2⟩
  · obtain ⟨st, hst, h1, h2⟩ := key (opt_demandLoop 1 le_rfl seq verbose)
    exact ⟨_, _, simulate_opt_of_iter hst, h1, h2⟩
  · obtain ⟨st, hst, h1, h2⟩ := key (lru_demandLoop 1 le_rfl verbose)
    exact ⟨_, _, simulate_lru_of_iter hst, h1, h2⟩
  · obtain ⟨st, hst, h1, h2⟩ := key (clock_demandLoop 1 le_rfl verbose)
    exact ⟨_, _, simulate_clock_of_iter hst, h1, h2⟩

/-- Claim C8 at a concrete input: the references 1 1 2, printed, for each of the four
engines. -/
theorem single_frame_faults_witness :
    (∃ faults out, simulate_fifo [1, 1, 2] 1 true = .ok (faults, out) ∧
        (([1, 1, 2] : List Int) ≠ [] →
          faults = 1 + ((List.range ([1, 1, 2] : List Int).length).filter
            (fun i => decide (0 < i ∧
              ([1, 1, 2] : List Int)[i]? ≠ ([1, 1, 2] : List Int)[i - 1]?))).length) ∧
        (true = true → out.length = ([1, 1, 2] : List Int).length ∧
          ∀ i r, out[i]? = some r → (r.hit = false ↔
            (i = 0 ∨ ([1, 1, 2] : List Int)[i]? ≠ ([1, 1, 2] : List Int)[i - 1]?)))) ∧
    (∃ faults out, simulate_opt [1, 1, 2] 1 true = .ok (faults, out) ∧
        (([1, 1, 2] : List Int) ≠ [] →
          faults = 1 + ((List.range ([1, 1, 2] : List Int).length).filter
            (fun i => decide (0 < i ∧
              ([1, 1, 2] : List Int)[i]? ≠ ([1, 1, 2] : List Int)[i - 1]?))).length) ∧
        (true = true → out.length = ([1, 1, 2] : List Int).length ∧
          ∀ i r, out[i]? = some r → (r.hit = false ↔
            (i = 0 ∨ ([1, 1, 2] : List Int)[i]? ≠ ([1, 1, 2] : List Int)[i - 1]?)))) ∧
    (∃ faults out, simulate_lru [1, 1, 2] 1 true = .ok (faults, out) ∧
        (([1, 1, 2] : List Int) ≠ [] →
          faults = 1 + ((List.range ([1, 1, 2] : List Int).length).filter
            (fun i => decide (0 < i ∧
              ([1, 1, 2] : List Int)[i]? ≠ ([1, 1, 2] : List Int)[i - 1]?))).length) ∧
        (true = true → out.length = ([1, 1, 2] : List Int).length ∧
          ∀ i r, out[i]? = some r → (r.hit = false ↔
            (i = 0 ∨ ([1, 1, 2] : List Int)[i]? ≠ ([1, 1, 2] : List Int)[i - 1]?)))) ∧
    (∃ faults out, simulate_clock [1, 1, 2] 1 true = .ok (faults, out) ∧
        (([1, 1, 2] : List Int) ≠ [] →
          faults = 1 + ((List.range ([1, 1, 2] : List Int).length).filter
            (fun i => decide (0 < i ∧
              ([1, 1, 2] : List Int)[i]? ≠ ([1, 1, 2] : List Int)[i - 1]?))).length) ∧
        (true = true → out.length = ([1, 1, 2] : List Int).length ∧
          ∀ i r, out[i]? = some r → (r.hit = false ↔
            (i = 0 ∨ ([1, 1, 2] : List Int)[i]? ≠ ([1, 1, 2] : List Int)[i - 1]?)))) :=
  ⟨single_frame_faults [1, 1, 2] (by decide) true _ (by simp),
    single_frame_faults [1, 1, 2] (by decide) true _ (by simp),
    single_frame_faults [1, 1, 2] (by decide) true _ (by simp),
    single_frame_faults [1, 1, 2] (by decide) true _ (by simp)⟩

/-- Claim C9: Belady's anomaly for FIFO.  There are a sequence and a frame count `F >= 1` for
which `simulate_fifo` with `F + 1` frames returns strictly more faults than with `F` frames:
the references 1 2 3 4 1 2 5 1 2 3 4 5 give 9 faults with 3 frames and 10 with 4. -/
theorem fifo_belady_anomaly :
    ∃ (seq : List Int) (F : Int), 1 ≤ F ∧ ∃ a oa b ob,
      simulate_fifo seq F true = .ok (a, oa) ∧ simulate_fifo seq (F + 1) true = .ok (b, ob) ∧
        a < b :=
  ⟨[1, 2, 3, 4, 1, 2, 5, 1, 2, 3, 4, 5], 3, by decide, 9, _, 10, _, rfl, rfl, by decide⟩

/-- Claim C10: for every sequence of non-negative pages and every `F >= 1`, `simulate_opt`
returns a count with `F + 1` frames and with `F` frames, and the former is at most the latter. -/
theorem opt_monotone_in_frames (F : Int) (hF : 1 ≤ F) (seq : List Int)
    (hseq : ∀ p ∈ seq, 0 ≤ p) (verbose : Bool) :
    ∃ a oa b ob, simulate_opt seq (F + 1) verbose = .ok (a, oa) ∧
      simulate_opt seq F verbose = .ok (b, ob) ∧ a ≤ b := by
  obtain ⟨G, rfl, hG⟩ := exists_nat_of_one_le hF
  have hne := nonneg_ne_INT_MIN hseq
  obtain ⟨s, t, hs, ht, hle⟩ := opt_le_demandLoop (G + 1) G hG (by omega) verbose verbose _ _ _ _ _ _
    (opt_demandLoop G hG seq verbose) seq hne
  have hs' : opt_iter seq ((G : Int) + 1) verbose seq.length = .ok s := by
    have e : ((G + 1 : Nat) : Int) = (G : Int) + 1 := by push_cast; rfl
    rw [← e]
    exact hs
  exact ⟨_, _, _, _, simulate_opt_of_iter hs', simulate_opt_of_iter ht, hle⟩

/-- Claim C10 at a concrete input: the references 1 2 3 4 1 2 5 1 2 3 4 5 with 3 and 4
frames. -/
theorem opt_monotone_in_frames_witness :
    ∃ a oa b ob, simulate_opt [1, 2, 3, 4, 1, 2, 5, 1, 2, 3, 4, 5] (3 + 1) true = .ok (a, oa) ∧
      simulate_opt [1, 2, 3, 4, 1, 2, 5, 1, 2, 3, 4, 5] 3 true = .ok (b, ob) ∧ a ≤ b :=
  opt_monotone_in_frames 3 (by decide) [1, 2, 3, 4, 1, 2, 5, 1, 2, 3, 4, 5] (by decide) true

/-! ## The four loops on arbitrary page identifiers -/

/-- A loop over the references that, for any page identifier, completes each step, counts a
fault exactly when the page is in no slot of its frame vector `fr`, keeps the frame vector on a
hit, and prints one record per step when `verbose` is set. -/
def CountLoop {σ : Type} (F : Nat) (verbose : Bool) (init : Except SimError σ)
    (body : σ → Nat → Int → Except SimError σ) (Inv : σ → Prop)
    (fr : σ → List Int) (fl : σ → Nat) (out : σ → List StepRecord) : Prop :=
  (∃ s0, init = .ok s0 ∧ Inv s0 ∧ fr s0 = List.replicate F INT_MIN ∧ fl s0 = 0 ∧ out s0 = []) ∧
    ∀ st i p, Inv st →
      ∃ st', body st i p = .ok st' ∧ Inv st' ∧
        fl st' = fl st + (if p ∈ fr st then 0 else 1) ∧ (p ∈ fr st → fr st' = fr st) ∧
        out st' = emit verbose (out st) (fr st') p i (hit_test (fr st) p)

theorem fifo_body_total (F : Nat) (hF : 1 ≤ F) (verbose : Bool) (st : FifoState) (i : Nat)
    (p : Int) :
    ∃ st', fifo_body (F : Int) verbose st i p = .ok st' ∧
      st'.frames.length = st.frames.length ∧
      st'.faults = st.faults + (if p ∈ st.frames then 0 else 1) ∧
      (p ∈ st.frames → st'.frames = st.frames) ∧
      st'.out = emit verbose st.out st'.frames p i (hit_test st.frames p) := by
  by_cases hhit : p ∈ st.frames
  · have hh : hit_test st.frames p = true := (hit_test_iff _ _).2 hhit
    have hb : fifo_body (F : Int) verbose st i p =
        .ok { st with out := emit verbose st.out st.frames p i true } := by
      simp [fifo_body, hh]
    exact ⟨_, hb, rfl, by simp [hhit], fun _ => rfl, by simp [hh]⟩
  · have hh : hit_test st.frames p = false := (hit_test_false_iff _ _).2 hhit
    by_cases hq : (st.q.length : Int) < (F : Int)
    · have hb : fifo_body (F : Int) verbose st i p =
          .ok { frames := (replace_first INT_MIN p st.frames).1, q := st.q ++ [p],
                faults := st.faults + 1,
                out := emit verbose st.out (replace_first INT_MIN p st.frames).1 p i false } := by
        simp [fifo_body, hh, hq]
      exact ⟨_, hb, by simp [replace_first_length], by simp [hhit], fun h => absurd h hhit,
        by simp [hh]⟩
    · cases hqe : st.q with
      | nil =>
        exfalso
        rw [hqe] at hq
        apply hq
        simp only [List.length_nil, Nat.cast_zero]
        exact_mod_cast hF
      | cons victim rest =>
        have hb : fifo_body (F : Int) verbose st i p =
            .ok { frames := (replace_first victim p st.frames).1, q := rest ++ [p],
                  faults := st.faults + 1,
                  out := emit verbose st.out (replace_first victim p st.frames).1 p i false } := by
          unfold fifo_body
          rw [if_neg (by simp [hh]), if_neg hq]
          simp only [hqe]
        exact ⟨_, hb, by simp [replace_first_length], by simp [hhit], fun h => absurd h hhit,
          by simp [hh]⟩

theorem opt_body_total (seq : List Int) (verbose : Bool) (st : OptState) (i : Nat) (p : Int)
    (hne : st.frames ≠ []) :
    ∃ st', opt_body seq verbose st i p = .ok st' ∧
      st'.frames.length = st.frames.length ∧
      st'.faults = st.faults + (if p ∈ st.frames then 0 else 1) ∧
      (p ∈ st.frames → st'.frames = st.frames) ∧
      st'.out = emit verbose st.out st'.frames p i (hit_test st.frames p) := by
  by_cases hhit : p ∈ st.frames
  · have hh : hit_test st.frames p = true := (hit_test_iff _ _).2 hhit
    have hb : opt_body seq verbose st i p =
        .ok { st with out := emit verbose st.out st.frames p i true } := by
      simp [opt_body, hh]
    exact ⟨_, hb, rfl, by simp [hhit], fun _ => rfl, by simp [hh]⟩
  · have hh : hit_test st.frames p = false := (hit_test_false_iff _ _).2 hhit
    by_cases h2 : (replace_first INT_MIN p st.frames).2 = true
    · have hb : opt_body seq verbose st i p =
          .ok { frames := (replace_first INT_MIN p st.frames).1, faults := st.faults + 1,
                out := emit verbose st.out (replace_first INT_MIN p st.frames).1 p i false } := by
        simp [opt_body, hh, h2]
      exact ⟨_, hb, by simp [replace_first_length], by simp [hhit], fun h => absurd h hhit,
        by simp [hh]⟩
    · obtain ⟨v, hv, _⟩ := opt_scan_victim seq i st.frames hne
      have hlt : opt_scan seq i st.frames 0 0 (-1) < st.frames.length := by
        by_contra hc
        rw [List.getElem?_eq_none (by omega)] at hv
        exact absurd hv (by simp)
      have hb : opt_body seq verbose st i p =
          .ok { frames := st.frames.set (opt_scan seq i st.frames 0 0 (-1)) p,
                faults := st.faults + 1,
                out := emit verbose st.out
                  (st.frames.set (opt_scan seq i st.frames 0 0 (-1)) p) p i false } := by
        simp [opt_body, hh, h2, hlt]
      exact ⟨_, hb, by simp, by simp [hhit], fun h => absurd h hhit, by simp [hh]⟩

theorem lazyStep_faults {fr fr' : List Int} {a a' : Nat} {p : Int}
    (h : LazyStep fr fr' a a' p) : a' = a + (if p ∈ fr then 0 else 1) := by
  by_cases hp : p ∈ fr
  · simp [hp, (h.2.1 hp).2]
  · simp [hp, (h.2.2 hp).1]

theorem fifo_countLoop (F : Nat) (hF : 1 ≤ F) (verbose : Bool) :
    CountLoop F verbose (fifo_init (F : Int)) (fifo_body (F : Int) verbose)
      (fun st => st.frames.length = F) FifoState.frames FifoState.faults FifoState.out := by
  obtain ⟨s0, h0, hI, h1, h2, h3, _⟩ := fifo_init_ok F
  refine ⟨⟨s0, h0, hI.1, h1, h2, h3⟩, ?_⟩
  intro st i p hI
  obtain ⟨st', a, b, c, d, e⟩ := fifo_body_total F hF verbose st i p
  exact ⟨st', a, b.trans hI, c, d, e⟩

theorem opt_countLoop (F : Nat) (hF : 1 ≤ F) (seq : List Int) (verbose : Bool) :
    CountLoop F verbose (opt_init (F : Int)) (opt_body seq verbose)
      (fun st => st.frames.length = F) OptState.frames OptState.faults OptState.out := by
  obtain ⟨s0, h0, hI, h1, h2, h3⟩ := opt_init_ok F
  refine ⟨⟨s0, h0, hI.1, h1, h2, h3⟩, ?_⟩
  intro st i p hI
  have hne : st.frames ≠ [] := by
    intro e
    rw [e] at hI
    simp at hI
    omega
  obtain ⟨st', a, b, c, d, e⟩ := opt_body_total seq verbose st i p hne
  exact ⟨st', a, b.trans hI, c, d, e⟩

theorem lru_countLoop (F : Nat) (hF : 1 ≤ F) (verbose : Bool) :
    CountLoop F verbose (lru_init (F : Int)) (lru_body verbose) (LruInv F)
      LruState.frames LruState.faults LruState.out := by
  obtain ⟨s0, h0, hI, h1, h2, h3⟩ := lru_init_ok F
  refine ⟨⟨s0, h0, hI, h1, h2, h3⟩, ?_⟩
  intro st i p hI
  obtain ⟨st', a, b, c, d⟩ := lru_body_spec F hF verbose st i p hI
  exact ⟨st', a, b, lazyStep_faults c, fun h => (c.2.1 h).1, d⟩

theorem clock_countLoop (F : Nat) (hF : 1 ≤ F) (verbose : Bool) :
    CountLoop F verbose (clock_init (F : Int)) (clock_body (F : Int) verbose) (ClockInv F)
      ClockState.frames ClockState.faults ClockState.out := by
  obtain ⟨s0, h0, h1, hu, hpt, h2, h3⟩ := clock_init_ok F
  refine ⟨⟨s0, h0, ⟨by simp [h1], by simp [hu], by omega⟩, h1, h2, h3⟩, ?_⟩
  intro st i p hI
  obtain ⟨st', a, b, c, d, _⟩ := clock_body_spec F verbose st i p hI
  exact ⟨st', a, b, lazyStep_faults c, fun h => (c.2.1 h).1, d⟩

/-- A counting loop runs to the end of any sequence without error, keeping its invariant. -/
theorem countLoop_runs {σ : Type} {F : Nat} {verbose : Bool} {init : Except SimError σ}
    {body : σ → Nat → Int → Except SimError σ} {Inv : σ → Prop} {fr : σ → List Int}
    {fl : σ → Nat} {out : σ → List StepRecord}
    (h : CountLoop F verbose init body Inv fr fl out) (seq : List Int) :
    ∀ n, n ≤ seq.length → ∃ st, iterate_refs seq init body n = .ok st ∧ Inv st := by
  obtain ⟨⟨s0, h0, hI0, _⟩, hbody⟩ := h
  exact iterate_refs_inv seq init body (fun _ st => Inv st) s0 h0 hI0
    (fun i st p _ hI => by
      obtain ⟨st', hb, hI', _⟩ := hbody st i p hI
      exact ⟨st', hb, hI'⟩)

/-- The step from `i` to `i + 1` references of a counting loop. -/
theorem countLoop_step {σ : Type} {F : Nat} {verbose : Bool} {init : Except SimError σ}
    {body : σ → Nat → Int → Except SimError σ} {Inv : σ → Prop} {fr : σ → List Int}
    {fl : σ → Nat} {out : σ → List StepRecord}
    (h : CountLoop F verbose init body Inv fr fl out) (seq : List Int) (i : Nat) (p : Int)
    (hp : seq[i]? = some p) :
    ∃ st st', iterate_refs seq init body i = .ok st ∧ Inv st ∧ body st i p = .ok st' ∧
      iterate_refs seq init body (i + 1) = .ok st' ∧
      fl st' = fl st + (if p ∈ fr st then 0 else 1) := by
  have hi : i < seq.length := (List.getElem?_eq_some_iff.1 hp).1
  obtain ⟨st, hst, hI⟩ := countLoop_runs h seq i (by omega)
  obtain ⟨st', hb, _, hfl, _⟩ := h.2 st i p hI
  exact ⟨st, st', hst, hI, hb, by rw [iterate_refs_succ seq init body i st p hst hp, hb], hfl⟩

/-- In a counting loop with printing, after `n` references there are `n` records, record `i`
carries step number `i + 1` and page `seq[i]`, and the fault counter is the number of records
flagged as fault; without printing there is no record.  The counter never exceeds `n`. -/
theorem countLoop_records {σ : Type} {F : Nat} {verbose : Bool} {init : Except SimError σ}
    {body : σ → Nat → Int → Except SimError σ} {Inv : σ → Prop} {fr : σ → List Int}
    {fl : σ → Nat} {out : σ → List StepRecord}
    (h : CountLoop F verbose init body Inv fr fl out) (seq : List Int) :
    ∀ n, n ≤ seq.length → ∃ st, iterate_refs seq init body n = .ok st ∧
      (Inv st ∧ fl st ≤ n ∧
        (verbose = true → (out st).length = n ∧
          (∀ i r, (out st)[i]? = some r → r.step = i + 1 ∧ seq[i]? = some r.cur_page) ∧
          fl st = ((out st).filter (fun r => !r.hit)).length) ∧
        (verbose = false → out st = [])) := by
  obtain ⟨⟨s0, h0, hI0, _, hfl0, hout0⟩, hbody⟩ := h
  refine iterate_refs_inv seq init body
    (fun n st => Inv st ∧ fl st ≤ n ∧
        (verbose = true → (out st).length = n ∧
          (∀ i r, (out st)[i]? = some r → r.step = i + 1 ∧ seq[i]? = some r.cur_page) ∧
          fl st = ((out st).filter (fun r => !r.hit)).length) ∧
        (verbose = false → out st = []))
    s0 h0 ⟨hI0, by omega, fun _ => ⟨by simp [hout0], by simp [hout0], by simp [hout0, hfl0]⟩,
      fun _ => hout0⟩ ?_
  intro i st p hp ⟨hI, hle, hrecs, hnone⟩
  obtain ⟨st', hb, hI', hfl, _, hout⟩ := hbody st i p hI
  have hht : hit_test (fr st) p = decide (p ∈ fr st) := by
    by_cases e : p ∈ fr st
    · simp [e, (hit_test_iff _ _).2 e]
    · simp [e, (hit_test_false_iff _ _).2 e]
  refine ⟨st', hb, hI', ?_, ?_, ?_⟩
  · rw [hfl]
    split <;> omega
  · intro hv
    subst hv
    obtain ⟨hlen, hrec, hcnt⟩ := hrecs rfl
    simp only [emit, if_true] at hout
    refine ⟨by rw [hout]; simp [hlen], ?_, ?_⟩
    · intro j r hj
      rw [hout] at hj
      by_cases hjl : j < (out st).length
      · rw [List.getElem?_append_left hjl] at hj
        exact hrec j r hj
      · have hj2 := (List.getElem?_eq_some_iff.1 hj).1
        simp only [List.length_append, List.length_singleton] at hj2
        have hje : j = i := by omega
        subst hje
        rw [List.getElem?_append_right (by omega)] at hj
        have hz : j - (out st).length = 0 := by omega
        rw [hz] at hj
        simp only [List.getElem?_cons_zero, Option.some.injEq] at hj
        rw [← hj]
        exact ⟨rfl, hp⟩
    · rw [hout, hfl, hcnt, List.filter_append, List.length_append]
      congr 1
      by_cases e : p ∈ fr st
      · simp [e, List.filter_cons, print_step, hht]
      · simp [e, List.filter_cons, print_step, hht]
  · intro hv
    subst hv
    rw [hout]
    simp [emit, hnone rfl]

/-! ## The Clock sweep: number of visits -/

theorem set_bits_le_length (use : List Int) : set_bits use ≤ use.length := by
  induction use with
  | nil => simp [set_bits]
  | cons u us ih =>
    simp only [set_bits, List.length_cons]
    split <;> omega

/-- The sweep started with `visits` already counted stops after at least one and at most
`set_bits use + 1` further visits: every visit that does not place the page clears one use-bit. -/
theorem clock_sweep_visits (F : Nat) (pg : Int) (frames : List Int) (hfr : frames.length = F) :
    ∀ (n : Nat) (use : List Int) (pointer visits : Nat), set_bits use = n → use.length = F →
      pointer < F →
      ∃ r, clock_sweep (F : Int) pg frames use pointer visits = .ok r ∧
        visits + 1 ≤ r.visits ∧ r.visits ≤ visits + n + 1 := by
  intro n
  induction n using Nat.strong_induction_on with
  | _ n ih =>
    intro use pointer visits hn hu hpt
    have hF : 0 < F := by omega
    have hmod : (pointer + 1) % F < F := Nat.mod_lt _ hF
    have hf : frames[pointer]? = some frames[pointer] := List.getElem?_eq_getElem (by omega)
    have hus : use[pointer]? = some use[pointer] := List.getElem?_eq_getElem (by omega)
    rw [clock_sweep]
    split
    · rename_i f u h1 h2
      by_cases hfm : f = INT_MIN
      · simp only [hfm, if_true]
        exact ⟨_, rfl, le_refl _, by simp⟩
      · simp only [hfm, if_false]
        by_cases hu0 : u = 0
        · simp only [hu0, dite_true]
          exact ⟨_, rfl, le_refl _, by simp⟩
        · simp only [hu0, dite_false]
          have hdec := set_bits_clear use pointer u h2 hu0
          obtain ⟨r, hr, h3, h4⟩ := ih (set_bits (use.set pointer 0)) (by omega)
            (use.set pointer 0) ((pointer + 1) % (F : Int).toNat) (visits + 1) rfl
            (by simp [hu]) (by simpa using hmod)
          exact ⟨r, hr, by omega, by omega⟩
    · rename_i h
      exact absurd hus (by
        intro h2
        exact h _ _ hf h2)

/-- The sweep on an empty slot places the page there at the first visit. -/
theorem clock_sweep_empty (F : Int) (pg : Int) (frames use : List Int) (pointer visits : Nat)
    (u : Int) (hf : frames[pointer]? = some INT_MIN) (hu : use[pointer]? = some u) :
    clock_sweep F pg frames use pointer visits =
      .ok { frames := frames.set pointer pg, use := use.set pointer 1,
            pointer := (pointer + 1) % F.toNat, visits := visits + 1 } := by
  rw [clock_sweep]
  split
  · rename_i f u' h1 h2
    rw [hf] at h1
    injection h1 with h1
    simp [← h1]
  · rename_i h
    exact absurd hu (h _ _ hf)

/-- The loop of `simulate_clock` runs on any sequence, keeping its invariant. -/
theorem clock_runs (F : Nat) (hF : 1 ≤ F) (seq : List Int) (verbose : Bool) :
    ∀ n, n ≤ seq.length →
      ∃ st, clock_iter seq (F : Int) verbose n = .ok st ∧ ClockInv F st :=
  countLoop_runs (clock_countLoop F hF verbose) seq

/-! ## Claims C11 to C13 and C18 -/

/-- Claim C11: for every `F >= 1` and every state the loop of `simulate_clock` reaches, the
victim loop started in that state for any page terminates with a result, after at least one
and at most `F + 1`, hence at most `2 * F`, visits. -/
theorem clock_sweep_terminates (F : Int) (hF : 1 ≤ F) (seq : List Int) (verbose : Bool)
    (n : Nat) (hn : n ≤ seq.length) (pg : Int) :
    ∃ st, clock_iter seq F verbose n = .ok st ∧
      ∃ r, clock_sweep F pg st.frames st.use st.pointer 0 = .ok r ∧
        1 ≤ r.visits ∧ (r.visits : Int) ≤ F + 1 ∧ (r.visits : Int) ≤ 2 * F := by
  obtain ⟨G, rfl, hG⟩ := exists_nat_of_one_le hF
  obtain ⟨st, hst, hfr, hu, hpt⟩ := clock_runs G hG seq verbose n hn
  obtain ⟨r, hr, h1, h2⟩ := clock_sweep_visits G pg st.frames hfr _ st.use st.pointer 0 rfl hu hpt
  have h3 := set_bits_le_length st.use
  refine ⟨st, hst, r, hr, by omega, ?_, ?_⟩
  · have : r.visits ≤ G + 1 := by omega
    exact_mod_cast this
  · have : r.visits ≤ 2 * G := by omega
    exact_mod_cast this

/-- Claim C11 at a concrete input: 2 frames, the state after the references 1 2, page 3. -/
theorem clock_sweep_terminates_witness :
    ∃ st, clock_iter [1, 2, 3] 2 true 2 = .ok st ∧
      ∃ r, clock_sweep 2 3 st.frames st.use st.pointer 0 = .ok r ∧
        1 ≤ r.visits ∧ (r.visits : Int) ≤ 2 + 1 ∧ (r.visits : Int) ≤ 2 * 2 :=
  clock_sweep_terminates 2 (by decide) [1, 2, 3] true 2 (by decide) 3

/-- Claim C12, as stated, fails: the one-element sequence whose page is `INT_MIN` gives 0
faults in every engine (here with 3 frames), because the reference matches an empty slot. -/
theorem sentinel_page_is_hit :
    simulate_fifo [INT_MIN] 3 true =
        .ok (0, [print_step [INT_MIN, INT_MIN, INT_MIN] INT_MIN 1 true]) ∧
      simulate_opt [INT_MIN] 3 true =
        .ok (0, [print_step [INT_MIN, INT_MIN, INT_MIN] INT_MIN 1 true]) ∧
      simulate_lru [INT_MIN] 3 true =
        .ok (0, [print_step [INT_MIN, INT_MIN, INT_MIN] INT_MIN 1 true]) ∧
      simulate_clock [INT_MIN] 3 true =
        .ok (0, [print_step [INT_MIN, INT_MIN, INT_MIN] INT_MIN 1 true]) :=
  ⟨rfl, rfl, rfl, rfl⟩

/-- Claim C12, as amended: for every `F >= 1` and every page identifier `p` other than
`INT_MIN`, in each of the four engines and in any sequence of integers, a reference to `p`
while no slot holds `p` adds one fault; and the one-element sequence `[p]` gives exactly one
fault. -/
theorem unloaded_page_faults (F : Int) (hF : 1 ≤ F) (p : Int) (hp : p ≠ INT_MIN)
    (verbose : Bool) :
    (∀ sim ∈ [simulate_fifo, simulate_opt, simulate_lru, simulate_clock],
      ∃ out, sim [p] F verbose = .ok (1, out)) ∧
    ∀ (seq : List Int) (i : Nat), seq[i]? = some p →
      (∃ st st', fifo_iter seq F verbose i = .ok st ∧ fifo_iter seq F verbose (i + 1) = .ok st' ∧
        (p ∉ st.frames → st'.faults = st.faults + 1)) ∧
      (∃ st st', opt_iter seq F verbose i = .ok st ∧ opt_iter seq F verbose (i + 1) = .ok st' ∧
        (p ∉ st.frames → st'.faults = st.faults + 1)) ∧
      (∃ st st', lru_iter seq F verbose i = .ok st ∧ lru_iter seq F verbose (i + 1) = .ok st' ∧
        (p ∉ st.frames → st'.faults = st.faults + 1)) ∧
      (∃ st st', clock_iter seq F verbose i = .ok st ∧
        clock_iter seq F verbose (i + 1) = .ok st' ∧
        (p ∉ st.frames → st'.faults = st.faults + 1)) := by
  obtain ⟨G, rfl, hG⟩ := exists_nat_of_one_le hF
  have one : ∀ {σ : Type} {init : Except SimError σ} {body : σ → Nat → Int → Except SimError σ}
      {Inv : σ → Prop} {fr : σ → List Int} {fl : σ → Nat} {out : σ → List StepRecord},
      CountLoop G verbose init body Inv fr fl out →
      ∃ st, iterate_refs [p] init body ([p] : List Int).length = .ok st ∧ fl st = 1 := by
    intro σ init body Inv fr fl out h
    obtain ⟨s0, h0, hI0, hfr0, hfl0, _⟩ := h.1
    obtain ⟨st, st', h1, _, _, h2, h3⟩ := countLoop_step h [p] 0 p rfl
    have e : st = s0 := by
      have : iterate_refs [p] init body 0 = .ok s0 := by simp [iterate_refs, h0]
      rw [this] at h1
      injection h1 with h1
      exact h1.symm
    subst e
    have hnot : p ∉ fr st := by
      rw [hfr0]
      intro hm
      exact hp (List.eq_of_mem_replicate hm)
    refine ⟨st', h2, ?_⟩
    rw [h3, hfl0]
    simp [hnot]
  have step : ∀ {σ : Type} {init : Except SimError σ}
      {body : σ → Nat → Int → Except SimError σ}
      {Inv : σ → Prop} {fr : σ → List Int} {fl : σ → Nat} {out : σ → List StepRecord},
      CountLoop G verbose init body Inv fr fl out →
      ∀ (seq : List Int) (i : Nat), seq[i]? = some p →
      ∃ st st', iterate_refs seq init body i = .ok st ∧
        iterate_refs seq init body (i + 1) = .ok st' ∧ (p ∉ fr st → fl st' = fl st + 1) := by
    intro σ init body Inv fr fl out h seq i hi
    obtain ⟨st, st', h1, _, _, h2, h3⟩ := countLoop_step h seq i p hi
    refine ⟨st, st', h1, h2, fun hnot => ?_⟩
    rw [h3]
    simp [hnot]
  refine ⟨?_, fun seq i hi => ⟨step (fifo_countLoop G hG verbose) seq i hi,
    step (opt_countLoop G hG seq verbose) seq i hi, step (lru_countLoop G hG verbose) seq i hi,
    step (clock_countLoop G hG verbose) seq i hi⟩⟩
  intro sim hsim
  simp only [List.mem_cons, List.mem_singleton, List.not_mem_nil, or_false] at hsim
  rcases hsim with rfl | rfl | rfl | rfl
  · obtain ⟨st, hst, h1⟩ := one (fifo_countLoop G hG verbose)
    exact ⟨st.out, by rw [simulate_fifo_of_iter hst, h1]⟩
  · obtain ⟨st, hst, h1⟩ := one (opt_countLoop G hG [p] verbose)
    exact ⟨st.out, by rw [simulate_opt_of_iter hst, h1]⟩
  · obtain ⟨st, hst, h1⟩ := one (lru_countLoop G hG verbose)
    exact ⟨st.out, by rw [simulate_lru_of_iter hst, h1]⟩
  · obtain ⟨st, hst, h1⟩ := one (clock_countLoop G hG verbose)
    exact ⟨st.out, by rw [simulate_clock_of_iter hst, h1]⟩

/-- Claim C12, as amended, at a concrete input: 3 frames, page 7; the sequence `[7]`, and the
second step of the sequence 5 7. -/
theorem unloaded_page_faults_witness :
    ((∃ out, simulate_fifo [7] 3 true = .ok (1, out)) ∧
      (∃ out, simulate_opt [7] 3 true = .ok (1, out)) ∧
      (∃ out, simulate_lru [7] 3 true = .ok (1, out)) ∧
      (∃ out, simulate_clock [7] 3 true = .ok (1, out))) ∧
    (∃ st st', fifo_iter [5, 7] 3 true 1 = .ok st ∧ fifo_iter [5, 7] 3 true (1 + 1) = .ok st' ∧
      (7 ∉ st.frames → st'.faults = st.faults + 1)) ∧
    (∃ st st', opt_iter [5, 7] 3 true 1 = .ok st ∧ opt_iter [5, 7] 3 true (1 + 1) = .ok st' ∧
      (7 ∉ st.frames → st'.faults = st.faults + 1)) ∧
    (∃ st st', lru_iter [5, 7] 3 true 1 = .ok st ∧ lru_iter [5, 7] 3 true (1 + 1) = .ok st' ∧
      (7 ∉ st.frames → st'.faults = st.faults + 1)) ∧
    (∃ st st', clock_iter [5, 7] 3 true 1 = .ok st ∧
      clock_iter [5, 7] 3 true (1 + 1) = .ok st' ∧
      (7 ∉ st.frames → st'.faults = st.faults + 1)) :=
  ⟨⟨(unloaded_page_faults 3 (by decide) 7 (by decide) true).1 _ (by simp),
      (unloaded_page_faults 3 (by decide) 7 (by decide) true).1 _ (by simp),
      (unloaded_page_faults 3 (by decide) 7 (by decide) true).1 _ (by simp),
      (unloaded_page_faults 3 (by decide) 7 (by decide) true).1 _ (by simp)⟩,
    (unloaded_page_faults 3 (by decide) 7 (by decide) true).2 [5, 7] 1 rfl⟩

/-- Claim C13: for each of the four engines, every `F >= 1` and every reference sequence, the
run returns a fault count that is at most the length of the sequence; when the steps are
printed there is exactly one record per reference, in order (record `i` has step number
`i + 1` and page `seq[i]`), and the fault count is the number of records flagged as fault;
when they are not printed there is no record. -/
theorem fault_count_matches_records (F : Int) (hF : 1 ≤ F) (seq : List Int) (verbose : Bool) :
    ∀ sim ∈ [simulate_fifo, simulate_opt, simulate_lru, simulate_clock],
      ∃ faults out, sim seq F verbose = .ok (faults, out) ∧ faults ≤ seq.length ∧
        (verbose = true → out.length = seq.length ∧
          (∀ i r, out[i]? = some r → r.step = i + 1 ∧ seq[i]? = some r.cur_page) ∧
          faults = (out.filter (fun r => !r.hit)).length) ∧
        (verbose = false → out = []) := by
  obtain ⟨G, rfl, hG⟩ := exists_nat_of_one_le hF
  intro sim hsim
  simp only [List.mem_cons, List.mem_singleton, List.not_mem_nil, or_false] at hsim
  rcases hsim with rfl | rfl | rfl | rfl
  · obtain ⟨st, hst, _, h1, h2, h3⟩ :=
      countLoop_records (fifo_countLoop G hG verbose) seq seq.length le_rfl
    exact ⟨_, _, simulate_fifo_of_iter hst, h1, h2, h3⟩
  · obtain ⟨st, hst, _, h1, h2, h3⟩ :=
      countLoop_records (opt_countLoop G hG seq verbose) seq seq.length le_rfl
    exact ⟨_, _, simulate_opt_of_iter hst, h1, h2, h3⟩
  · obtain ⟨st, hst, _, h1, h2, h3⟩ :=
      countLoop_records (lru_countLoop G hG verbose) seq seq.length le_rfl
    exact ⟨_, _, simulate_lru_of_iter hst, h1, h2, h3⟩
  · obtain ⟨st, hst, _, h1, h2, h3⟩ :=
      countLoop_records (clock_countLoop G hG verbose) seq seq.length le_rfl
    exact ⟨_, _, simulate_clock_of_iter hst, h1, h2, h3⟩

/-- The configurations `(use, pointer)` with which the `while (true)` loop of `simulate_clock`,
entered with `(use0, pointer0)`, starts an iteration: the first one, and the one following any
iteration that found an occupied slot with its use-bit set (the `else` branch). -/
inductive SweepAt (F : Int) (frames use0 : List Int) (pointer0 : Nat) :
    List Int → Nat → Prop where
  | first : SweepAt F frames use0 pointer0 use0 pointer0
  | next (use : List Int) (pointer : Nat) (f u : Int) :
      SweepAt F frames use0 pointer0 use pointer →
      frames[pointer]? = some f → use[pointer]? = some u → f ≠ INT_MIN → u ≠ 0 →
      SweepAt F frames use0 pointer0 (use.set pointer 0) ((pointer + 1) % F.toNat)

/-- The iterations described by `SweepAt` are those of `clock_sweep`: the loop entered with
`(use0, pointer0)` continues as the loop entered with any configuration it passes through. -/
theorem clock_sweep_of_sweepAt (F : Int) (pg : Int) (frames use0 : List Int) (pointer0 : Nat)
    (use : List Int) (pointer : Nat) (h : SweepAt F frames use0 pointer0 use pointer) :
    ∃ k, ∀ visits, clock_sweep F pg frames use0 pointer0 visits =
      clock_sweep F pg frames use pointer (visits + k) := by
  induction h with
  | first => exact ⟨0, fun _ => rfl⟩
  | next use pointer f u _ hf hu hfm hu0 ih =>
    obtain ⟨k, hk⟩ := ih
    refine ⟨k + 1, fun visits => ?_⟩
    rw [hk visits]
    conv_lhs => rw [clock_sweep]
    split
    · rename_i f' u' h1 h2
      rw [hf] at h1
      rw [hu] at h2
      injection h1 with h1
      injection h2 with h2
      subst h1 h2
      simp only [hfm, if_false, hu0, dite_false]
      rfl
    · rename_i hnone
      exact absurd hu (hnone _ _ hf)

theorem sweepAt_in_range (F : Nat) (hF : 1 ≤ F) (frames use0 : List Int) (pointer0 : Nat)
    (h0 : use0.length = F) (hp0 : pointer0 < F)
    (use : List Int) (pointer : Nat) (h : SweepAt (F : Int) frames use0 pointer0 use pointer) :
    pointer < F ∧ use.length = F := by
  induction h with
  | first => exact ⟨hp0, h0⟩
  | next use pointer f u _ _ _ _ _ ih =>
    refine ⟨?_, by simp [ih.2]⟩
    simp only [Int.toNat_ofNat]
    exact Nat.mod_lt _ (by omega)

/-- Claim C18: for every `F >= 1` and every reference sequence, before and after every step of
`simulate_clock` the pointer is below `F` and both vectors have `F` slots; on a fault the
victim loop returns a result, that is, none of its iterations reads or writes `frames[pointer]`
or `use[pointer]` out of range, and every iteration starts with the pointer below `F`; and on a
hit the pointer is unchanged and the use-bit of the
first slot holding the page is set to 1. -/
theorem clock_pointer_in_range (F : Int) (hF : 1 ≤ F) (seq : List Int) (verbose : Bool)
    (i : Nat) (p : Int) (hp : seq[i]? = some p) :
    ∃ st st', clock_iter seq F verbose i = .ok st ∧ clock_iter seq F verbose (i + 1) = .ok st' ∧
      ((st.pointer : Int) < F ∧ (st.frames.length : Int) = F ∧ (st.use.length : Int) = F) ∧
      ((st'.pointer : Int) < F ∧ (st'.frames.length : Int) = F ∧ (st'.use.length : Int) = F) ∧
      (p ∉ st.frames → ∃ r, clock_sweep F p st.frames st.use st.pointer 0 = .ok r ∧
        st'.frames = r.frames ∧ st'.use = r.use ∧ st'.pointer = r.pointer) ∧
      (∀ use pointer, SweepAt F st.frames st.use st.pointer use pointer →
        (pointer : Int) < F ∧ (use.length : Int) = F) ∧
      (p ∈ st.frames → st'.pointer = st.pointer ∧
        ∃ j, st.frames[j]? = some p ∧ (∀ m, m < j → st.frames[m]? ≠ some p) ∧
          st'.use = st.use.set j 1 ∧ st'.use[j]? = some 1) := by
  obtain ⟨G, rfl, hG⟩ := exists_nat_of_one_le hF
  have hi : i < seq.length := (List.getElem?_eq_some_iff.1 hp).1
  obtain ⟨st, hst, hI⟩ := clock_runs G hG seq verbose i (by omega)
  obtain ⟨st', hb, hI', _, _, hptr⟩ := clock_body_spec G verbose st i p hI
  have hnext : clock_iter seq (G : Int) verbose (i + 1) = .ok st' := by
    unfold clock_iter
    rw [iterate_refs_succ seq _ _ i st p hst hp, hb]
  obtain ⟨h1, h2, h3⟩ := hI
  obtain ⟨h1', h2', h3'⟩ := hI'
  refine ⟨st, st', hst, hnext, ⟨by exact_mod_cast h3, by exact_mod_cast h1, by exact_mod_cast h2⟩,
    ⟨by exact_mod_cast h3', by exact_mod_cast h1', by exact_mod_cast h2'⟩, ?_, ?_, ?_⟩
  · intro hnot
    have hfs : find_slot p st.frames 0 = none := (find_slot_none _ _ _).2 hnot
    obtain ⟨r, hr, _⟩ := clock_sweep_spec G p st.frames h1 _ st.use st.pointer 0 rfl h2 h3
    refine ⟨r, hr, ?_⟩
    have hb2 : clock_body (G : Int) verbose st i p =
        .ok { frames := r.frames, use := r.use, pointer := r.pointer, faults := st.faults + 1,
              out := emit verbose st.out r.frames p i false } := by
      simp [clock_body, hfs, hr]
    rw [hb] at hb2
    injection hb2 with e
    subst e
    exact ⟨rfl, rfl, rfl⟩
  · intro use pointer hs
    obtain ⟨a, b⟩ := sweepAt_in_range G hG st.frames st.use st.pointer h2 h3 use pointer hs
    exact ⟨by exact_mod_cast a, by exact_mod_cast b⟩
  · intro hin
    refine ⟨hptr hin, ?_⟩
    cases hfs : find_slot p st.frames 0 with
    | none => exact absurd hin ((find_slot_none _ _ _).1 hfs)
    | some j =>
      obtain ⟨_, hj1, hj2⟩ := find_slot_some p st.frames 0 j hfs
      simp only [Nat.sub_zero] at hj1 hj2
      have hb2 : clock_body (G : Int) verbose st i p =
          .ok { st with use := st.use.set j 1,
                        out := emit verbose st.out st.frames p i true } := by
        simp [clock_body, hfs]
      rw [hb] at hb2
      injection hb2 with e
      subst e
      have hjl : j < st.use.length := by
        have := (List.getElem?_eq_some_iff.1 hj1).1
        omega
      refine ⟨j, hj1, hj2, rfl, ?_⟩
      simp [hjl]

/-- Claim C18 at a concrete input: 2 frames, references 1 2 1, the third step (a hit). -/
theorem clock_pointer_in_range_witness :
    ∃ st st', clock_iter [1, 2, 1] 2 true 2 = .ok st ∧
      clock_iter [1, 2, 1] 2 true (2 + 1) = .ok st' ∧
      ((st.pointer : Int) < 2 ∧ (st.frames.length : Int) = 2 ∧ (st.use.length : Int) = 2) ∧
      ((st'.pointer : Int) < 2 ∧ (st'.frames.length : Int) = 2 ∧ (st'.use.length : Int) = 2) ∧
      (1 ∉ st.frames → ∃ r, clock_sweep 2 1 st.frames st.use st.pointer 0 = .ok r ∧
        st'.frames = r.frames ∧ st'.use = r.use ∧ st'.pointer = r.pointer) ∧
      (∀ use pointer, SweepAt 2 st.frames st.use st.pointer use pointer →
        (pointer : Int) < 2 ∧ (use.length : Int) = 2) ∧
      (1 ∈ st.frames → st'.pointer = st.pointer ∧
        ∃ j, st.frames[j]? = some 1 ∧ (∀ m, m < j → st.frames[m]? ≠ some 1) ∧
          st'.use = st.use.set j 1 ∧ st'.use[j]? = some 1) :=
  clock_pointer_in_range 2 (by decide) [1, 2, 1] true 2 1 rfl

/-! ## The branches of the four loop bodies -/

theorem fifo_body_hit (F : Int) (verbose : Bool) (st : FifoState) (i : Nat) (p : Int)
    (h : p ∈ st.frames) :
    fifo_body F verbose st i p =
      .ok { st with out := emit verbose st.out st.frames p i true } := by
  simp [fifo_body, (hit_test_iff _ _).2 h]

theorem fifo_body_fill (F : Int) (verbose : Bool) (st : FifoState) (i : Nat) (p : Int)
    (h : p ∉ st.frames) (hq : (st.q.length : Int) < F) :
    fifo_body F verbose st i p =
      .ok { frames := (replace_first INT_MIN p st.frames).1, q := st.q ++ [p],
            faults := st.faults + 1,
            out := emit verbose st.out (replace_first INT_MIN p st.frames).1 p i false } := by
  simp [fifo_body, (hit_test_false_iff _ _).2 h, hq]

theorem fifo_body_evict (F : Int) (verbose : Bool) (st : FifoState) (i : Nat) (p : Int)
    (victim : Int) (rest : List Int)
    (h : p ∉ st.frames) (hq : ¬ (st.q.length : Int) < F) (hqe : st.q = victim :: rest) :
    fifo_body F verbose st i p =
      .ok { frames := (replace_first victim p st.frames).1, q := rest ++ [p],
            faults := st.faults + 1,
            out := emit verbose st.out (replace_first victim p st.frames).1 p i false } := by
  unfold fifo_body
  rw [if_neg (by simp [(hit_test_false_iff _ _).2 h]), if_neg hq]
  simp only [hqe]

theorem opt_body_hit (seq : List Int) (verbose : Bool) (st : OptState) (i : Nat) (p : Int)
    (h : p ∈ st.frames) :
    opt_body seq verbose st i p =
      .ok { st with out := emit verbose st.out st.frames p i true } := by
  simp [opt_body, (hit_test_iff _ _).2 h]

theorem opt_body_fill (seq : List Int) (verbose : Bool) (st : OptState) (i : Nat) (p : Int)
    (h : p ∉ st.frames) (hmin : INT_MIN ∈ st.frames) :
    opt_body seq verbose st i p =
      .ok { frames := (replace_first INT_MIN p st.frames).1, faults := st.faults + 1,
            out := emit verbose st.out (replace_first INT_MIN p st.frames).1 p i false } := by
  simp [opt_body, (hit_test_false_iff _ _).2 h, (replace_first_snd _ _ _).2 hmin]

theorem opt_body_evict (seq : List Int) (verbose : Bool) (st : OptState) (i : Nat) (p : Int)
    (h : p ∉ st.frames) (hmin : INT_MIN ∉ st.frames)
    (hlt : opt_scan seq i st.frames 0 0 (-1) < st.frames.length) :
    opt_body seq verbose st i p =
      .ok { frames := st.frames.set (opt_scan seq i st.frames 0 0 (-1)) p,
            faults := st.faults + 1,
            out := emit verbose st.out
              (st.frames.set (opt_scan seq i st.frames 0 0 (-1)) p) p i false } := by
  have h2 : (replace_first INT_MIN p st.frames).2 = false := by
    rw [← Bool.not_eq_true, replace_first_snd]
    exact hmin
  simp [opt_body, (hit_test_false_iff _ _).2 h, h2, hlt]

theorem lru_body_hit (verbose : Bool) (st : LruState) (i : Nat) (p : Int) (h : p ∈ st.frames) :
    lru_body verbose st i p =
      .ok { st with last_used := map_insert st.last_used p (st.time + 1), time := st.time + 1,
                    out := emit verbose st.out st.frames p i true } := by
  simp [lru_body, (hit_test_iff _ _).2 h]

theorem lru_body_fill (verbose : Bool) (st : LruState) (i : Nat) (p : Int)
    (h : p ∉ st.frames) (hmin : INT_MIN ∈ st.frames) :
    lru_body verbose st i p =
      .ok { frames := (replace_first INT_MIN p st.frames).1,
            last_used := map_insert st.last_used p (st.time + 1), time := st.time + 1,
            faults := st.faults + 1,
            out := emit verbose st.out (replace_first INT_MIN p st.frames).1 p i false } := by
  simp [lru_body, (hit_test_false_iff _ _).2 h, (replace_first_snd _ _ _).2 hmin]

theorem lru_body_evict (verbose : Bool) (st : LruState) (i : Nat) (p : Int) (victim : Int)
    (h : p ∉ st.frames) (hmin : INT_MIN ∉ st.frames)
    (hv : st.frames[lru_scan st.last_used st.frames 0 0 INT_MAX]? = some victim) :
    lru_body verbose st i p =
      .ok { frames := st.frames.set (lru_scan st.last_used st.frames 0 0 INT_MAX) p,
            last_used := map_insert (map_erase st.last_used victim) p (st.time + 1),
            time := st.time + 1, faults := st.faults + 1,
            out := emit verbose st.out
              (st.frames.set (lru_scan st.last_used st.frames 0 0 INT_MAX) p) p i false } := by
  have h2 : (replace_first INT_MIN p st.frames).2 = false := by
    rw [← Bool.not_eq_true, replace_first_snd]
    exact hmin
  unfold lru_body
  simp only [(hit_test_false_iff _ _).2 h, h2, hv]
  simp

theorem clock_body_hit (F : Int) (verbose : Bool) (st : ClockState) (i : Nat) (p : Int)
    (j : Nat) (h : find_slot p st.frames 0 = some j) :
    clock_body F verbose st i p =
      .ok { st with use := st.use.set j 1, out := emit verbose st.out st.frames p i true } := by
  simp [clock_body, h]

theorem clock_body_fault (F : Int) (verbose : Bool) (st : ClockState) (i : Nat) (p : Int)
    (r : SweepResult) (h : p ∉ st.frames)
    (hr : clock_sweep F p st.frames st.use st.pointer 0 = .ok r) :
    clock_body F verbose st i p =
      .ok { frames := r.frames, use := r.use, pointer := r.pointer, faults := st.faults + 1,
            out := emit verbose st.out r.frames p i false } := by
  simp [clock_body, (find_slot_none _ _ _).2 h, hr]

/-! ## Writing one slot -/

theorem replace_first_eq_set (target pg : Int) (l : List Int) (h : target ∈ l) :
    (replace_first target pg l).1 = l.set (l.indexOf target) pg := by
  induction l with
  | nil => simp at h
  | cons f fs ih =>
    by_cases h1 : f = target
    · subst h1
      simp [replace_first]
    · have h2 : target ∈ fs := by
        rcases List.mem_cons.1 h with e | e
        · exact absurd e.symm h1
        · exact e
      simp only [replace_first, h1, if_false]
      rw [List.indexOf_cons_ne _ h1, List.set_cons_succ, ih h2]

/-- The index given by `indexOf` is the lowest slot that holds the value. -/
theorem indexOf_lowest (a : Int) (l : List Int) (h : a ∈ l) :
    l[l.indexOf a]? = some a ∧ ∀ j, j < l.indexOf a → l[j]? ≠ some a := by
  induction l with
  | nil => simp at h
  | cons f fs ih =>
    by_cases h1 : f = a
    · subst h1
      simp
    · have h2 : a ∈ fs := by
        rcases List.mem_cons.1 h with e | e
        · exact absurd e.symm h1
        · exact e
      obtain ⟨e1, e2⟩ := ih h2
      rw [List.indexOf_cons_ne _ h1]
      refine ⟨by simpa using e1, ?_⟩
      intro j hj
      cases j with
      | zero => simpa using h1
      | succ j => simpa using e2 j (by omega)

/-! ## Installing a page in one slot -/

/-- The occupied slots form a prefix of the frame vector: some pages, none of them the empty
marker, followed only by empty slots. -/
def FilledPrefix (frames : List Int) : Prop :=
  ∃ pages m, frames = pages ++ List.replicate m INT_MIN ∧ INT_MIN ∉ pages

/-- What one reference `p` does to the frame vector: nothing on a hit; on a fault exactly one
slot `k` is overwritten with `p`, and while a slot is empty `k` is the lowest empty slot. -/
def InstallStep (fr fr' : List Int) (p : Int) : Prop :=
  (p ∈ fr → fr' = fr) ∧
    (p ∉ fr → ∃ k, k < fr.length ∧ fr' = fr.set k p ∧ (INT_MIN ∈ fr → k = fr.indexOf INT_MIN))

theorem filledPrefix_replicate (F : Nat) : FilledPrefix (List.replicate F INT_MIN) :=
  ⟨[], F, by simp, by simp⟩

theorem indexOf_filled (pages : List Int) (m : Nat) (h : INT_MIN ∉ pages) :
    (pages ++ List.replicate (m + 1) INT_MIN).indexOf INT_MIN = pages.length := by
  rw [List.indexOf_append_of_not_mem h, List.replicate_succ, List.indexOf_cons_self]
  rfl

theorem mem_filled_iff (pages : List Int) (m : Nat) (h : INT_MIN ∉ pages) :
    INT_MIN ∈ pages ++ List.replicate m INT_MIN ↔ 0 < m := by
  cases m with
  | zero => simp [h]
  | succ m => simp [List.replicate_succ]

theorem filledPrefix_install {fr fr' : List Int} {p : Int} (hp : p ≠ INT_MIN)
    (h : FilledPrefix fr) (hs : InstallStep fr fr' p) : FilledPrefix fr' := by
  by_cases hin : p ∈ fr
  · rw [hs.1 hin]
    exact h
  · obtain ⟨k, hk, e, hlow⟩ := hs.2 hin
    obtain ⟨pages, m, hfr, hmin⟩ := h
    cases m with
    | zero =>
      simp only [List.replicate_zero, List.append_nil] at hfr
      subst hfr
      refine ⟨fr.set k p, 0, by simp [e], ?_⟩
      intro hc
      rcases List.mem_or_eq_of_mem_set hc with h1 | h1
      · exact hmin h1
      · exact hp h1.symm
    | succ m =>
      have hmem : INT_MIN ∈ fr := by
        rw [hfr]
        exact (mem_filled_iff pages (m + 1) hmin).2 (by omega)
      have hk2 : k = pages.length := by
        rw [hlow hmem, hfr]
        exact indexOf_filled pages m hmin
      refine ⟨pages ++ [p], m, ?_, ?_⟩
      · rw [e, hfr, hk2, List.set_append_right _ _ (le_refl _)]
        simp [List.replicate_succ]
      · intro hc
        rcases List.mem_append.1 hc with h1 | h1
        · exact hmin h1
        · have h2 : INT_MIN = p := by simpa using h1
          exact hp h2.symm

theorem occupied_cons (a : Int) (l : List Int) :
    occupied (a :: l) = if a = INT_MIN then occupied l else a :: occupied l := by
  by_cases h : a = INT_MIN <;> simp [occupied, List.filter_cons, h]

theorem occupied_set_nodup (fr : List Int) (k : Nat) (p : Int) (hp : p ≠ INT_MIN)
    (hin : p ∉ fr) (hnd : (occupied fr).Nodup) : (occupied (fr.set k p)).Nodup := by
  induction fr generalizing k with
  | nil => simpa using hnd
  | cons a l ih =>
    have hpl : p ∉ l := fun h => hin (List.mem_cons_of_mem _ h)
    have hpa : a ≠ p := fun h => hin (h ▸ List.mem_cons_self _ _)
    have hl : (occupied l).Nodup := by
      rw [occupied_cons] at hnd
      by_cases ha : a = INT_MIN
      · simpa [ha] using hnd
      · simp only [ha, if_false] at hnd
        exact (List.nodup_cons.1 hnd).2
    cases k with
    | zero =>
      simp only [List.set_cons_zero]
      rw [occupied_cons]
      simp only [hp, if_false]
      exact List.nodup_cons.2 ⟨fun h => hpl (mem_occupied.1 h).1, hl⟩
    | succ k =>
      simp only [List.set_cons_succ]
      rw [occupied_cons]
      by_cases ha : a = INT_MIN
      · simp only [ha, if_true]
        exact ih k hpl hl
      · simp only [ha, if_false]
        refine List.nodup_cons.2 ⟨?_, ih k hpl hl⟩
        intro h
        rcases List.mem_or_eq_of_mem_set (mem_occupied.1 h).1 with h1 | h1
        · rw [occupied_cons] at hnd
          simp only [ha, if_false] at hnd
          exact (List.nodup_cons.1 hnd).1 (mem_occupied.2 ⟨h1, ha⟩)
        · exact hpa h1

theorem nodup_install {fr fr' : List Int} {p : Int} (hp : p ≠ INT_MIN)
    (hnd : (occupied fr).Nodup) (hs : InstallStep fr fr' p) : (occupied fr').Nodup := by
  by_cases hin : p ∈ fr
  · rw [hs.1 hin]
    exact hnd
  · obtain ⟨k, _, e, _⟩ := hs.2 hin
    rw [e]
    exact occupied_set_nodup fr k p hp hin hnd

theorem mem_install {fr fr' : List Int} {p : Int} (hs : InstallStep fr fr' p) : p ∈ fr' := by
  by_cases hin : p ∈ fr
  · rw [hs.1 hin]
    exact hin
  · obtain ⟨k, hk, e, _⟩ := hs.2 hin
    rw [e]
    exact List.mem_iff_getElem.2 ⟨k, by simpa using hk, by simp⟩

theorem count_eq_one_of_nodup {fr : List Int} {p : Int} (hp : p ≠ INT_MIN)
    (hnd : (occupied fr).Nodup) (hin : p ∈ fr) : fr.count p = 1 := by
  have h1 : (occupied fr).count p = fr.count p := by
    unfold occupied
    exact List.count_filter (by simpa using hp)
  have h2 : (occupied fr).count p ≤ 1 := List.nodup_iff_count_le_one.1 hnd p
  have h3 : 0 < fr.count p := List.count_pos_iff.2 hin
  omega

/-! ## The four loops install pages slot by slot -/

/-- A loop whose body, on pages other than the empty marker, is an installing step on its frame
vector `fr` and which starts with `F` empty frames. -/
def FillLoop {σ : Type} (F : Nat) (init : Except SimError σ)
    (body : σ → Nat → Int → Except SimError σ) (Inv : σ → Prop) (fr : σ → List Int) : Prop :=
  (∃ s0, init = .ok s0 ∧ Inv s0 ∧ fr s0 = List.replicate F INT_MIN) ∧
    ∀ st i p, p ≠ INT_MIN → Inv st →
      ∃ st', body st i p = .ok st' ∧ Inv st' ∧ InstallStep (fr st) (fr st') p

theorem mem_of_fifo_fill {F : Nat} {st : FifoState} (hI : FifoInv F st)
    (hq : (st.q.length : Int) < (F : Int)) : INT_MIN ∈ st.frames := by
  have hq' : st.q.length < F := by exact_mod_cast hq
  apply mem_of_occupied_length_lt
  rw [hI.2.1.length_eq, hI.1]
  exact hq'

theorem not_mem_of_fifo_evict {F : Nat} {st : FifoState} (hI : FifoInv F st)
    (hq : ¬ (st.q.length : Int) < (F : Int)) : INT_MIN ∉ st.frames := by
  intro hmin
  have h1 : (occupied st.frames).length < st.frames.length := by
    unfold occupied
    apply List.length_filter_lt_length_iff_exists.2
    exact ⟨INT_MIN, hmin, by simp⟩
  rw [hI.2.1.length_eq, hI.1] at h1
  exact hq (by exact_mod_cast h1)

theorem fifo_fillLoop (F : Nat) (hF : 1 ≤ F) (verbose : Bool) :
    FillLoop F (fifo_init (F : Int)) (fifo_body (F : Int) verbose) (FifoInv F)
      FifoState.frames := by
  obtain ⟨s0, h0, hI, h1, _⟩ := fifo_init_ok F
  refine ⟨⟨s0, h0, hI, h1⟩, ?_⟩
  intro st i p hp hI
  obtain ⟨st', hb, hI', _⟩ := fifo_body_spec F hF verbose st i p hp hI
  refine ⟨st', hb, hI', ?_⟩
  by_cases hin : p ∈ st.frames
  · rw [fifo_body_hit _ _ _ _ _ hin] at hb
    injection hb with e
    subst e
    exact ⟨fun _ => rfl, fun h => absurd hin h⟩
  · refine ⟨fun h => absurd h hin, fun _ => ?_⟩
    by_cases hq : (st.q.length : Int) < (F : Int)
    · have hmin := mem_of_fifo_fill hI hq
      rw [fifo_body_fill _ _ _ _ _ hin hq] at hb
      injection hb with e
      subst e
      exact ⟨_, List.indexOf_lt_length.2 hmin, replace_first_eq_set _ _ _ hmin, fun _ => rfl⟩
    · have hmin := not_mem_of_fifo_evict hI hq
      cases hqe : st.q with
      | nil =>
        exfalso
        rw [hqe] at hq
        apply hq
        simp only [List.length_nil, Nat.cast_zero]
        exact_mod_cast hF
      | cons victim rest =>
        have hv : victim ∈ st.frames := by
          have := hI.2.1.mem_iff.2 (by rw [hqe]; exact List.mem_cons_self victim rest)
          exact (mem_occupied.1 this).1
        rw [fifo_body_evict _ _ _ _ _ victim rest hin hq hqe] at hb
        injection hb with e
        subst e
        exact ⟨_, List.indexOf_lt_length.2 hv, replace_first_eq_set _ _ _ hv,
          fun h => absurd h hmin⟩

theorem opt_fillLoop (F : Nat) (hF : 1 ≤ F) (seq : List Int) (verbose : Bool) :
    FillLoop F (opt_init (F : Int)) (opt_body seq verbose) (OptInv F) OptState.frames := by
  obtain ⟨s0, h0, hI, h1, _⟩ := opt_init_ok F
  refine ⟨⟨s0, h0, hI, h1⟩, ?_⟩
  intro st i p hp hI
  obtain ⟨st', hb, hI', _, _, hbel⟩ := opt_body_spec F hF seq verbose st i p hp hI
  refine ⟨st', hb, hI', ?_⟩
  by_cases hin : p ∈ st.frames
  · rw [opt_body_hit _ _ _ _ _ hin] at hb
    injection hb with e
    subst e
    exact ⟨fun _ => rfl, fun h => absurd hin h⟩
  · refine ⟨fun h => absurd h hin, fun _ => ?_⟩
    by_cases hmin : INT_MIN ∈ st.frames
    · rw [opt_body_fill _ _ _ _ _ hin hmin] at hb
      injection hb with e
      subst e
      exact ⟨_, List.indexOf_lt_length.2 hmin, replace_first_eq_set _ _ _ hmin, fun _ => rfl⟩
    · rcases hbel hin with ⟨h1, _⟩ | ⟨_, k, v, hk, hset, _⟩
      · exact absurd h1 hmin
      · exact ⟨k, (List.getElem?_eq_some_iff.1 hk).1, hset, fun h => absurd h hmin⟩

theorem lru_fillLoop (F : Nat) (hF : 1 ≤ F) (verbose : Bool) :
    FillLoop F (lru_init (F : Int)) (lru_body verbose) (LruInv F) LruState.frames := by
  obtain ⟨s0, h0, hI, h1, _⟩ := lru_init_ok F
  refine ⟨⟨s0, h0, hI, h1⟩, ?_⟩
  intro st i p hp hI
  obtain ⟨st', hb, hI', _⟩ := lru_body_spec F hF verbose st i p hI
  refine ⟨st', hb, hI', ?_⟩
  by_cases hin : p ∈ st.frames
  · rw [lru_body_hit _ _ _ _ hin] at hb
    injection hb with e
    subst e
    exact ⟨fun _ => rfl, fun h => absurd hin h⟩
  · refine ⟨fun h => absurd h hin, fun _ => ?_⟩
    by_cases hmin : INT_MIN ∈ st.frames
    · rw [lru_body_fill _ _ _ _ hin hmin] at hb
      injection hb with e
      subst e
      exact ⟨_, List.indexOf_lt_length.2 hmin, replace_first_eq_set _ _ _ hmin, fun _ => rfl⟩
    · have hlt : lru_scan st.last_used st.frames 0 0 INT_MAX < st.frames.length := by
        have h2 : st.frames.length = F := hI
        have := lru_scan_lt st.last_used st.frames 0 0 INT_MAX (by omega)
        omega
      rw [lru_body_evict _ _ _ _ _ hin hmin (List.getElem?_eq_getElem hlt)] at hb
      injection hb with e
      subst e
      exact ⟨_, hlt, rfl, fun h => absurd h hmin⟩

/-- Loop invariant of `simulate_clock` with `F` frames on pages other than the empty marker:
the occupied slots form a prefix, and while a slot is empty the pointer is at the lowest empty
slot. -/
def ClockFillInv (F : Nat) (st : ClockState) : Prop :=
  ClockInv F st ∧ FilledPrefix st.frames ∧
    (INT_MIN ∈ st.frames → st.pointer = st.frames.indexOf INT_MIN)

theorem clock_fillLoop (F : Nat) (hF : 1 ≤ F) (verbose : Bool) :
    FillLoop F (clock_init (F : Int)) (clock_body (F : Int) verbose) (ClockFillInv F)
      ClockState.frames := by
  obtain ⟨s0, h0, h1, hu, hpt, _⟩ := clock_init_ok F
  refine ⟨⟨s0, h0, ⟨⟨by simp [h1], by simp [hu], by omega⟩, ?_, ?_⟩, h1⟩, ?_⟩
  · rw [h1]
    exact filledPrefix_replicate F
  · intro _
    rw [h1, hpt]
    obtain ⟨G, rfl⟩ : ∃ G, F = G + 1 := ⟨F - 1, by omega⟩
    have := indexOf_filled [] G (by simp)
    simpa using this.symm
  intro st i p hp ⟨hC, hpre, hlink⟩
  obtain ⟨st', hb, hC', hlazy, _, hptr⟩ := clock_body_spec F verbose st i p hC
  obtain ⟨hlen, hulen, hpt⟩ := hC
  have key : InstallStep st.frames st'.frames p →
      (INT_MIN ∈ st'.frames → st'.pointer = st'.frames.indexOf INT_MIN) →
      ∃ st2, clock_body (F : Int) verbose st i p = .ok st2 ∧ ClockFillInv F st2 ∧
        InstallStep st.frames st2.frames p :=
    fun hs hl => ⟨st', hb, ⟨hC', filledPrefix_install hp hpre hs, hl⟩, hs⟩
  by_cases hin : p ∈ st.frames
  · have e1 := (hlazy.2.1 hin).1
    apply key ⟨fun _ => e1, fun h => absurd hin h⟩
    rw [e1, hptr hin]
    exact hlink
  · by_cases hmin : INT_MIN ∈ st.frames
    · have hidx := hlink hmin
      obtain ⟨hget, _⟩ := indexOf_lowest INT_MIN st.frames hmin
      rw [← hidx] at hget
      have hr := clock_sweep_empty (F : Int) p st.frames st.use st.pointer 0 _ hget
        (List.getElem?_eq_getElem (by omega : st.pointer < st.use.length))
      rw [clock_body_fault _ _ _ _ _ _ hin hr] at hb
      injection hb with e
      subst e
      apply key ⟨fun h => absurd h hin, fun _ => ⟨st.pointer, by omega, rfl, fun _ => hidx⟩⟩
      simp only [Int.toNat_ofNat]
      intro hmin'
      obtain ⟨pages, m, hfr, hnp⟩ := hpre
      cases m with
      | zero =>
        exfalso
        rw [hfr] at hmin
        simp at hmin
        exact hnp hmin
      | succ m =>
        have hptE : st.pointer = pages.length := by
          rw [hidx, hfr]
          exact indexOf_filled pages m hnp
        have hset : st.frames.set st.pointer p = (pages ++ [p]) ++ List.replicate m INT_MIN := by
          rw [hfr, hptE, List.set_append_right _ _ (le_refl _)]
          simp [List.replicate_succ]
        have hnp' : INT_MIN ∉ pages ++ [p] := by
          intro hc
          rcases List.mem_append.1 hc with h1 | h1
          · exact hnp h1
          · have h2 : INT_MIN = p := by simpa using h1
            exact hp h2.symm
        rw [hset] at hmin' ⊢
        cases m with
        | zero =>
          exfalso
          simp only [List.replicate_zero, List.append_nil] at hmin'
          exact hnp' hmin'
        | succ m =>
          rw [indexOf_filled (pages ++ [p]) m hnp']
          have hF2 : F = pages.length + (m + 1 + 1) := by
            rw [← hlen, hfr]
            simp
          rw [hptE, Nat.mod_eq_of_lt (by omega)]
          simp
    · obtain ⟨r, hr, _, _, k, hk, hrf⟩ :=
        clock_sweep_spec F p st.frames hlen _ st.use st.pointer 0 rfl hulen hpt
      rw [clock_body_fault _ _ _ _ _ _ hin hr] at hb
      injection hb with e
      subst e
      apply key ⟨fun h => absurd h hin, fun _ => ⟨k, by omega, hrf, fun h => absurd h hmin⟩⟩
      intro hmin'
      exfalso
      simp only [hrf] at hmin'
      rcases List.mem_or_eq_of_mem_set hmin' with h1 | h1
      · exact hmin h1
      · exact hp h1.symm

/-- Along the run of a fill loop over pages other than the empty marker, before every step the
occupied slots form a prefix and hold pairwise distinct pages, and the step is an installing
step. -/
theorem fillLoop_step {σ : Type} {F : Nat} {init : Except SimError σ}
    {body : σ → Nat → Int → Except SimError σ} {Inv : σ → Prop} {fr : σ → List Int}
    (h : FillLoop F init body Inv fr) (seq : List Int) (hseq : ∀ p ∈ seq, p ≠ INT_MIN)
    (i : Nat) (p : Int) (hp : seq[i]? = some p) :
    ∃ st st', iterate_refs seq init body i = .ok st ∧
      iterate_refs seq init body (i + 1) = .ok st' ∧ Inv st ∧ Inv st' ∧
      FilledPrefix (fr st) ∧ (occupied (fr st)).Nodup ∧ InstallStep (fr st) (fr st') p := by
  obtain ⟨⟨s0, h0, hI0, hfr0⟩, hbody⟩ := h
  have hi : i < seq.length := (List.getElem?_eq_some_iff.1 hp).1
  have hpm : p ≠ INT_MIN := hseq p (List.mem_iff_getElem?.2 ⟨_, hp⟩)
  obtain ⟨st, hst, hI, hpre, hnd⟩ := iterate_refs_inv seq init body
    (fun _ st => Inv st ∧ FilledPrefix (fr st) ∧ (occupied (fr st)).Nodup) s0 h0
    ⟨hI0, by rw [hfr0]; exact filledPrefix_replicate F, by
      rw [hfr0, occupied_replicate]
      exact List.nodup_nil⟩
    (fun j st q hq ⟨hI, hpre, hnd⟩ => by
      have hqm : q ≠ INT_MIN := hseq q (List.mem_iff_getElem?.2 ⟨_, hq⟩)
      obtain ⟨st', hb, hI', hs⟩ := hbody st j q hqm hI
      exact ⟨st', hb, hI', filledPrefix_install hqm hpre hs, nodup_install hqm hnd hs⟩)
    i (by omega)
  obtain ⟨st', hb, hI', hs⟩ := hbody st i p hpm hI
  exact ⟨st, st', hst, by rw [iterate_refs_succ seq init body i st p hst hp, hb], hI, hI',
    hpre, hnd, hs⟩

/-- A fault while some slot is empty writes the page into the lowest-index empty slot and
changes no other slot. -/
def FillsLowestEmpty (fr fr' : List Int) (p : Int) : Prop :=
  p ∉ fr → INT_MIN ∈ fr →
    ∃ k, fr[k]? = some INT_MIN ∧ (∀ j, j < k → fr[j]? ≠ some INT_MIN) ∧ fr' = fr.set k p

theorem fillsLowestEmpty_of_install {fr fr' : List Int} {p : Int}
    (hs : InstallStep fr fr' p) : FillsLowestEmpty fr fr' p := by
  intro hin hmin
  obtain ⟨k, _, e, hlow⟩ := hs.2 hin
  obtain ⟨h1, h2⟩ := indexOf_lowest INT_MIN fr hmin
  rw [← hlow hmin] at h1 h2
  exact ⟨k, h1, h2, e⟩

/-- Along the run of a demand-paging loop, the frames hold only pages referenced so far, and the
fault counter is at least the number of distinct pages referenced so far. -/
theorem demandLoop_distinct {σ : Type} {F : Nat} {verbose : Bool} {init : Except SimError σ}
    {body : σ → Nat → Int → Except SimError σ} {Inv : σ → Prop} {fr : σ → List Int}
    {fl : σ → Nat} {out : σ → List StepRecord}
    (h : DemandLoop F verbose init body Inv fr fl out)
    (seq : List Int) (hseq : ∀ p ∈ seq, p ≠ INT_MIN) :
    ∀ n, n ≤ seq.length → ∃ st, iterate_refs seq init body n = .ok st ∧
      (Inv st ∧ (∀ x ∈ fr st, x = INT_MIN ∨ x ∈ seq.take n) ∧
        (seq.take n).toFinset.card ≤ fl st) := by
  obtain ⟨⟨s0, h0, hI0, hfr0, hfl0, _⟩, _, hbody⟩ := h
  refine iterate_refs_inv seq init body
    (fun n st => Inv st ∧ (∀ x ∈ fr st, x = INT_MIN ∨ x ∈ seq.take n) ∧
        (seq.take n).toFinset.card ≤ fl st) s0 h0 ⟨hI0, ?_, by simp⟩ ?_
  · intro x hx
    rw [hfr0] at hx
    exact Or.inl (List.eq_of_mem_replicate hx)
  · intro i st p hp ⟨hI, hsub, hcard⟩
    have hpm : p ≠ INT_MIN := hseq p (List.mem_iff_getElem?.2 ⟨_, hp⟩)
    have hi : i < seq.length := (List.getElem?_eq_some_iff.1 hp).1
    obtain ⟨st', hb, hI', ⟨_, hhit, hmiss⟩, _⟩ := hbody st i p hpm hI
    have htake : seq.take (i + 1) = seq.take i ++ [p] := by
      rw [List.take_succ, hp]
      rfl
    refine ⟨st', hb, hI', ?_, ?_⟩
    · intro x hx
      rw [htake]
      by_cases hin : p ∈ fr st
      · rw [(hhit hin).1] at hx
        rcases hsub x hx with e | e
        · exact Or.inl e
        · exact Or.inr (List.mem_append_left _ e)
      · rcases (hmiss hin).2.2 x hx with e | e
        · exact Or.inr (by simp [e])
        · rcases hsub x e with e1 | e1
          · exact Or.inl e1
          · exact Or.inr (List.mem_append_left _ e1)
    · rw [htake, List.toFinset_append]
      by_cases hin : p ∈ fr st
      · have hseen : p ∈ seq.take i := by
          rcases hsub p hin with e | e
          · exact absurd e hpm
          · exact e
        rw [(hhit hin).2]
        have : (seq.take i).toFinset ∪ [p].toFinset = (seq.take i).toFinset := by
          apply Finset.union_eq_left.2
          intro x hx
          simp only [List.toFinset_cons, List.toFinset_nil, insert_emptyc_eq,
            Finset.mem_singleton] at hx
          rw [hx]
          exact List.mem_toFinset.2 hseen
        rw [this]
        exact hcard
      · rw [(hmiss hin).1]
        have h1 := Finset.card_union_le (seq.take i).toFinset [p].toFinset
        have h2 : ([p] : List Int).toFinset.card = 1 := by simp
        omega

/-! ## Claims C13 (witness), C14, C19 and C20 -/

/-- Claim C13 at a concrete input: 3 frames, the references 1 2 1, printed, for each of the
four engines. -/
theorem fault_count_matches_records_witness :
    (∃ faults out, simulate_fifo [1, 2, 1] 3 true = .ok (faults, out) ∧
        faults ≤ ([1, 2, 1] : List Int).length ∧
        (true = true → out.length = ([1, 2, 1] : List Int).length ∧
          (∀ i r, out[i]? = some r →
            r.step = i + 1 ∧ ([1, 2, 1] : List Int)[i]? = some r.cur_page) ∧
          faults = (out.filter (fun r => !r.hit)).length) ∧
        (true = false → out = [])) ∧
    (∃ faults out, simulate_opt [1, 2, 1] 3 true = .ok (faults, out) ∧
        faults ≤ ([1, 2, 1] : List Int).length ∧
        (true = true → out.length = ([1, 2, 1] : List Int).length ∧
          (∀ i r, out[i]? = some r →
            r.step = i + 1 ∧ ([1, 2, 1] : List Int)[i]? = some r.cur_page) ∧
          faults = (out.filter (fun r => !r.hit)).length) ∧
        (true = false → out = [])) ∧
    (∃ faults out, simulate_lru [1, 2, 1] 3 true = .ok (faults, out) ∧
        faults ≤ ([1, 2, 1] : List Int).length ∧
        (true = true → out.length = ([1, 2, 1] : List Int).length ∧
          (∀ i r, out[i]? = some r →
            r.step = i + 1 ∧ ([1, 2, 1] : List Int)[i]? = some r.cur_page) ∧
          faults = (out.filter (fun r => !r.hit)).length) ∧
        (true = false → out = [])) ∧
    (∃ faults out, simulate_clock [1, 2, 1] 3 true = .ok (faults, out) ∧
        faults ≤ ([1, 2, 1] : List Int).length ∧
        (true = true → out.length = ([1, 2, 1] : List Int).length ∧
          (∀ i r, out[i]? = some r →
            r.step = i + 1 ∧ ([1, 2, 1] : List Int)[i]? = some r.cur_page) ∧
          faults = (out.filter (fun r => !r.hit)).length) ∧
        (true = false → out = [])) :=
  ⟨fault_count_matches_records 3 (by decide) [1, 2, 1] true _ (by simp),
    fault_count_matches_records 3 (by decide) [1, 2, 1] true _ (by simp),
    fault_count_matches_records 3 (by decide) [1, 2, 1] true _ (by simp),
    fault_count_matches_records 3 (by decide) [1, 2, 1] true _ (by simp)⟩

/-- Claim C14: in each of the four engines, for every `F >= 1` and every sequence of
non-negative pages, after every step the occupied slots form a prefix of the frame vector, and
a fault that occurs while some slot is empty writes the new page into the lowest-index empty
slot and changes no other slot, so nothing is evicted before all slots are occupied. -/
theorem fill_before_evict (F : Int) (hF : 1 ≤ F) (seq : List Int) (hseq : ∀ p ∈ seq, 0 ≤ p)
    (verbose : Bool) (i : Nat) (p : Int) (hp : seq[i]? = some p) :
    (∃ st st', fifo_iter seq F verbose i = .ok st ∧ fifo_iter seq F verbose (i + 1) = .ok st' ∧
      FilledPrefix st'.frames ∧ FillsLowestEmpty st.frames st'.frames p) ∧
    (∃ st st', opt_iter seq F verbose i = .ok st ∧ opt_iter seq F verbose (i + 1) = .ok st' ∧
      FilledPrefix st'.frames ∧ FillsLowestEmpty st.frames st'.frames p) ∧
    (∃ st st', lru_iter seq F verbose i = .ok st ∧ lru_iter seq F verbose (i + 1) = .ok st' ∧
      FilledPrefix st'.frames ∧ FillsLowestEmpty st.frames st'.frames p) ∧
    (∃ st st', clock_iter seq F verbose i = .ok st ∧
      clock_iter seq F verbose (i + 1) = .ok st' ∧
      FilledPrefix st'.frames ∧ FillsLowestEmpty st.frames st'.frames p) := by
  obtain ⟨G, rfl, hG⟩ := exists_nat_of_one_le hF
  have hne := nonneg_ne_INT_MIN hseq
  have hpm : p ≠ INT_MIN := hne p (List.mem_iff_getElem?.2 ⟨_, hp⟩)
  have key : ∀ {σ : Type} {init : Except SimError σ} {body : σ → Nat → Int → Except SimError σ}
      {Inv : σ → Prop} {fr : σ → List Int}, FillLoop G init body Inv fr →
      ∃ st st', iterate_refs seq init body i = .ok st ∧
        iterate_refs seq init body (i + 1) = .ok st' ∧
        FilledPrefix (fr st') ∧ FillsLowestEmpty (fr st) (fr st') p := by
    intro σ init body Inv fr h
    obtain ⟨st, st', h1, h2, _, _, hpre, _, hs⟩ := fillLoop_step h seq hne i p hp
    exact ⟨st, st', h1, h2, filledPrefix_install hpm hpre hs, fillsLowestEmpty_of_install hs⟩
  exact ⟨key (fifo_fillLoop G hG verbose), key (opt_fillLoop G hG seq verbose),
    key (lru_fillLoop G hG verbose), key (clock_fillLoop G hG verbose)⟩

/-- Claim C14 at a concrete input: 3 frames, references 4 5 6, the second step (a fault with
two empty slots). -/
theorem fill_before_evict_witness :
    (∃ st st', fifo_iter [4, 5, 6] 3 true 1 = .ok st ∧ fifo_iter [4, 5, 6] 3 true (1 + 1) = .ok st' ∧
      FilledPrefix st'.frames ∧ FillsLowestEmpty st.frames st'.frames 5) ∧
    (∃ st st', opt_iter [4, 5, 6] 3 true 1 = .ok st ∧ opt_iter [4, 5, 6] 3 true (1 + 1) = .ok st' ∧
      FilledPrefix st'.frames ∧ FillsLowestEmpty st.frames st'.frames 5) ∧
    (∃ st st', lru_iter [4, 5, 6] 3 true 1 = .ok st ∧ lru_iter [4, 5, 6] 3 true (1 + 1) = .ok st' ∧
      FilledPrefix st'.frames ∧ FillsLowestEmpty st.frames st'.frames 5) ∧
    (∃ st st', clock_iter [4, 5, 6] 3 true 1 = .ok st ∧
      clock_iter [4, 5, 6] 3 true (1 + 1) = .ok st' ∧
      FilledPrefix st'.frames ∧ FillsLowestEmpty st.frames st'.frames 5) :=
  fill_before_evict 3 (by decide) [4, 5, 6] (by decide) true 1 5 rfl

/-- Claim C19: for each of the four engines, every `F >= 1` and every sequence of non-negative
pages, the returned fault count is at least the number of distinct pages in the sequence. -/
theorem faults_ge_distinct_pages (F : Int) (hF : 1 ≤ F) (seq : List Int)
    (hseq : ∀ p ∈ seq, 0 ≤ p) (verbose : Bool) :
    ∀ sim ∈ [simulate_fifo, simulate_opt, simulate_lru, simulate_clock],
      ∃ faults out, sim seq F verbose = .ok (faults, out) ∧ seq.toFinset.card ≤ faults := by
  obtain ⟨G, rfl, hG⟩ := exists_nat_of_one_le hF
  have hne := nonneg_ne_INT_MIN hseq
  have key : ∀ {σ : Type} {init : Except SimError σ} {body : σ → Nat → Int → Except SimError σ}
      {Inv : σ → Prop} {fr : σ → List Int} {fl : σ → Nat} {out : σ → List StepRecord},
      DemandLoop G verbose init body Inv fr fl out →
      ∃ st, iterate_refs seq init body seq.length = .ok st ∧ seq.toFinset.card ≤ fl st := by
    intro σ init body Inv fr fl out h
    obtain ⟨st, hst, _, _, hc⟩ := demandLoop_distinct h seq hne seq.length le_rfl
    rw [List.take_length] at hc
    exact ⟨st, hst, hc⟩
  intro sim hsim
  simp only [List.mem_cons, List.mem_singleton, List.not_mem_nil, or_false] at hsim
  rcases hsim with rfl | rfl | rfl | rfl
  · obtain ⟨st, hst, h1⟩ := key (fifo_demandLoop G hG verbose)
    exact ⟨_, _, simulate_fifo_of_iter hst, h1⟩
  · obtain ⟨st, hst, h1⟩ := key (opt_demandLoop G hG seq verbose)
    exact ⟨_, _, simulate_opt_of_iter hst, h1⟩
  · obtain ⟨st, hst, h1⟩ := key (lru_demandLoop G hG verbose)
    exact ⟨_, _, simulate_lru_of_iter hst, h1⟩
  · obtain ⟨st, hst, h1⟩ := key (clock_demandLoop G hG verbose)
    exact ⟨_, _, simulate_clock_of_iter hst, h1⟩

/-- Claim C19 at a concrete input: 2 frames, the references 1 2 3 1 2. -/
theorem faults_ge_distinct_pages_witness :
    (∃ faults out, simulate_fifo [1, 2, 3, 1, 2] 2 true = .ok (faults, out) ∧
      ([1, 2, 3, 1, 2] : List Int).toFinset.card ≤ faults) ∧
    (∃ faults out, simulate_opt [1, 2, 3, 1, 2] 2 true = .ok (faults, out) ∧
      ([1, 2, 3, 1, 2] : List Int).toFinset.card ≤ faults) ∧
    (∃ faults out, simulate_lru [1, 2, 3, 1, 2] 2 true = .ok (faults, out) ∧
      ([1, 2, 3, 1, 2] : List Int).toFinset.card ≤ faults) ∧
    (∃ faults out, simulate_clock [1, 2, 3, 1, 2] 2 true = .ok (faults, out) ∧
      ([1, 2, 3, 1, 2] : List Int).toFinset.card ≤ faults) :=
  ⟨faults_ge_distinct_pages 2 (by decide) [1, 2, 3, 1, 2] (by decide) true _ (by simp),
    faults_ge_distinct_pages 2 (by decide) [1, 2, 3, 1, 2] (by decide) true _ (by simp),
    faults_ge_distinct_pages 2 (by decide) [1, 2, 3, 1, 2] (by decide) true _ (by simp),
    faults_ge_distinct_pages 2 (by decide) [1, 2, 3, 1, 2] (by decide) true _ (by simp)⟩

/-- Claim C20: for each of the four engines, every `F >= 1` and every sequence of non-negative
pages, after every step the page just referenced is in exactly one slot and the occupied slots
hold pairwise distinct pages; in particular a fault installs the new page. -/
theorem referenced_page_resident_once (F : Int) (hF : 1 ≤ F) (seq : List Int)
    (hseq : ∀ p ∈ seq, 0 ≤ p) (verbose : Bool) (i : Nat) (p : Int) (hp : seq[i]? = some p) :
    (∃ st', fifo_iter seq F verbose (i + 1) = .ok st' ∧
      st'.frames.count p = 1 ∧ (occupied st'.frames).Nodup) ∧
    (∃ st', opt_iter seq F verbose (i + 1) = .ok st' ∧
      st'.frames.count p = 1 ∧ (occupied st'.frames).Nodup) ∧
    (∃ st', lru_iter seq F verbose (i + 1) = .ok st' ∧
      st'.frames.count p = 1 ∧ (occupied st'.frames).Nodup) ∧
    (∃ st', clock_iter seq F verbose (i + 1) = .ok st' ∧
      st'.frames.count p = 1 ∧ (occupied st'.frames).Nodup) := by
  obtain ⟨G, rfl, hG⟩ := exists_nat_of_one_le hF
  have hne := nonneg_ne_INT_MIN hseq
  have hpm : p ≠ INT_MIN := hne p (List.mem_iff_getElem?.2 ⟨_, hp⟩)
  have key : ∀ {σ : Type} {init : Except SimError σ} {body : σ → Nat → Int → Except SimError σ}
      {Inv : σ → Prop} {fr : σ → List Int}, FillLoop G init body Inv fr →
      ∃ st', iterate_refs seq init body (i + 1) = .ok st' ∧
        (fr st').count p = 1 ∧ (occupied (fr st')).Nodup := by
    intro σ init body Inv fr h
    obtain ⟨st, st', _, h2, _, _, _, hnd, hs⟩ := fillLoop_step h seq hne i p hp
    have hnd' := nodup_install hpm hnd hs
    exact ⟨st', h2, count_eq_one_of_nodup hpm hnd' (mem_install hs), hnd'⟩
  exact ⟨key (fifo_fillLoop G hG verbose), key (opt_fillLoop G hG seq verbose),
    key (lru_fillLoop G hG verbose), key (clock_fillLoop G hG verbose)⟩

/-- Claim C20 at a concrete input: 2 frames, references 1 2 3, the third step (an
eviction). -/
theorem referenced_page_resident_once_witness :
    (∃ st', fifo_iter [1, 2, 3] 2 true (2 + 1) = .ok st' ∧
      st'.frames.count 3 = 1 ∧ (occupied st'.frames).Nodup) ∧
    (∃ st', opt_iter [1, 2, 3] 2 true (2 + 1) = .ok st' ∧
      st'.frames.count 3 = 1 ∧ (occupied st'.frames).Nodup) ∧
    (∃ st', lru_iter [1, 2, 3] 2 true (2 + 1) = .ok st' ∧
      st'.frames.count 3 = 1 ∧ (occupied st'.frames).Nodup) ∧
    (∃ st', clock_iter [1, 2, 3] 2 true (2 + 1) = .ok st' ∧
      st'.frames.count 3 = 1 ∧ (occupied st'.frames).Nodup) :=
  referenced_page_resident_once 2 (by decide) [1, 2, 3] (by decide) true 2 3 rfl

/-! ## FIFO: arrival order -/

/-- Whether step `n` (0-based) of `simulate_fifo` is a fault: the page `seq[n]` is in no slot of
the frames reached after `n` steps. -/
def fifo_fault_at (seq : List Int) (F : Int) (verbose : Bool) (n : Nat) : Bool :=
  match fifo_iter seq F verbose n, seq[n]? with
  | .ok st, some p => !hit_test st.frames p
  | _, _ => false

/-- The step at which page `x` was last loaded by a fault of `simulate_fifo` among its first `n`
steps, if any. -/
def fifo_arrival (seq : List Int) (F : Int) (verbose : Bool) : Nat → Int → Option Nat
  | 0, _ => none
  | n + 1, x =>
    if seq[n]? = some x ∧ fifo_fault_at seq F verbose n = true then some n
    else fifo_arrival seq F verbose n x

/-- Page `a` was loaded at an earlier step than page `b`, both having been loaded. -/
def ArrivedBefore (arrival : Int → Option Nat) (a b : Int) : Prop :=
  ∃ ta tb, arrival a = some ta ∧ arrival b = some tb ∧ ta < tb

theorem fifo_fault_at_eq {seq : List Int} {F : Int} {verbose : Bool} {n : Nat}
    {st : FifoState} {p : Int} (h1 : fifo_iter seq F verbose n = .ok st)
    (h2 : seq[n]? = some p) :
    fifo_fault_at seq F verbose n = !hit_test st.frames p := by
  simp [fifo_fault_at, h1, h2]

theorem fifo_arrival_hit {seq : List Int} {F : Int} {verbose : Bool} {n : Nat}
    {st : FifoState} {p : Int} (h1 : fifo_iter seq F verbose n = .ok st)
    (h2 : seq[n]? = some p) (hin : p ∈ st.frames) (x : Int) :
    fifo_arrival seq F verbose (n + 1) x = fifo_arrival seq F verbose n x := by
  have : fifo_fault_at seq F verbose n = false := by
    rw [fifo_fault_at_eq h1 h2, (hit_test_iff _ _).2 hin]
    rfl
  simp [fifo_arrival, this]

theorem fifo_arrival_miss_self {seq : List Int} {F : Int} {verbose : Bool} {n : Nat}
    {st : FifoState} {p : Int} (h1 : fifo_iter seq F verbose n = .ok st)
    (h2 : seq[n]? = some p) (hin : p ∉ st.frames) :
    fifo_arrival seq F verbose (n + 1) p = some n := by
  have : fifo_fault_at seq F verbose n = true := by
    rw [fifo_fault_at_eq h1 h2, (hit_test_false_iff _ _).2 hin]
    rfl
  simp [fifo_arrival, this, h2]

theorem fifo_arrival_other {seq : List Int} {F : Int} {verbose : Bool} {n : Nat}
    {p : Int} (h2 : seq[n]? = some p) (x : Int) (hx : x ≠ p) :
    fifo_arrival seq F verbose (n + 1) x = fifo_arrival seq F verbose n x := by
  have : ¬ p = x := fun e => hx e.symm
  simp [fifo_arrival, h2, this]

/-- Along the run of `simulate_fifo` the queue is a duplicate-free rearrangement of the occupied
slots, every queued page has been loaded, and the queue lists the pages in the order in which
they were loaded. -/
theorem fifo_queue_inv (F : Nat) (hF : 1 ≤ F) (seq : List Int) (hseq : ∀ p ∈ seq, p ≠ INT_MIN)
    (verbose : Bool) :
    ∀ n, n ≤ seq.length → ∃ st, fifo_iter seq (F : Int) verbose n = .ok st ∧
      (FifoInv F st ∧
        (∀ x ∈ st.q, ∃ t, fifo_arrival seq (F : Int) verbose n x = some t ∧ t < n) ∧
        st.q.Pairwise (ArrivedBefore (fifo_arrival seq (F : Int) verbose n))) := by
  intro n
  induction n with
  | zero =>
    intro _
    obtain ⟨s0, h0, hI, _, _, _, hq⟩ := fifo_init_ok F
    refine ⟨s0, by simp [fifo_iter, iterate_refs, h0], hI, ?_, ?_⟩
    · rw [hq]
      intro x hx
      simp at hx
    · rw [hq]
      exact List.Pairwise.nil
  | succ n ih =>
    intro hn
    obtain ⟨st, hst, hI, harr, hord⟩ := ih (by omega)
    have hlt : n < seq.length := by omega
    have hp : seq[n]? = some seq[n] := List.getElem?_eq_getElem hlt
    generalize seq[n] = p at hp
    have hpm : p ≠ INT_MIN := hseq p (List.mem_iff_getElem?.2 ⟨_, hp⟩)
    obtain ⟨st', hb, hI', _, _, hqhit⟩ := fifo_body_spec F hF verbose st n p hpm hI
    have hnext : fifo_iter seq (F : Int) verbose (n + 1) = .ok st' := by
      unfold fifo_iter
      rw [iterate_refs_succ seq _ _ n st p hst hp, hb]
    refine ⟨st', hnext, hI', ?_⟩
    by_cases hin : p ∈ st.frames
    · rw [hqhit hin]
      constructor
      · intro x hx
        obtain ⟨t, ht, hlt⟩ := harr x hx
        exact ⟨t, by rw [fifo_arrival_hit hst hp hin, ht], by omega⟩
      · refine hord.imp_of_mem ?_
        intro a b _ _ ⟨ta, tb, h1, h2, h3⟩
        exact ⟨ta, tb, by rw [fifo_arrival_hit hst hp hin, h1],
          by rw [fifo_arrival_hit hst hp hin, h2], h3⟩
    · have hpq : p ∉ st.q := fun hq => hin (mem_occupied.1 (hI.2.1.mem_iff.2 hq)).1
      -- the new queue is a part `l` of the old queue followed by `p`
      have hform : ∃ l, st'.q = l ++ [p] ∧ l.Sublist st.q := by
        by_cases hq : (st.q.length : Int) < (F : Int)
        · rw [fifo_body_fill _ _ _ _ _ hin hq] at hb
          injection hb with e
          subst e
          exact ⟨st.q, rfl, List.Sublist.refl _⟩
        · cases hqe : st.q with
          | nil =>
            exfalso
            rw [hqe] at hq
            apply hq
            simp only [List.length_nil, Nat.cast_zero]
            exact_mod_cast hF
          | cons victim rest =>
            rw [fifo_body_evict _ _ _ _ _ victim rest hin hq hqe] at hb
            injection hb with e
            subst e
            exact ⟨rest, rfl, List.sublist_cons_self victim rest⟩
      obtain ⟨l, hl, hsub⟩ := hform
      have hlq : ∀ x ∈ l, x ∈ st.q := fun x hx => hsub.subset hx
      have hsame : ∀ x ∈ l, fifo_arrival seq (F : Int) verbose (n + 1) x =
          fifo_arrival seq (F : Int) verbose n x := by
        intro x hx
        exact fifo_arrival_other hp x (fun e => hpq (e ▸ hlq x hx))
      rw [hl]
      constructor
      · intro x hx
        rcases List.mem_append.1 hx with h1 | h1
        · obtain ⟨t, ht, hlt⟩ := harr x (hlq x h1)
          exact ⟨t, by rw [hsame x h1, ht], by omega⟩
        · have e : x = p := by simpa using h1
          rw [e]
          exact ⟨n, fifo_arrival_miss_self hst hp hin, by omega⟩
      · rw [List.pairwise_append]
        refine ⟨?_, List.pairwise_singleton _ _, ?_⟩
        · refine (hord.sublist hsub).imp_of_mem ?_
          intro a b ha hb' ⟨ta, tb, h1, h2, h3⟩
          exact ⟨ta, tb, by rw [hsame a ha, h1], by rw [hsame b hb', h2], h3⟩
        · intro a ha b hb'
          have e : b = p := by simpa using hb'
          rw [e]
          obtain ⟨t, ht, hlt⟩ := harr a (hlq a ha)
          exact ⟨t, n, by rw [hsame a ha, ht], fifo_arrival_miss_self hst hp hin, hlt⟩

/-- Claim C15: for every `F >= 1` and every sequence of non-negative pages, after every step of
`simulate_fifo` the queue holds exactly the pages of the occupied slots, each once, listed in
the order in which they were loaded (oldest first); and when a fault finds every slot occupied,
the dequeued victim is the front of the queue, is in some slot, was loaded before every other
resident page, and its slot receives the new page. -/
theorem fifo_queue_is_arrival_order (F : Int) (hF : 1 ≤ F) (seq : List Int)
    (hseq : ∀ p ∈ seq, 0 ≤ p) (verbose : Bool) (n : Nat) (hn : n ≤ seq.length) :
    ∃ st, fifo_iter seq F verbose n = .ok st ∧
      st.q.Nodup ∧ st.q.Perm (occupied st.frames) ∧
      st.q.Pairwise (ArrivedBefore (fifo_arrival seq F verbose n)) ∧
      ∀ p, seq[n]? = some p → p ∉ st.frames → INT_MIN ∉ st.frames →
        ∃ victim rest st', st.q = victim :: rest ∧ victim ∈ st.frames ∧
          (∀ x ∈ st.frames, x ≠ victim →
            ArrivedBefore (fifo_arrival seq F verbose n) victim x) ∧
          fifo_iter seq F verbose (n + 1) = .ok st' ∧
          st'.frames = st.frames.set (st.frames.indexOf victim) p ∧ st'.q = rest ++ [p] := by
  obtain ⟨G, rfl, hG⟩ := exists_nat_of_one_le hF
  have hne := nonneg_ne_INT_MIN hseq
  obtain ⟨st, hst, hI, _, hord⟩ := fifo_queue_inv G hG seq hne verbose n hn
  refine ⟨st, hst, hI.2.2, hI.2.1.symm, hord, ?_⟩
  intro p hp hin hmin
  have hq : ¬ (st.q.length : Int) < (G : Int) := by
    intro hc
    exact hmin (mem_of_fifo_fill hI hc)
  cases hqe : st.q with
  | nil =>
    exfalso
    rw [hqe] at hq
    apply hq
    simp only [List.length_nil, Nat.cast_zero]
    exact_mod_cast hG
  | cons victim rest =>
    have hv : victim ∈ st.frames := by
      have := hI.2.1.mem_iff.2 (by rw [hqe]; exact List.mem_cons_self victim rest)
      exact (mem_occupied.1 this).1
    have hb := fifo_body_evict (G : Int) verbose st n p victim rest hin hq hqe
    have hnext : fifo_iter seq (G : Int) verbose (n + 1) =
        .ok { frames := (replace_first victim p st.frames).1, q := rest ++ [p],
              faults := st.faults + 1,
              out := emit verbose st.out (replace_first victim p st.frames).1 p n false } := by
      unfold fifo_iter
      rw [iterate_refs_succ seq _ _ n st p hst hp, hb]
    have hold : ∀ x ∈ st.frames, x ≠ victim →
        ArrivedBefore (fifo_arrival seq (G : Int) verbose n) victim x := by
      intro x hx hxv
      have hxq : x ∈ st.q := hI.2.1.mem_iff.1 (mem_occupied.2 ⟨hx, fun e => hmin (e ▸ hx)⟩)
      rw [hqe] at hxq hord
      rcases List.mem_cons.1 hxq with e | e
      · exact absurd e hxv
      · exact (List.pairwise_cons.1 hord).1 x e
    exact ⟨victim, rest, _, rfl, hv, hold, hnext, replace_first_eq_set _ _ _ hv, rfl⟩

/-- Claim C15 at a concrete input: 2 frames, references 1 2 3, the state after two steps (the
next step evicts). -/
theorem fifo_queue_is_arrival_order_witness :
    ∃ st, fifo_iter [1, 2, 3] 2 true 2 = .ok st ∧
      st.q.Nodup ∧ st.q.Perm (occupied st.frames) ∧
      st.q.Pairwise (ArrivedBefore (fifo_arrival [1, 2, 3] 2 true 2)) ∧
      ∀ p, ([1, 2, 3] : List Int)[2]? = some p → p ∉ st.frames → INT_MIN ∉ st.frames →
        ∃ victim rest st', st.q = victim :: rest ∧ victim ∈ st.frames ∧
          (∀ x ∈ st.frames, x ≠ victim →
            ArrivedBefore (fifo_arrival [1, 2, 3] 2 true 2) victim x) ∧
          fifo_iter [1, 2, 3] 2 true (2 + 1) = .ok st' ∧
          st'.frames = st.frames.set (st.frames.indexOf victim) p ∧ st'.q = rest ++ [p] :=
  fifo_queue_is_arrival_order 2 (by decide) [1, 2, 3] (by decide) true 2 (by decide)

/-! ## OPT: which slot is overwritten -/

theorem find_next_neg_iff (page : Int) (xs : List Int) (k : Nat) :
    find_next page xs k = -1 ↔ page ∉ xs := by
  induction xs generalizing k with
  | nil => simp [find_next]
  | cons x xs ih =>
    by_cases h : x = page
    · subst h
      simp only [find_next, if_true, List.mem_cons, true_or, not_true, iff_false]
      omega
    · have h2 : ¬ page = x := fun e => h e.symm
      simp [find_next, h, h2, ih]

theorem find_next_eq_indexOf (page : Int) (xs : List Int) (k : Nat) (h : page ∈ xs) :
    find_next page xs k = (k : Int) + (xs.indexOf page : Int) := by
  induction xs generalizing k with
  | nil => simp at h
  | cons x xs ih =>
    by_cases h1 : x = page
    · subst h1
      simp [find_next]
    · have h2 : page ∈ xs := by
        rcases List.mem_cons.1 h with e | e
        · exact absurd e.symm h1
        · exact e
      simp only [find_next, h1, if_false]
      rw [ih (k + 1) h2, List.indexOf_cons_ne _ h1]
      push_cast
      omega

/-- The victim loop of `simulate_opt`, with the order of the slots: either no slot beats the
current candidate, or the loop returns a slot `j + k` such that every earlier slot has a next
use, and its page either has no next use or has the latest next use, strictly later than that
of every earlier slot. -/
theorem opt_scan_order (seq : List Int) (i : Nat) (fs : List Int) :
    ∀ (j victim_idx : Nat) (farthest : Int),
      (opt_scan seq i fs j victim_idx farthest = victim_idx ∧
        ∀ x ∈ fs, find_next x (seq.drop (i + 1)) (i + 1) ≠ -1 ∧
          find_next x (seq.drop (i + 1)) (i + 1) ≤ farthest) ∨
      (∃ k y, opt_scan seq i fs j victim_idx farthest = j + k ∧ fs[k]? = some y ∧
        (∀ m z, m < k → fs[m]? = some z → find_next z (seq.drop (i + 1)) (i + 1) ≠ -1) ∧
        (find_next y (seq.drop (i + 1)) (i + 1) = -1 ∨
          (farthest < find_next y (seq.drop (i + 1)) (i + 1) ∧
            (∀ x ∈ fs, find_next x (seq.drop (i + 1)) (i + 1) ≠ -1 ∧
              find_next x (seq.drop (i + 1)) (i + 1) ≤
                find_next y (seq.drop (i + 1)) (i + 1)) ∧
            ∀ m z, m < k → fs[m]? = some z →
              find_next z (seq.drop (i + 1)) (i + 1) <
                find_next y (seq.drop (i + 1)) (i + 1)))) := by
  induction fs with
  | nil =>
    intro j v far
    left
    simp [opt_scan]
  | cons f fs ih =>
    intro j v far
    by_cases h1 : find_next f (seq.drop (i + 1)) (i + 1) = -1
    · right
      exact ⟨0, f, by simp [opt_scan, h1], by simp, fun m z hm _ => absurd hm (by omega),
        Or.inl h1⟩
    · by_cases h2 : find_next f (seq.drop (i + 1)) (i + 1) > far
      · have e : opt_scan seq i (f :: fs) j v far =
            opt_scan seq i fs (j + 1) j (find_next f (seq.drop (i + 1)) (i + 1)) := by
          simp [opt_scan, h1, h2]
        rw [e]
        rcases ih (j + 1) j (find_next f (seq.drop (i + 1)) (i + 1)) with
          ⟨a, b⟩ | ⟨k, y, a, b, c0, c⟩
        · right
          refine ⟨0, f, by simpa using a, by simp, fun m z hm _ => absurd hm (by omega),
            Or.inr ⟨h2, ?_, fun m z hm _ => absurd hm (by omega)⟩⟩
          intro x hx
          rcases List.mem_cons.1 hx with e1 | e1
          · subst e1; exact ⟨h1, le_refl _⟩
          · exact b x e1
        · right
          refine ⟨k + 1, y, by omega, by simpa using b, ?_, ?_⟩
          · intro m z hm hz
            cases m with
            | zero =>
              have : f = z := by simpa using hz
              rw [← this]
              exact h1
            | succ m => exact c0 m z (by omega) (by simpa using hz)
          · rcases c with c | ⟨c1, c2, c3⟩
            · exact Or.inl c
            · refine Or.inr ⟨by omega, ?_, ?_⟩
              · intro x hx
                rcases List.mem_cons.1 hx with e1 | e1
                · subst e1; exact ⟨h1, by omega⟩
                · exact c2 x e1
              · intro m z hm hz
                cases m with
                | zero =>
                  have : f = z := by simpa using hz
                  rw [← this]
                  exact c1
                | succ m => exact c3 m z (by omega) (by simpa using hz)
      · have e : opt_scan seq i (f :: fs) j v far = opt_scan seq i fs (j + 1) v far := by
          simp [opt_scan, h1, h2]
        rw [e]
        rcases ih (j + 1) v far with ⟨a, b⟩ | ⟨k, y, a, b, c0, c⟩
        · left
          refine ⟨a, ?_⟩
          intro x hx
          rcases List.mem_cons.1 hx with e1 | e1
          · subst e1; exact ⟨h1, by omega⟩
          · exact b x e1
        · right
          refine ⟨k + 1, y, by omega, by simpa using b, ?_, ?_⟩
          · intro m z hm hz
            cases m with
            | zero =>
              have : f = z := by simpa using hz
              rw [← this]
              exact h1
            | succ m => exact c0 m z (by omega) (by simpa using hz)
          · rcases c with c | ⟨c1, c2, c3⟩
            · exact Or.inl c
            · refine Or.inr ⟨c1, ?_, ?_⟩
              · intro x hx
                rcases List.mem_cons.1 hx with e1 | e1
                · subst e1; exact ⟨h1, by omega⟩
                · exact c2 x e1
              · intro m z hm hz
                cases m with
                | zero =>
                  have : f = z := by simpa using hz
                  rw [← this]
                  omega
                | succ m => exact c3 m z (by omega) (by simpa using hz)

/-- The slot chosen by the victim loop of `simulate_opt` on non-empty frames, in terms of the
remaining references `seq[i+1..]`. -/
theorem opt_scan_choice (seq : List Int) (i : Nat) (frames : List Int) (hne : frames ≠ []) :
    ∃ v, frames[opt_scan seq i frames 0 0 (-1)]? = some v ∧
      ((∃ x ∈ frames, x ∉ seq.drop (i + 1)) →
        v ∉ seq.drop (i + 1) ∧
          ∀ m z, m < opt_scan seq i frames 0 0 (-1) → frames[m]? = some z →
            z ∈ seq.drop (i + 1)) ∧
      ((∀ x ∈ frames, x ∈ seq.drop (i + 1)) →
        (∀ x ∈ frames, (seq.drop (i + 1)).indexOf x ≤ (seq.drop (i + 1)).indexOf v) ∧
          ∀ m z, m < opt_scan seq i frames 0 0 (-1) → frames[m]? = some z →
            (seq.drop (i + 1)).indexOf z < (seq.drop (i + 1)).indexOf v) := by
  rcases opt_scan_order seq i frames 0 0 (-1) with ⟨_, b⟩ | ⟨k, y, a, b, c0, c⟩
  · exfalso
    cases frames with
    | nil => exact hne rfl
    | cons f fs =>
      obtain ⟨b1, b2⟩ := b f (List.mem_cons_self _ _)
      rcases find_next_ge f (seq.drop (i + 1)) (i + 1) with e | e
      · exact b1 e
      · omega
  · have ha : opt_scan seq i frames 0 0 (-1) = k := by omega
    rw [ha]
    have hy : y ∈ frames := List.mem_iff_getElem?.2 ⟨_, b⟩
    refine ⟨y, b, ?_, ?_⟩
    · rintro ⟨x, hx, hxn⟩
      rcases c with c | ⟨_, c2, _⟩
      · refine ⟨(find_next_neg_iff _ _ _).1 c, ?_⟩
        intro m z hm hz
        by_contra hc
        exact c0 m z hm hz ((find_next_neg_iff _ _ _).2 hc)
      · exact absurd ((find_next_neg_iff _ _ _).2 hxn) (c2 x hx).1
    · intro hall
      rcases c with c | ⟨_, c2, c3⟩
      · exact absurd (hall y hy) ((find_next_neg_iff _ _ _).1 c)
      · constructor
        · intro x hx
          have h1 := (c2 x hx).2
          rw [find_next_eq_indexOf _ _ _ (hall x hx), find_next_eq_indexOf _ _ _ (hall y hy)] at h1
          omega
        · intro m z hm hz
          have hzm : z ∈ frames := List.mem_iff_getElem?.2 ⟨_, hz⟩
          have h1 := c3 m z hm hz
          rw [find_next_eq_indexOf _ _ _ (hall z hzm), find_next_eq_indexOf _ _ _ (hall y hy)] at h1
          omega

/-- Claim C16: for every `F >= 1` and every sequence of non-negative pages, when `simulate_opt`
faults at position `i` with all slots occupied, it overwrites exactly one slot `k`: if some
resident page does not occur in `seq[i+1..]`, slot `k` is the lowest slot holding such a page;
otherwise its page has the largest first-occurrence index in `seq[i+1..]`, and every lower slot
has a strictly smaller one. -/
theorem opt_victim_choice (F : Int) (hF : 1 ≤ F) (seq : List Int) (hseq : ∀ p ∈ seq, 0 ≤ p)
    (verbose : Bool) (i : Nat) (p : Int) (hp : seq[i]? = some p) :
    ∃ st st', opt_iter seq F verbose i = .ok st ∧ opt_iter seq F verbose (i + 1) = .ok st' ∧
      (p ∉ st.frames → INT_MIN ∉ st.frames →
        ∃ k v, st.frames[k]? = some v ∧ st'.frames = st.frames.set k p ∧
          ((∃ x ∈ st.frames, x ∉ seq.drop (i + 1)) →
            v ∉ seq.drop (i + 1) ∧
              ∀ m z, m < k → st.frames[m]? = some z → z ∈ seq.drop (i + 1)) ∧
          ((∀ x ∈ st.frames, x ∈ seq.drop (i + 1)) →
            (∀ x ∈ st.frames,
              (seq.drop (i + 1)).indexOf x ≤ (seq.drop (i + 1)).indexOf v) ∧
              ∀ m z, m < k → st.frames[m]? = some z →
                (seq.drop (i + 1)).indexOf z < (seq.drop (i + 1)).indexOf v)) := by
  obtain ⟨G, rfl, hG⟩ := exists_nat_of_one_le hF
  have hne := nonneg_ne_INT_MIN hseq
  obtain ⟨st, st', h1, hI, hb, h2⟩ :=
    demandLoop_step (opt_demandLoop G hG seq verbose) seq hne i p hp
  refine ⟨st, st', h1, h2, ?_⟩
  intro hin hmin
  have hfne : st.frames ≠ [] := by
    intro e
    have := hI.1
    rw [e] at this
    simp at this
    omega
  obtain ⟨v, hv, hA, hB⟩ := opt_scan_choice seq i st.frames hfne
  have hlt := (List.getElem?_eq_some_iff.1 hv).1
  rw [opt_body_evict _ _ _ _ _ hin hmin hlt] at hb
  injection hb with e
  subst e
  exact ⟨_, v, hv, rfl, hA, hB⟩

/-- Claim C16 at a concrete input: 2 frames, references 1 2 3 1, the third step (both resident
pages full, page 2 never used again). -/
theorem opt_victim_choice_witness :
    ∃ st st', opt_iter [1, 2, 3, 1] 2 true 2 = .ok st ∧
      opt_iter [1, 2, 3, 1] 2 true (2 + 1) = .ok st' ∧
      (3 ∉ st.frames → INT_MIN ∉ st.frames →
        ∃ k v, st.frames[k]? = some v ∧ st'.frames = st.frames.set k 3 ∧
          ((∃ x ∈ st.frames, x ∉ ([1, 2, 3, 1] : List Int).drop (2 + 1)) →
            v ∉ ([1, 2, 3, 1] : List Int).drop (2 + 1) ∧
              ∀ m z, m < k → st.frames[m]? = some z →
                z ∈ ([1, 2, 3, 1] : List Int).drop (2 + 1)) ∧
          ((∀ x ∈ st.frames, x ∈ ([1, 2, 3, 1] : List Int).drop (2 + 1)) →
            (∀ x ∈ st.frames,
              (([1, 2, 3, 1] : List Int).drop (2 + 1)).indexOf x ≤
                (([1, 2, 3, 1] : List Int).drop (2 + 1)).indexOf v) ∧
              ∀ m z, m < k → st.frames[m]? = some z →
                (([1, 2, 3, 1] : List Int).drop (2 + 1)).indexOf z <
                  (([1, 2, 3, 1] : List Int).drop (2 + 1)).indexOf v)) :=
  opt_victim_choice 2 (by decide) [1, 2, 3, 1] (by decide) true 2 3 rfl

/-! ## LRU: timestamps -/

/-- The 1-based position of the most recent reference to page `x` among the first `n`
references of `seq`; `0` when there is none. -/
def recent_time (seq : List Int) : Nat → Int → Int
  | 0, _ => 0
  | n + 1, x => if seq[n]? = some x then (n : Int) + 1 else recent_time seq n x

/-- Bookkeeping invariant of `simulate_lru` after `n` references with `F` frames: `time` is `n`,
the keys of `last_used` are exactly the pages in occupied slots, each mapped to the position of
its most recent reference, which lies between `1` and `n`. -/
def LruBook (seq : List Int) (F n : Nat) (st : LruState) : Prop :=
  st.frames.length = F ∧ (occupied st.frames).Nodup ∧ st.time = (n : Int) ∧
    (∀ x, st.last_used x =
      if x ∈ occupied st.frames then some (recent_time seq n x) else none) ∧
    (∀ x ∈ occupied st.frames, 1 ≤ recent_time seq n x ∧ recent_time seq n x ≤ (n : Int))

theorem recent_time_self {seq : List Int} {n : Nat} {p : Int} (hp : seq[n]? = some p) :
    recent_time seq (n + 1) p = (n : Int) + 1 := by
  simp [recent_time, hp]

theorem recent_time_other {seq : List Int} {n : Nat} {p : Int} (hp : seq[n]? = some p)
    (x : Int) (hx : x ≠ p) : recent_time seq (n + 1) x = recent_time seq n x := by
  have : ¬ p = x := fun e => hx e.symm
  simp [recent_time, hp, this]

theorem stamp_of_some {last_used : Int → Option Int} {x t : Int} (h : last_used x = some t) :
    stamp_of last_used x = t := by
  simp [stamp_of, h]

/-- The victim loop of `simulate_lru`: either no slot has a timestamp below the current
`lru_time`, or the loop returns a slot `j + k` whose timestamp is below it, is the smallest of
all, and is strictly smaller than that of every earlier slot. -/
theorem lru_scan_min (last_used : Int → Option Int) (fs : List Int) :
    ∀ (j lru_idx : Nat) (lru_time : Int),
      (lru_scan last_used fs j lru_idx lru_time = lru_idx ∧
        ∀ x ∈ fs, lru_time ≤ stamp_of last_used x) ∨
      (∃ k y, lru_scan last_used fs j lru_idx lru_time = j + k ∧ fs[k]? = some y ∧
        stamp_of last_used y < lru_time ∧
        (∀ x ∈ fs, stamp_of last_used y ≤ stamp_of last_used x) ∧
        ∀ m z, m < k → fs[m]? = some z → stamp_of last_used y < stamp_of last_used z) := by
  induction fs with
  | nil =>
    intro j idx t
    left
    simp [lru_scan]
  | cons f fs ih =>
    intro j idx t
    by_cases hc : stamp_of last_used f < t
    · have e : lru_scan last_used (f :: fs) j idx t =
          lru_scan last_used fs (j + 1) j (stamp_of last_used f) := by
        simp [lru_scan, hc]
      rw [e]
      rcases ih (j + 1) j (stamp_of last_used f) with ⟨a, b⟩ | ⟨k, y, a, b, c1, c2, c3⟩
      · right
        refine ⟨0, f, by simpa using a, by simp, hc, ?_, fun m z hm _ => absurd hm (by omega)⟩
        intro x hx
        rcases List.mem_cons.1 hx with e1 | e1
        · subst e1; exact le_refl _
        · exact b x e1
      · right
        refine ⟨k + 1, y, by omega, by simpa using b, by omega, ?_, ?_⟩
        · intro x hx
          rcases List.mem_cons.1 hx with e1 | e1
          · subst e1; omega
          · exact c2 x e1
        · intro m z hm hz
          cases m with
          | zero =>
            have : f = z := by simpa using hz
            rw [← this]
            exact c1
          | succ m => exact c3 m z (by omega) (by simpa using hz)
    · have e : lru_scan last_used (f :: fs) j idx t = lru_scan last_used fs (j + 1) idx t := by
        simp [lru_scan, hc]
      rw [e]
      rcases ih (j + 1) idx t with ⟨a, b⟩ | ⟨k, y, a, b, c1, c2, c3⟩
      · left
        refine ⟨a, ?_⟩
        intro x hx
        rcases List.mem_cons.1 hx with e1 | e1
        · subst e1; omega
        · exact b x e1
      · right
        refine ⟨k + 1, y, by omega, by simpa using b, c1, ?_, ?_⟩
        · intro x hx
          rcases List.mem_cons.1 hx with e1 | e1
          · subst e1; omega
          · exact c2 x e1
        · intro m z hm hz
          cases m with
          | zero =>
            have : f = z := by simpa using hz
            rw [← this]
            omega
          | succ m => exact c3 m z (by omega) (by simpa using hz)

theorem mem_occupied_set {fr : List Int} {k : Nat} {v p : Int} (hmin : INT_MIN ∉ fr)
    (hnd : (occupied fr).Nodup) (hk : fr[k]? = some v) (hp : p ≠ INT_MIN) (x : Int) :
    x ∈ occupied (fr.set k p) ↔ x = p ∨ (x ∈ occupied fr ∧ x ≠ v) := by
  have h1 := resident_set hmin hnd hk hp
  have h2 : x ∈ resident (fr.set k p) ↔ x ∈ insert p ((resident fr).erase v) := by rw [h1]
  simp only [resident, List.mem_toFinset, Finset.mem_insert, Finset.mem_erase] at h2
  rw [h2]
  constructor
  · rintro (h | ⟨h3, h4⟩)
    · exact Or.inl h
    · exact Or.inr ⟨h4, h3⟩
  · rintro (h | ⟨h3, h4⟩)
    · exact Or.inl h
    · exact Or.inr ⟨h4, h3⟩

theorem lru_init_book (seq : List Int) (F : Nat) :
    ∃ st, lru_init (F : Int) = .ok st ∧ LruBook seq F 0 st := by
  refine ⟨_, by simp [lru_init, new_vector_ok]; rfl, by simp, ?_, rfl, ?_, ?_⟩
  · simp [occupied_replicate]
  · intro x
    simp [occupied_replicate]
  · intro x hx
    simp [occupied_replicate] at hx

theorem lru_body_book (seq : List Int) (F : Nat) (hF : 1 ≤ F) (verbose : Bool) (st : LruState)
    (n : Nat) (p : Int) (hp : seq[n]? = some p) (hpm : p ≠ INT_MIN) (hI : LruBook seq F n st) :
    ∃ st', lru_body verbose st n p = .ok st' ∧ LruBook seq F (n + 1) st' := by
  obtain ⟨hlen, hnd, htime, hmap, hbnd⟩ := hI
  obtain ⟨st', hb, hlen', hs⟩ := (lru_fillLoop F hF verbose).2 st n p hpm hlen
  have hnd' := nodup_install hpm hnd hs
  refine ⟨st', hb, hlen', hnd', ?_⟩
  have hother : ∀ x, x ≠ p → recent_time seq (n + 1) x = recent_time seq n x :=
    fun x hx => recent_time_other hp x hx
  have hself := recent_time_self hp
  -- it is enough to know how the occupied slots and the map changed
  have key : ∀ (victim : Option Int),
      (∀ x, x ∈ occupied st'.frames ↔
        x = p ∨ (x ∈ occupied st.frames ∧ some x ≠ victim)) →
      st'.time = st.time + 1 →
      (∀ x, st'.last_used x = if x = p then some (st.time + 1)
        else if some x = victim then none else st.last_used x) →
      st'.time = ((n + 1 : Nat) : Int) ∧
      (∀ x, st'.last_used x =
        if x ∈ occupied st'.frames then some (recent_time seq (n + 1) x) else none) ∧
      (∀ x ∈ occupied st'.frames,
        1 ≤ recent_time seq (n + 1) x ∧ recent_time seq (n + 1) x ≤ ((n + 1 : Nat) : Int)) := by
    intro victim hocc ht hlu
    refine ⟨by rw [ht, htime]; push_cast; rfl, ?_, ?_⟩
    · intro x
      rw [hlu x]
      by_cases hx : x = p
      · subst hx
        simp only [if_true, (hocc x).2 (Or.inl rfl), hself, htime]
      · simp only [hx, if_false]
        by_cases hv : some x = victim
        · have : x ∉ occupied st'.frames := by
            intro hc
            rcases (hocc x).1 hc with h1 | ⟨_, h2⟩
            · exact hx h1
            · exact h2 hv
          simp [hv, this]
        · simp only [hv, if_false]
          rw [hmap x, hother x hx]
          by_cases ho : x ∈ occupied st.frames
          · simp [ho, (hocc x).2 (Or.inr ⟨ho, hv⟩)]
          · have : x ∉ occupied st'.frames := by
              intro hc
              rcases (hocc x).1 hc with h1 | ⟨h2, _⟩
              · exact hx h1
              · exact ho h2
            simp [ho, this]
    · intro x hx
      rcases (hocc x).1 hx with h1 | ⟨h2, _⟩
      · rw [h1, hself]
        constructor <;> push_cast <;> omega
      · by_cases hxp : x = p
        · rw [hxp, hself]
          constructor <;> push_cast <;> omega
        · rw [hother x hxp]
          obtain ⟨a, b⟩ := hbnd x h2
          exact ⟨a, by push_cast; omega⟩
  by_cases hin : p ∈ st.frames
  · rw [lru_body_hit _ _ _ _ hin] at hb
    injection hb with e
    subst e
    have hpo : p ∈ occupied st.frames := mem_occupied.2 ⟨hin, hpm⟩
    apply key none
    · intro x
      constructor
      · intro h
        exact Or.inr ⟨h, by simp⟩
      · rintro (h | ⟨h, _⟩)
        · rw [h]; exact hpo
        · exact h
    · rfl
    · intro x
      simp [map_insert]
  · by_cases hmin : INT_MIN ∈ st.frames
    · rw [lru_body_fill _ _ _ _ hin hmin] at hb
      injection hb with e
      subst e
      have hperm := occupied_fill st.frames p hpm hmin
      apply key none
      · intro x
        rw [hperm.mem_iff, List.mem_cons]
        constructor
        · rintro (h | h)
          · exact Or.inl h
          · exact Or.inr ⟨h, by simp⟩
        · rintro (h | ⟨h, _⟩)
          · exact Or.inl h
          · exact Or.inr h
      · rfl
      · intro x
        simp [map_insert]
    · have hlt : lru_scan st.last_used st.frames 0 0 INT_MAX < st.frames.length := by
        have := lru_scan_lt st.last_used st.frames 0 0 INT_MAX (by omega)
        omega
      have hv := List.getElem?_eq_getElem hlt
      rw [lru_body_evict _ _ _ _ _ hin hmin hv] at hb
      injection hb with e
      subst e
      apply key (some st.frames[lru_scan st.last_used st.frames 0 0 INT_MAX])
      · intro x
        rw [mem_occupied_set hmin hnd hv hpm x]
        simp
      · rfl
      · intro x
        by_cases hx : x = p
        · simp [map_insert, hx]
        · by_cases hxv : x = st.frames[lru_scan st.last_used st.frames 0 0 INT_MAX]
          · simp [map_insert, map_erase, hx, ← hxv]
          · simp [map_insert, map_erase, hx, hxv]

theorem lru_book_runs (F : Nat) (hF : 1 ≤ F) (seq : List Int)
    (hseq : ∀ p ∈ seq, p ≠ INT_MIN) (verbose : Bool) :
    ∀ n, n ≤ seq.length →
      ∃ st, lru_iter seq (F : Int) verbose n = .ok st ∧ LruBook seq F n st := by
  obtain ⟨s0, h0, hI0⟩ := lru_init_book seq F
  exact iterate_refs_inv seq (lru_init (F : Int)) (lru_body verbose)
    (fun n st => LruBook seq F n st) s0 h0 hI0
    (fun i st p hp hI =>
      lru_body_book seq F hF verbose st i p hp (hseq p (List.mem_iff_getElem?.2 ⟨_, hp⟩)) hI)

/-- Claim C17: for every `F >= 1` and every sequence of non-negative pages (of a length that
fits an `int`, as `seq.size()` does), after every step of `simulate_lru` the keys of `last_used`
are exactly the pages in occupied slots and each is mapped to the 1-based position of its most
recent reference, so the default timestamp `0` is never used for a resident page; and when a
fault finds every slot occupied, the page of the overwritten slot has the smallest `last_used`
value of all resident pages, and its key is erased. -/
theorem lru_bookkeeping (F : Int) (hF : 1 ≤ F) (seq : List Int) (hseq : ∀ p ∈ seq, 0 ≤ p)
    (hlen : (seq.length : Int) ≤ INT_MAX) (verbose : Bool) (n : Nat) (hn : n ≤ seq.length) :
    ∃ st, lru_iter seq F verbose n = .ok st ∧
      (∀ x, st.last_used x =
        if x ∈ st.frames ∧ x ≠ INT_MIN then some (recent_time seq n x) else none) ∧
      (∀ x ∈ st.frames, x ≠ INT_MIN →
        1 ≤ recent_time seq n x ∧ recent_time seq n x ≤ (n : Int) ∧
          stamp_of st.last_used x = recent_time seq n x) ∧
      ∀ p, seq[n]? = some p → p ∉ st.frames → INT_MIN ∉ st.frames →
        ∃ k v st', st.frames[k]? = some v ∧
          (∀ x ∈ st.frames, ∃ tv tx, st.last_used v = some tv ∧ st.last_used x = some tx ∧
            tv ≤ tx ∧ tv = recent_time seq n v ∧ tx = recent_time seq n x) ∧
          lru_iter seq F verbose (n + 1) = .ok st' ∧
          st'.frames = st.frames.set k p ∧ st'.last_used v = none := by
  obtain ⟨G, rfl, hG⟩ := exists_nat_of_one_le hF
  have hne := nonneg_ne_INT_MIN hseq
  obtain ⟨st, hst, hfl, hnd, htime, hmap, hbnd⟩ := lru_book_runs G hG seq hne verbose n hn
  have hmap' : ∀ x, st.last_used x =
      if x ∈ st.frames ∧ x ≠ INT_MIN then some (recent_time seq n x) else none := by
    intro x
    rw [hmap x]
    by_cases h : x ∈ occupied st.frames
    · simp [h, mem_occupied.1 h]
    · have : ¬ (x ∈ st.frames ∧ x ≠ INT_MIN) := fun hc => h (mem_occupied.2 hc)
      simp [h, this]
  have hstamp : ∀ x ∈ st.frames, x ≠ INT_MIN →
      st.last_used x = some (recent_time seq n x) := by
    intro x hx hxm
    rw [hmap x]
    simp [mem_occupied.2 ⟨hx, hxm⟩]
  refine ⟨st, hst, hmap', ?_, ?_⟩
  · intro x hx hxm
    obtain ⟨a, b⟩ := hbnd x (mem_occupied.2 ⟨hx, hxm⟩)
    exact ⟨a, b, stamp_of_some (hstamp x hx hxm)⟩
  · intro p hp hin hmin
    have hi : n < seq.length := (List.getElem?_eq_some_iff.1 hp).1
    have hxm : ∀ x ∈ st.frames, x ≠ INT_MIN := fun x hx e => hmin (e ▸ hx)
    have hlt : ∀ x ∈ st.frames, stamp_of st.last_used x < INT_MAX := by
      intro x hx
      rw [stamp_of_some (hstamp x hx (hxm x hx))]
      have := (hbnd x (mem_occupied.2 ⟨hx, hxm x hx⟩)).2
      have h2 : (n : Int) < (seq.length : Int) := by exact_mod_cast hi
      omega
    rcases lru_scan_min st.last_used st.frames 0 0 INT_MAX with ⟨_, b⟩ | ⟨k, v, a, b, _, c2, _⟩
    · exfalso
      cases hfe : st.frames with
      | nil =>
        rw [hfe] at hfl
        simp at hfl
        omega
      | cons f fs =>
        have hf : f ∈ st.frames := by rw [hfe]; exact List.mem_cons_self _ _
        have := b f hf
        have := hlt f hf
        omega
    · have ha : lru_scan st.last_used st.frames 0 0 INT_MAX = k := by omega
      have hvm : v ∈ st.frames := List.mem_iff_getElem?.2 ⟨_, b⟩
      have hb := lru_body_evict verbose st n p v hin hmin (by rw [ha]; exact b)
      rw [ha] at hb
      have hnext : lru_iter seq (G : Int) verbose (n + 1) =
          .ok { frames := st.frames.set k p,
                last_used := map_insert (map_erase st.last_used v) p (st.time + 1),
                time := st.time + 1, faults := st.faults + 1,
                out := emit verbose st.out (st.frames.set k p) p n false } := by
        unfold lru_iter
        rw [iterate_refs_succ seq _ _ n st p hst hp, hb]
      have hmin' : ∀ x ∈ st.frames, ∃ tv tx, st.last_used v = some tv ∧
          st.last_used x = some tx ∧ tv ≤ tx ∧ tv = recent_time seq n v ∧
          tx = recent_time seq n x := by
        intro x hx
        have h1 := c2 x hx
        rw [stamp_of_some (hstamp x hx (hxm x hx)),
          stamp_of_some (hstamp v hvm (hxm v hvm))] at h1
        exact ⟨_, _, hstamp v hvm (hxm v hvm), hstamp x hx (hxm x hx), h1, rfl, rfl⟩
      have hvp : v ≠ p := fun e => hin (e ▸ hvm)
      exact ⟨k, v, _, b, hmin', hnext, rfl, by simp [map_insert, map_erase, hvp]⟩

/-- Claim C17 at a concrete input: 2 frames, references 1 2 1 3, the state after three steps
(the next step evicts page 2). -/
theorem lru_bookkeeping_witness :
    ∃ st, lru_iter [1, 2, 1, 3] 2 true 3 = .ok st ∧
      (∀ x, st.last_used x =
        if x ∈ st.frames ∧ x ≠ INT_MIN then some (recent_time [1, 2, 1, 3] 3 x) else none) ∧
      (∀ x ∈ st.frames, x ≠ INT_MIN →
        1 ≤ recent_time [1, 2, 1, 3] 3 x ∧ recent_time [1, 2, 1, 3] 3 x ≤ ((3 : Nat) : Int) ∧
          stamp_of st.last_used x = recent_time [1, 2, 1, 3] 3 x) ∧
      ∀ p, ([1, 2, 1, 3] : List Int)[3]? = some p → p ∉ st.frames → INT_MIN ∉ st.frames →
        ∃ k v st', st.frames[k]? = some v ∧
          (∀ x ∈ st.frames, ∃ tv tx, st.last_used v = some tv ∧ st.last_used x = some tx ∧
            tv ≤ tx ∧ tv = recent_time [1, 2, 1, 3] 3 v ∧
            tx = recent_time [1, 2, 1, 3] 3 x) ∧
          lru_iter [1, 2, 1, 3] 2 true (3 + 1) = .ok st' ∧
          st'.frames = st.frames.set k p ∧ st'.last_used v = none :=
  lru_bookkeeping 2 (by decide) [1, 2, 1, 3] (by decide) (by decide) true 3 (by decide)

end PageReplacement
